import Mathlib

/-!
# CasADi MX expression nodes: construction-time simplification and destruction

A shallow embedding of `symbolic/mx/mx_node.cpp` (class `MXNode`): the factory
functions `getUnary`, `getBinarySwitch`, `getBinary` and the nonzero-access
factories, the accessors and the unsupported operations of the base class, the
method `print`, and the destructor, together with the parts of `MX`,
`CRSSparsity` and the node classes they call; and of
`casadi/interfaces/bonmin/bonmin_interface.cpp` (class `BonminInterface`): the
serialization, the SOS1 data set up by `init` and checked by `init_mem`, and the
bound multipliers exchanged by `get_starting_point` and
`intermediate_callback`.

Conventions of the embedding.

* An expression handle is a value of the inductive type `MX`; handing back
  "the handle of x itself" is returning the value `x`.
* Every `MX::create(new ...)` of `mx_node.cpp` is recorded: a factory call
  returns a `Built`, the list of nodes it allocated (in order) and either the
  resulting handle or the error it raised.
* The read-only tables of `casadi_calculus.hpp` (`F0XChecker`, `FX0Checker`,
  `F00Checker`, `CommChecker`, `casadi_math::fun` at (0,0)) are not part of
  the file; they are a parameter `Calculus` of every factory function.
* `double` values are exact rationals.
* A virtual call (`y->getBinary(...)`, `dep(i)->print(...)`) is the base
  implementation of `MXNode`, the only one in the file; the virtual `printPart`
  is a parameter.
* Handles given to the factory are non-null: every factory function
  dereferences its operands before anything else.
* For the destructor the graph is a memory of reference-counted nodes whose
  dependency slots hold null or the address of a node; copying a handle adds
  an owner, giving one up removes an owner and destroys the node with the last
  one.
* An array reached through a pointer is the function from indices to values.
* A value of type `int` is an integer; where the code stores a wider value into
  an `int`, the conversion is written out modulo `2^32`.
* The value of an expression is taken position by position, a structural zero
  holding the value zero.
-/

namespace CasADi

/-! ## Operation codes and the calculus tables -/

/-- Operation codes (enum `Operation`).  The codes named in `mx_node.cpp` are
constructors of their own; every other code of the enum is `other k`. -/
inductive Operation where
  | OP_ADD
  | OP_SUB
  | OP_MUL
  | OP_DIV
  | OP_NEG
  | OP_CONSTPOW
  | OP_SQ
  | OP_INV
  | OP_CONST
  | OP_PARAMETER
  | OP_SET_SPARSE
  | other (code : Nat)
  deriving DecidableEq, Repr

/-- The tables consulted through `operation_checker<...>(op)` and
`casadi_math<double>::fun(op,0,0,.)`.  They live in `casadi_calculus.hpp`,
which is not part of the file, and are a parameter of the factory. -/
structure Calculus where
  /-- Table `F0XChecker`: the operation maps a zero first operand to zero. -/
  F0XChecker : Operation → Bool
  /-- Table `FX0Checker`: the operation maps a zero second operand to zero. -/
  FX0Checker : Operation → Bool
  /-- Table `F00Checker`: the operation maps (0,0) to zero. -/
  F00Checker : Operation → Bool
  /-- Table `CommChecker`: the operation is commutative. -/
  CommChecker : Operation → Bool
  /-- Value of the operation at (0,0), `casadi_math<double>::fun(op,0,0,.)`. -/
  fun00 : Operation → Rat

/-- Modelled from the spec: the checker tables of `casadi_calculus.hpp` are
missing; this instance fills the entries of the operations named in
`mx_node.cpp` by their arithmetic meaning ("absorbing" when a zero operand
forces a zero result, e.g. multiplication by zero) and answers `false` for
every other code.  It is used only to evaluate the factory on examples. -/
def arithCalculus : Calculus where
  F0XChecker := fun op =>
    op = .OP_MUL || op = .OP_DIV || op = .OP_NEG || op = .OP_SQ
  FX0Checker := fun op => op = .OP_MUL
  F00Checker := fun op =>
    op = .OP_ADD || op = .OP_SUB || op = .OP_MUL || op = .OP_NEG || op = .OP_SQ
  CommChecker := fun op => op = .OP_ADD || op = .OP_MUL
  fun00 := fun op => if op = .OP_CONSTPOW then 1 else 0

/-! ## Sparsity patterns -/

/-- Modelled from the spec: class `CRSSparsity` is missing.  A pattern has a
row count, a column count and the list of its structurally nonzero
(row, column) positions. -/
structure CRSSparsity where
  size1 : Nat
  size2 : Nat
  nz : List (Nat × Nat)
  deriving DecidableEq, Repr

namespace CRSSparsity

/-- Number of stored nonzeros, `size()`. -/
def size (s : CRSSparsity) : Nat := s.nz.length

/-- Number of entries, `numel()`. -/
def numel (s : CRSSparsity) : Nat := s.size1 * s.size2

/-- The pair (rows, columns), `shape()`. -/
def shape (s : CRSSparsity) : Nat × Nat := (s.size1, s.size2)

/-- Test `scalar()`: exactly one entry. -/
def scalar (s : CRSSparsity) : Bool := s.numel == 1

/-- Test `dense()`: every entry is stored. -/
def dense (s : CRSSparsity) : Bool := s.size == s.numel

/-- All positions of an `n`-by-`m` array in row-major order. -/
def allPositions (n m : Nat) : List (Nat × Nat) :=
  List.product (List.range n) (List.range m)

/-- The dense pattern `sp_dense(n,m)`. -/
def sp_dense (n m : Nat) : CRSSparsity := ⟨n, m, allPositions n m⟩

/-- The pattern `CRSSparsity(n,m)` without any stored nonzero. -/
def sp_sparse (n m : Nat) : CRSSparsity := ⟨n, m, []⟩

/-- Modelled from the spec: `patternCombine` is missing.  The result has the
shape of the first pattern; a position stored in at least one operand is kept
unless it is a structural zero of an operand whose flag says that a zero there
forces a zero result.  Positions that are structural zeros of both operands
are left out (the call site in `getBinarySwitch` documents that structural
zeros giving rise to a nonzero result are ignored here). -/
def patternCombine (x y : CRSSparsity) (f0x_is_zero fx0_is_zero : Bool) :
    CRSSparsity :=
  ⟨x.size1, x.size2,
    (allPositions x.size1 x.size2).filter fun p =>
      (decide (p ∈ x.nz) || decide (p ∈ y.nz)) &&
      (decide (p ∈ x.nz) || !f0x_is_zero) &&
      (decide (p ∈ y.nz) || !fx0_is_zero)⟩

end CRSSparsity

open CRSSparsity

/-! ## Expression nodes -/

/-- Expression nodes of the catalog that the binary factory builds or
inspects.  The node classes are missing (only the base class is in
`mx_node.cpp`); each constructor stands for the class named in its comment and
carries the arguments of that class's constructor call. -/
inductive MX where
  /-- A symbolic primitive (`SymbolicMX`). -/
  | symbolic (name : String) (sp : CRSSparsity)
  /-- A constant whose stored nonzeros all have the value `v` (`ConstantMX`). -/
  | constant (sp : CRSSparsity) (v : Rat)
  /-- Node `UnaryMX(op, x)`. -/
  | unary (op : Operation) (x : MX)
  /-- Node `BinaryMX<ScX,ScY>(op, x, y)`. -/
  | binary (scX scY : Bool) (op : Operation) (x y : MX)
  /-- Node `SetSparse(x, sp)`: the projection of `x` onto the pattern `sp`. -/
  | setSparse (x : MX) (sp : CRSSparsity)
  /-- The scalar `x` broadcast onto the pattern `sp`, `MX(sp, x)`. -/
  | broadcast (sp : CRSSparsity) (x : MX)
  /-- The expression `x` made dense, structural zeros holding the value `v`. -/
  | filled (x : MX) (v : Rat)
  deriving DecidableEq, Repr

/-- Errors raised by the methods of `MXNode`. -/
inductive Error where
  /-- First assertion of `getBinarySwitch`: "Dimension mismatch. lhs is ...". -/
  | dimensionMismatch (lhs rhs : Nat × Nat)
  /-- Second assertion of `getBinarySwitch`: "Dimension mismatch.". -/
  | shapeMismatch
  /-- Exception `std::out_of_range` of `dep_.at(ind)`. -/
  | outOfRange
  /-- A `CasadiException` carrying the given message. -/
  | casadiException (msg : String)
  deriving DecidableEq, Repr

namespace MX

/-- Modelled from the spec: the output pattern of a node is set by the
constructor of its class (missing); a unary node has the pattern of its
operand, a binary node that of its non-scalar operand, a projection or a
broadcast the pattern it was given, and a densified node the dense pattern. -/
def sparsity : MX → CRSSparsity
  | symbolic _ sp => sp
  | constant sp _ => sp
  | unary _ x => sparsity x
  | binary scX _ _ x y => if scX then sparsity y else sparsity x
  | setSparse _ sp => sp
  | broadcast sp _ => sp
  | filled x _ => sp_dense (sparsity x).size1 (sparsity x).size2

/-- Method `MXNode::size1`. -/
def size1 (x : MX) : Nat := x.sparsity.size1

/-- Method `MXNode::size2`. -/
def size2 (x : MX) : Nat := x.sparsity.size2

/-- Method `MXNode::size`: the number of stored nonzeros. -/
def size (x : MX) : Nat := x.sparsity.size

/-- Test `MX::scalar`. -/
def scalar (x : MX) : Bool := x.sparsity.scalar

/-- Test `MX::dense`. -/
def dense (x : MX) : Bool := x.sparsity.dense

/-- Modelled from the spec: virtual `getOp` of the node classes (missing). -/
def getOp : MX → Operation
  | symbolic _ _ => .OP_PARAMETER
  | constant _ _ => .OP_CONST
  | unary op _ => op
  | binary _ _ op _ _ => op
  | setSparse _ _ => .OP_SET_SPARSE
  | broadcast _ _ => .other 0
  | filled _ _ => .other 1

/-- Modelled from the spec: virtual `isZero` (missing); only a constant can be
structurally known to be identically zero. -/
def isZero : MX → Bool
  | constant _ v => v == 0
  | _ => false

/-- Modelled from the spec: virtual `isValue` (missing); only a constant has a
known value. -/
def isValue : MX → Rat → Bool
  | constant _ v, w => v == w
  | _, _ => false

/-- The dependency vector `dep_` of a node. -/
def dep_ : MX → List MX
  | symbolic _ _ => []
  | constant _ _ => []
  | unary _ x => [x]
  | binary _ _ _ x y => [x, y]
  | setSparse x _ => [x]
  | broadcast _ x => [x]
  | filled x _ => [x]

/-- Method `MXNode::ndep`. -/
def ndep (x : MX) : Nat := x.dep_.length

/-- Method `MXNode::dep(ind)`, that is `dep_.at(ind)`. -/
def dep (x : MX) (ind : Int) : Except Error MX :=
  if 0 ≤ ind then
    match x.dep_.get? ind.toNat with
    | some d => .ok d
    | none => .error .outOfRange
  else .error .outOfRange

/-- Modelled from the spec: `MX::sparse(n,m)`, the all-structural-zero value of
shape `n`-by-`m` (no stored nonzero). -/
def sparse (n m : Nat) : MX := constant (sp_sparse n m) 0

/-- Modelled from the spec: `MX(v)`, the dense scalar constant of value `v`. -/
def scalarConst (v : Rat) : MX := constant (sp_dense 1 1) v

/-- Modelled from the spec: `toMatrix(x, sp)` of `mx_node.hpp` (missing), the
scalar-vs-matrix broadcast: `x` itself when it already has the shape of `sp`,
otherwise `x` broadcast onto `sp`. -/
def toMatrix (x : MX) (sp : CRSSparsity) : MX :=
  if x.sparsity.shape = sp.shape then x else broadcast sp x

/-- Modelled from the spec: `MX::makeDense(val)` (missing): the expression
itself when it is dense, otherwise the densified expression whose missing
structural positions are filled with `val`. -/
def makeDense (x : MX) (val : Rat) : MX :=
  if x.dense then x else filled x val

end MX

open MX

/-! ## Factory results -/

/-- Result of a factory call: the nodes allocated by `MX::create`, oldest
first, and the handle returned or the error raised. -/
structure Built where
  created : List MX
  out : Except Error MX

namespace Built

/-- Return an existing handle; nothing is allocated. -/
def ret (x : MX) : Built := ⟨[], .ok x⟩

/-- Raise an error; nothing is allocated. -/
def fail (e : Error) : Built := ⟨[], .error e⟩

/-- The call `MX::create(new N)`: allocate the node and return its handle. -/
def create (n : MX) : Built := ⟨[n], .ok n⟩

/-- The same result, after the nodes `pre` were allocated first. -/
def after (b : Built) (pre : List MX) : Built := ⟨pre ++ b.created, b.out⟩

/-- Apply a function that allocates nothing to the returned handle. -/
def map (b : Built) (f : MX → MX) : Built :=
  ⟨b.created, match b.out with
    | .ok x => .ok (f x)
    | .error e => .error e⟩

/-- Sequencing: continue with the returned handle, or stop at the error. -/
def bind (b : Built) (f : MX → Built) : Built :=
  match b.out with
  | .ok x => (f x).after b.created
  | .error e => ⟨b.created, .error e⟩

end Built

/-! ## The factory functions of `mx_node.cpp` -/

/-- Method `MXNode::getSetSparse`. -/
def getSetSparse (x : MX) (sp : CRSSparsity) : Built :=
  Built.create (.setSparse x sp)

/-- Modelled from the spec: `densify(x)` of `mx_tools` (missing): `x` itself
when it is dense, otherwise its projection onto the dense pattern of its
shape, built by `getSetSparse`. -/
def densify (x : MX) : Built :=
  if x.dense then Built.ret x else getSetSparse x (sp_dense x.size1 x.size2)

/-- Method `MXNode::getUnary`. -/
def getUnary (T : Calculus) (op : Operation) (x : MX) : Built :=
  if T.F0XChecker op && x.isZero then
    -- If identically zero
    Built.ret (MX.sparse x.size1 x.size2)
  else
    -- Create a new node
    Built.create (.unary op x)

/-- The return statements of the switch over `y->getOp()` that opens
`MXNode::getBinary`; `noRule` stands for leaving the switch by `break`. -/
inductive Rule where
  /-- Statement `return y->getBinary(op,shared_from_this<MX>(),scY,scX)`. -/
  | swap
  /-- Statement `return getUnary(OP_SQ)`. -/
  | square
  /-- Statement `return shared_from_this<MX>()`. -/
  | collapse
  /-- Case `OP_NEG`, `op==OP_ADD`. -/
  | negAdd
  /-- Case `OP_NEG`, `op==OP_SUB`. -/
  | negSub
  /-- Case `OP_INV`, `op==OP_MUL`. -/
  | invMul
  /-- Case `OP_INV`, `op==OP_DIV`. -/
  | invDiv
  /-- No return statement is reached. -/
  | noRule
  deriving DecidableEq, Repr

/-- The switch "Handle special cases for the second argument" of
`MXNode::getBinary`: which of its return statements is reached. -/
def specialCase (T : Calculus) (op : Operation) (x y : MX) : Rule :=
  match y.getOp with
  | .OP_CONST =>
    -- Make the constant the first argument, if possible
    if x.getOp ≠ .OP_CONST ∧ T.CommChecker op = true then .swap
    else if op = .OP_CONSTPOW ∧ y.isValue 2 = true then .square
    else if ((op = .OP_ADD ∨ op = .OP_SUB) ∧ y.isZero = true) ∨
        ((op = .OP_MUL ∨ op = .OP_DIV) ∧ y.isValue 1 = true) then .collapse
    else .noRule
  | .OP_NEG =>
    if op = .OP_ADD then .negAdd
    else if op = .OP_SUB then .negSub
    else .noRule
  | .OP_INV =>
    if op = .OP_MUL then .invMul
    else if op = .OP_DIV then .invDiv
    else .noRule
  | _ => .noRule

/-- Length of the chain of negation/reciprocal heads of an expression. -/
def stripDepth : MX → Nat
  | .unary op x => if op = .OP_NEG ∨ op = .OP_INV then stripDepth x + 1 else 0
  | .binary _ _ op x _ => if op = .OP_NEG ∨ op = .OP_INV then stripDepth x + 1 else 0
  | _ => 0

/-- The expression is a projection onto a dense pattern. -/
def isDensified : MX → Bool
  | .setSparse _ sp => sp.dense
  | _ => false

/-- Termination measure of `getBinary`. -/
def cascadeMeasure (x y : MX) (scX scY : Bool) : Nat :=
  (if (scX = true ∧ isDensified y = true) ∨
      (scX = false ∧ scY = true ∧ isDensified x = true) then 0 else 2) +
    stripDepth y + (if x.getOp = .OP_CONST then 0 else stripDepth x + 1)

/-- Method `MXNode::getBinary`: the node `this` is `x`. -/
def getBinary (T : Calculus) (op : Operation) (x y : MX) (scX scY : Bool) : Built :=
  -- Handle special cases for the second argument
  match hr : specialCase T op x y with
  | .swap => getBinary T op y x scY scX
  | .square => getUnary T .OP_SQ x
  | .collapse => Built.ret x
  | .negAdd =>
    match hd : y.dep 0 with
    | .ok z => getBinary T .OP_SUB x z scX scY
    | .error e => Built.fail e
  | .negSub =>
    match hd : y.dep 0 with
    | .ok z => getBinary T .OP_ADD x z scX scY
    | .error e => Built.fail e
  | .invMul =>
    match hd : y.dep 0 with
    | .ok z => getBinary T .OP_DIV x z scX scY
    | .error e => Built.fail e
  | .invDiv =>
    match hd : y.dep 0 with
    | .ok z => getBinary T .OP_MUL x z scX scY
    | .error e => Built.fail e
  | .noRule =>
    if hx : scX = true then
      -- Check if it is ok to loop over nonzeros only
      if hdy : y.dense = true ∨ T.FX0Checker op = true then
        -- Loop over nonzeros
        Built.create (.binary true false op x y)
      else
        -- Put a densification node in between
        match hd : densify y with
        | ⟨cr, .ok yd⟩ => (getBinary T op x yd true false).after cr
        | ⟨cr, .error e⟩ => ⟨cr, .error e⟩
    else if hy : scY = true then
      -- Check if it is ok to loop over nonzeros only
      if hdx : x.dense = true ∨ T.F0XChecker op = true then
        -- Loop over nonzeros
        Built.create (.binary false true op x y)
      else
        -- Put a densification node in between
        match hd : densify x with
        | ⟨cr, .ok xd⟩ => (getBinary T op xd y false true).after cr
        | ⟨cr, .error e⟩ => ⟨cr, .error e⟩
    else
      -- Loop over nonzeros only
      let rr := MX.binary false false op x y
      -- Handle structural zeros giving rise to nonzero result, e.g. cos(0) == 1
      if rr.dense = false ∧ T.F00Checker op = false then
        (Built.create rr).map fun r => r.makeDense (T.fun00 op)
      else
        Built.create rr
termination_by cascadeMeasure x y scX scY
decreasing_by
  all_goals simp_wf
  · -- operand swap: the constant `y` has no strippable head
    have h : y.getOp = .OP_CONST ∧ x.getOp ≠ .OP_CONST := by
      unfold specialCase at hr
      split at hr <;> (try split_ifs at hr) <;> simp_all
    obtain ⟨hy, hxc⟩ := h
    have key : stripDepth y = 0 ∧ isDensified y = false := by
      cases y
      all_goals simp_all [MX.getOp, stripDepth, isDensified]
    obtain ⟨h1, h2⟩ := key
    unfold cascadeMeasure
    rw [h1, h2, if_pos hy, if_neg hxc]
    cases scX <;> cases scY <;> cases isDensified x <;> simp <;> omega
  · -- stripping a negation/reciprocal head: the second operand shrinks
    have hop : y.getOp = .OP_NEG ∨ y.getOp = .OP_INV := by
      unfold specialCase at hr
      split at hr <;> (try split_ifs at hr) <;> simp_all
    have key : stripDepth z < stripDepth y ∧ isDensified y = false := by
      cases y
      all_goals simp only [MX.getOp] at hop
      all_goals simp only [MX.dep, MX.dep_] at hd
      all_goals simp_all [stripDepth, isDensified]
    obtain ⟨h1, h2⟩ := key
    unfold cascadeMeasure
    rw [h2]
    generalize (if x.getOp = Operation.OP_CONST then 0 else stripDepth x + 1) = c
    cases scX <;> cases scY <;> cases isDensified x <;> cases isDensified z <;>
      simp <;> omega
  · -- stripping a negation/reciprocal head: the second operand shrinks
    have hop : y.getOp = .OP_NEG ∨ y.getOp = .OP_INV := by
      unfold specialCase at hr
      split at hr <;> (try split_ifs at hr) <;> simp_all
    have key : stripDepth z < stripDepth y ∧ isDensified y = false := by
      cases y
      all_goals simp only [MX.getOp] at hop
      all_goals simp only [MX.dep, MX.dep_] at hd
      all_goals simp_all [stripDepth, isDensified]
    obtain ⟨h1, h2⟩ := key
    unfold cascadeMeasure
    rw [h2]
    generalize (if x.getOp = Operation.OP_CONST then 0 else stripDepth x + 1) = c
    cases scX <;> cases scY <;> cases isDensified x <;> cases isDensified z <;>
      simp <;> omega
  · -- stripping a negation/reciprocal head: the second operand shrinks
    have hop : y.getOp = .OP_NEG ∨ y.getOp = .OP_INV := by
      unfold specialCase at hr
      split at hr <;> (try split_ifs at hr) <;> simp_all
    have key : stripDepth z < stripDepth y ∧ isDensified y = false := by
      cases y
      all_goals simp only [MX.getOp] at hop
      all_goals simp only [MX.dep, MX.dep_] at hd
      all_goals simp_all [stripDepth, isDensified]
    obtain ⟨h1, h2⟩ := key
    unfold cascadeMeasure
    rw [h2]
    generalize (if x.getOp = Operation.OP_CONST then 0 else stripDepth x + 1) = c
    cases scX <;> cases scY <;> cases isDensified x <;> cases isDensified z <;>
      simp <;> omega
  · -- stripping a negation/reciprocal head: the second operand shrinks
    have hop : y.getOp = .OP_NEG ∨ y.getOp = .OP_INV := by
      unfold specialCase at hr
      split at hr <;> (try split_ifs at hr) <;> simp_all
    have key : stripDepth z < stripDepth y ∧ isDensified y = false := by
      cases y
      all_goals simp only [MX.getOp] at hop
      all_goals simp only [MX.dep, MX.dep_] at hd
      all_goals simp_all [stripDepth, isDensified]
    obtain ⟨h1, h2⟩ := key
    unfold cascadeMeasure
    rw [h2]
    generalize (if x.getOp = Operation.OP_CONST then 0 else stripDepth x + 1) = c
    cases scX <;> cases scY <;> cases isDensified x <;> cases isDensified z <;>
      simp <;> omega
  · -- densified second operand: no further densification is possible
    have hnd : y.dense = false := by
      cases h : y.dense
      · rfl
      · exact absurd (Or.inl h) hdy
    have hyd : yd = .setSparse y (sp_dense y.size1 y.size2) := by
      simp [densify, hnd, getSetSparse, Built.create] at hd
      exact hd.2.symm
    have hden : (sp_dense y.size1 y.size2).dense = true := by
      simp only [CRSSparsity.dense, CRSSparsity.size, CRSSparsity.numel, sp_dense,
        allPositions, beq_iff_eq]
      exact (List.length_product _ _).trans (by simp)
    have hy2 : isDensified y = false := by
      cases y <;> simp_all [isDensified, MX.dense, MX.sparsity]
    have e1 : isDensified yd = true := by rw [hyd]; exact hden
    have e2 : stripDepth yd = 0 := by rw [hyd]; rfl
    subst hx
    unfold cascadeMeasure
    rw [e1, e2, hy2]
    generalize (if x.getOp = Operation.OP_CONST then 0 else stripDepth x + 1) = c
    simp
  · -- densified first operand: no further densification is possible
    have hnd : x.dense = false := by
      cases h : x.dense
      · rfl
      · exact absurd (Or.inl h) hdx
    have hxd : xd = .setSparse x (sp_dense x.size1 x.size2) := by
      simp [densify, hnd, getSetSparse, Built.create] at hd
      exact hd.2.symm
    have hden : (sp_dense x.size1 x.size2).dense = true := by
      simp only [CRSSparsity.dense, CRSSparsity.size, CRSSparsity.numel, sp_dense,
        allPositions, beq_iff_eq]
      exact (List.length_product _ _).trans (by simp)
    have hx2 : isDensified x = false := by
      cases x <;> simp_all [isDensified, MX.dense, MX.sparsity]
    have e1 : isDensified xd = true := by rw [hxd]; exact hden
    have e2 : stripDepth xd = 0 := by rw [hxd]; rfl
    have e3 : xd.getOp ≠ Operation.OP_CONST := by rw [hxd]; simp [MX.getOp]
    have hsx : scX = false := by
      cases scX
      · rfl
      · exact absurd rfl hx
    subst hsx
    subst hy
    unfold cascadeMeasure
    rw [e1, e2, hx2, if_neg e3]
    generalize (if x.getOp = Operation.OP_CONST then 0 else stripDepth x + 1) = c
    simp
    omega

/-- Method `MXNode::getBinarySwitch`: the node `this` is `x`. -/
def getBinarySwitch (T : Calculus) (op : Operation) (x y : MX) : Built :=
  -- Make sure that dimensions match
  if ¬ (x.sparsity.scalar = true ∨ y.scalar = true ∨
      (x.sparsity.size1 = y.size1 ∧ x.size2 = y.size2)) then
    Built.fail (.dimensionMismatch x.sparsity.shape y.sparsity.shape)
  -- Quick return if zero
  else if (T.F0XChecker op = true ∧ x.isZero = true) ∨
      (T.FX0Checker op = true ∧ y.isZero = true) then
    Built.ret (MX.sparse (max x.size1 y.size1) (max x.size2 y.size2))
  -- Create binary node
  else if x.sparsity.scalar = true then
    if x.size = 0 then
      (getBinary T op (MX.scalarConst 0) y true false).map fun r => r.toMatrix y.sparsity
    else
      (getBinary T op x y true false).map fun r => r.toMatrix y.sparsity
  else if y.scalar = true then
    if y.size = 0 then
      (getBinary T op x (MX.scalarConst 0) false true).map fun r => r.toMatrix x.sparsity
    else
      (getBinary T op x y false true).map fun r => r.toMatrix x.sparsity
  else
    if x.sparsity.shape ≠ y.sparsity.shape then Built.fail .shapeMismatch
    else if x.sparsity = y.sparsity then
      -- Matching sparsities
      getBinary T op x y false false
    else
      -- Get the sparsity pattern of the result
      let r_sp := x.sparsity.patternCombine y.sparsity (T.F0XChecker op) (T.FX0Checker op)
      -- Project the arguments to this sparsity
      (getSetSparse x r_sp).bind fun xx =>
        (getSetSparse y r_sp).bind fun yy =>
          getBinary T op xx yy false false

/-! ## Example operands -/

/-- The symbolic scalar `x0`. -/
def exSym : MX := .symbolic "x0" (sp_dense 1 1)

/-- A symbolic dense 2-by-2 matrix. -/
def exMat : MX := .symbolic "A" (sp_dense 2 2)

/-- A symbolic 2-by-2 matrix with the single stored nonzero (0,0). -/
def exSparseMat : MX := .symbolic "B" ⟨2, 2, [(0, 0)]⟩

/-- The reciprocal of the sparse matrix `B`. -/
def exInvB : MX := .unary .OP_INV exSparseMat

/-- The dense scalar constant 0. -/
def exZero : MX := MX.scalarConst 0

/-- The dense scalar constant 1. -/
def exOne : MX := MX.scalarConst 1

/-- The dense scalar constant 2. -/
def exTwo : MX := MX.scalarConst 2

/-- The dense scalar constant 5. -/
def exFive : MX := MX.scalarConst 5

/-! ## Accessors and unsupported operations of the base class -/

namespace MX

/-- Method `const MX& MXNode::dep(int ind) const`, that is `dep_.at(ind)`. -/
def depConst (x : MX) (ind : Int) : Except Error MX :=
  if 0 ≤ ind then
    match x.dep_.get? ind.toNat with
    | some d => .ok d
    | none => .error .outOfRange
  else .error .outOfRange

/-- Method `MXNode::sparsity(int oind)`. -/
def sparsityOut (x : MX) (oind : Int) : Except Error CRSSparsity :=
  if oind = 0 then .ok x.sparsity
  else .error (.casadiException "Index out of bounds")

/-- Method `MXNode::getOutput(int oind)`. -/
def getOutput (x : MX) (oind : Int) : Except Error MX :=
  if oind = 0 then .ok x
  else .error (.casadiException "Output index out of bounds")

end MX

/-- The buffers that an evaluation writes through its reference arguments. -/
structure EvalBuffers (D : Type) where
  output : List D
  fwdSens : List (List D)
  adjSens : List (List D)

/-- Method `MXNode::evaluateD`, seeded form.  The name `typeid(*this).name()` of
the class of the node is implementation-defined and is the parameter
`typeidName`.  The result is the state of the written buffers and the
exception raised. -/
def evaluateD {D : Type} (typeidName : MX → String) (x : MX) (_input : List D)
    (_fwdSeed _adjSeed : List (List D)) (buf : EvalBuffers D) :
    EvalBuffers D × Except Error Unit :=
  (buf, .error (.casadiException
    ("MXNode::evaluateD not defined for class " ++ typeidName x)))

/-- Method `MXNode::evaluateSX`, seeded form. -/
def evaluateSX {S : Type} (typeidName : MX → String) (x : MX) (_input : List S)
    (_fwdSeed _adjSeed : List (List S)) (buf : EvalBuffers S) :
    EvalBuffers S × Except Error Unit :=
  (buf, .error (.casadiException
    ("MXNode::evaluateSX not defined for class " ++ typeidName x)))

/-- Method `MXNode::propagateSparsity`: both `input` and `output` are passed by
reference and make up the written state. -/
def propagateSparsity {D : Type} (typeidName : MX → String) (x : MX)
    (input output : List D) (_fwd : Bool) : (List D × List D) × Except Error Unit :=
  ((input, output), .error (.casadiException
    ("MXNode::propagateSparsity not defined for class " ++ typeidName x)))

/-- Method `MXNode::generateOperation`: the new content of the stream and the
outcome.  The printer of `std::vector<std::string>` (from
`stl_vector_tools.hpp`, not part of the file) is the parameter `vecStr`. -/
def generateOperation (typeidName : MX → String) (vecStr : List String → String)
    (x : MX) (stream : String) (arg res : List String) : String × Except Error Unit :=
  (stream ++ "#error " ++ typeidName x ++ ": " ++ vecStr arg ++ " => " ++ vecStr res
    ++ "\n", .ok ())

/-! ## Serialization of `BonminInterface` -/

namespace BonminInterface

/-- Modelled from the spec: the serializing streams are missing.  A stream is
the list of the items written to it: a version tag (kind-tag plus version
number) or a value stored under a key. -/
inductive Item (α : Type) where
  | version (name : String) (v : Int)
  | entry (key : String) (val : α)
  deriving DecidableEq, Repr

/-- Modelled from the spec: `SerializingStream::version`. -/
def packVersion {α : Type} (s : List (Item α)) (name : String) (v : Int) :
    List (Item α) :=
  s ++ [.version name v]

/-- Modelled from the spec: `SerializingStream::pack`. -/
def pack {α : Type} (s : List (Item α)) (key : String) (val : α) : List (Item α) :=
  s ++ [.entry key val]

/-- Modelled from the spec: `DeserializingStream::version`: the next item must
be the version tag of that name with that number. -/
def unpackVersion {α : Type} (s : List (Item α)) (name : String) (v : Int) :
    Except Error (List (Item α)) :=
  match s with
  | .version n w :: rest =>
    if n = name ∧ w = v then .ok rest
    else .error (.casadiException "version mismatch")
  | _ => .error (.casadiException "version expected")

/-- Modelled from the spec: `DeserializingStream::unpack`: the next item must
be a value stored under that key. -/
def unpack {α : Type} (s : List (Item α)) (key : String) :
    Except Error (α × List (Item α)) :=
  match s with
  | .entry k val :: rest =>
    if k = key then .ok (val, rest)
    else .error (.casadiException "key mismatch")
  | _ => .error (.casadiException "entry expected")

/-- The data members of `BonminInterface` that are serialized; the values of
all member types are taken from one type `α`. -/
structure Members (α : Type) where
  jacg_sp_ : α
  hesslag_sp_ : α
  exact_hessian_ : α
  opts_ : α
  sos1_weights_ : α
  sos1_indices_ : α
  sos1_priorities_ : α
  sos1_starts_ : α
  sos1_types_ : α
  sos_num_ : α
  sos_num_nz_ : α
  pass_nonlinear_variables_ : α
  pass_nonlinear_constraints_ : α
  nl_ex_ : α
  nl_g_ : α
  var_string_md_ : α
  var_integer_md_ : α
  var_numeric_md_ : α
  con_string_md_ : α
  con_integer_md_ : α
  con_numeric_md_ : α

/-- Method `BonminInterface::serialize_body`, after the base-class part
`Nlpsol::serialize_body(s)`. -/
def serialize_body {α : Type} (m : Members α) (s : List (Item α)) : List (Item α) :=
  let s := packVersion s "BonminInterface" 1
  let s := pack s "BonminInterface::jacg_sp" m.jacg_sp_
  let s := pack s "BonminInterface::hesslag_sp" m.hesslag_sp_
  let s := pack s "BonminInterface::exact_hessian" m.exact_hessian_
  let s := pack s "BonminInterface::opts" m.opts_
  let s := pack s "BonminInterface::sos1_weights" m.sos1_weights_
  let s := pack s "BonminInterface::sos1_indices" m.sos1_indices_
  let s := pack s "BonminInterface::sos1_priorities" m.sos1_priorities_
  let s := pack s "BonminInterface::sos1_starts" m.sos1_starts_
  let s := pack s "BonminInterface::sos1_types" m.sos1_types_
  let s := pack s "BonminInterface::sos1_types" m.sos1_types_
  let s := pack s "BonminInterface::sos_num" m.sos_num_
  let s := pack s "BonminInterface::sos_num_nz" m.sos_num_nz_
  let s := pack s "BonminInterface::pass_nonlinear_variables" m.pass_nonlinear_variables_
  let s := pack s "BonminInterface::pass_nonlinear_constraints"
    m.pass_nonlinear_constraints_
  let s := pack s "BonminInterface::nl_ex" m.nl_ex_
  let s := pack s "BonminInterface::nl_g" m.nl_g_
  let s := pack s "BonminInterface::var_string_md" m.var_string_md_
  let s := pack s "BonminInterface::var_integer_md" m.var_integer_md_
  let s := pack s "BonminInterface::var_numeric_md" m.var_numeric_md_
  let s := pack s "BonminInterface::con_string_md" m.con_string_md_
  let s := pack s "BonminInterface::con_integer_md" m.con_integer_md_
  pack s "BonminInterface::con_numeric_md" m.con_numeric_md_

/-- The deserializing constructor `BonminInterface(DeserializingStream& s)`,
after the base-class part `Nlpsol(s)`: the members read and the rest of the
stream. -/
def deserialize {α : Type} (s : List (Item α)) :
    Except Error (Members α × List (Item α)) := do
  let s ← unpackVersion s "BonminInterface" 1
  let (jacg_sp, s) ← unpack s "BonminInterface::jacg_sp"
  let (hesslag_sp, s) ← unpack s "BonminInterface::hesslag_sp"
  let (exact_hessian, s) ← unpack s "BonminInterface::exact_hessian"
  let (opts, s) ← unpack s "BonminInterface::opts"
  let (sos1_weights, s) ← unpack s "BonminInterface::sos1_weights"
  let (sos1_indices, s) ← unpack s "BonminInterface::sos1_indices"
  let (sos1_priorities, s) ← unpack s "BonminInterface::sos1_priorities"
  let (sos1_starts, s) ← unpack s "BonminInterface::sos1_starts"
  let (_, s) ← unpack s "BonminInterface::sos1_types"
  let (sos1_types, s) ← unpack s "BonminInterface::sos1_types"
  let (sos_num, s) ← unpack s "BonminInterface::sos_num"
  let (sos_num_nz, s) ← unpack s "BonminInterface::sos_num_nz"
  let (pass_nonlinear_variables, s) ← unpack s "BonminInterface::pass_nonlinear_variables"
  let (pass_nonlinear_constraints, s) ←
    unpack s "BonminInterface::pass_nonlinear_constraints"
  let (nl_ex, s) ← unpack s "BonminInterface::nl_ex"
  let (nl_g, s) ← unpack s "BonminInterface::nl_g"
  let (var_string_md, s) ← unpack s "BonminInterface::var_string_md"
  let (var_integer_md, s) ← unpack s "BonminInterface::var_integer_md"
  let (var_numeric_md, s) ← unpack s "BonminInterface::var_numeric_md"
  let (con_string_md, s) ← unpack s "BonminInterface::con_string_md"
  let (con_integer_md, s) ← unpack s "BonminInterface::con_integer_md"
  let (con_numeric_md, s) ← unpack s "BonminInterface::con_numeric_md"
  return (⟨jacg_sp, hesslag_sp, exact_hessian, opts, sos1_weights, sos1_indices,
    sos1_priorities, sos1_starts, sos1_types, sos_num, sos_num_nz,
    pass_nonlinear_variables, pass_nonlinear_constraints, nl_ex, nl_g,
    var_string_md, var_integer_md, var_numeric_md, con_string_md, con_integer_md,
    con_numeric_md⟩, s)

/-- The tag or key of an item of the stream. -/
def Item.key {α : Type} : Item α → String
  | .version name _ => name
  | .entry key _ => key

/-- Example members: the member number `i` has the value `i`. -/
def exMembers : Members Nat :=
  ⟨0, 1, 2, 3, 4, 5, 6, 7, 8, 9, 10, 11, 12, 13, 14, 15, 16, 17, 18, 19, 20⟩

end BonminInterface

/-! ## Content of a densified node -/

/-- Modelled from the spec: the value that a densified node holds at a position
of its shape that its operand does not store (`makeDense` fills the missing
structural positions with the given value). -/
def MX.filledAt : MX → Nat × Nat → Option Rat
  | .filled x v, p =>
    if p ∈ allPositions x.size1 x.size2 ∧ p ∉ x.sparsity.nz then some v else none
  | _, _ => none

/-! ## Exact values of expressions -/

/-- Modelled from the spec: `casadi_math<T>::fun(op, x, y, f)` (missing)
interpreted exactly over the field of rationals for the operations named in
`mx_node.cpp`; `none` where the operation has no value (division by zero, a
power that is not an integer power) or is not interpreted.  A unary operation
ignores its second argument. -/
def casadi_math_fun : Operation → Rat → Rat → Option Rat
  | .OP_ADD, a, b => some (a + b)
  | .OP_SUB, a, b => some (a - b)
  | .OP_MUL, a, b => some (a * b)
  | .OP_DIV, a, b => if b = 0 then none else some (a / b)
  | .OP_NEG, a, _ => some (-a)
  | .OP_INV, a, _ => if a = 0 then none else some (1 / a)
  | .OP_SQ, a, _ => some (a * a)
  | .OP_CONSTPOW, a, b =>
    if b.den = 1 then
      if a = 0 ∧ b.num < 0 then none else some (a ^ b.num)
    else none
  | _, _, _ => none

/-- The entry that an operand contributes at the position `p` of an elementwise
operation: its single entry when it is flagged scalar, its own entry at `p`
otherwise. -/
def readAt (sc : Bool) (p : Nat × Nat) : Nat × Nat := if sc then (0, 0) else p

/-- Modelled from the spec: the evaluation kernels of the node classes are
missing.  The exact value of the entry at the position `p` of an expression,
under the assignment `ρ` of the entries of the symbolic primitives.  A
structural zero (a position that the pattern of the node does not store) holds
the value zero; a stored entry of a unary or binary node is the operation
applied to the entries of the operands there (the single entry of an operand
flagged scalar); a projection keeps the entries of its operand at the
positions it stores; a broadcast stores the single entry of its scalar at each
of its positions; a densification holds the fill value at the positions of its
shape that its operand does not store.  The result is `none` where an
operation has no value. -/
def MX.valueAt (ρ : String → Nat × Nat → Rat) : MX → Nat × Nat → Option Rat
  | .symbolic name sp, p => if p ∈ sp.nz then some (ρ name p) else some 0
  | .constant sp v, p => if p ∈ sp.nz then some v else some 0
  | .unary op x, p =>
    if p ∈ x.sparsity.nz then (MX.valueAt ρ x p).bind fun a => casadi_math_fun op a 0
    else some 0
  | .binary scX scY op x y, p =>
    if p ∈ (if scX then y.sparsity else x.sparsity).nz then
      (MX.valueAt ρ x (readAt scX p)).bind fun a =>
        (MX.valueAt ρ y (readAt scY p)).bind fun b => casadi_math_fun op a b
    else some 0
  | .setSparse x sp, p => if p ∈ sp.nz then MX.valueAt ρ x p else some 0
  | .broadcast sp x, p => if p ∈ sp.nz then MX.valueAt ρ x (0, 0) else some 0
  | .filled x v, p =>
    if p ∈ allPositions x.size1 x.size2 then
      if p ∈ x.sparsity.nz then MX.valueAt ρ x p else some v
    else some 0

/-- The value at the position `p` of the operation requested from `getBinary`:
`op` applied to the entries that `x` and `y` contribute there, structural zeros
counting as zero. -/
def requestAt (ρ : String → Nat × Nat → Rat) (op : Operation) (x y : MX) (scX scY : Bool)
    (p : Nat × Nat) : Option Rat :=
  (x.valueAt ρ (readAt scX p)).bind fun a =>
    (y.valueAt ρ (readAt scY p)).bind fun b => casadi_math_fun op a b

/-- An example assignment: every entry of every symbolic primitive has the
value 3. -/
def exAssign : String → Nat × Nat → Rat := fun _ _ => 3

/-! ## The cascade of recursive calls of `getBinary` -/

/-- The arguments of a call of `MXNode::getBinary`. -/
structure Request where
  op : Operation
  x : MX
  y : MX
  scX : Bool
  scY : Bool
  deriving DecidableEq, Repr

/-- The four recursive calls in the body of `MXNode::getBinary`. -/
inductive Move where
  /-- The operand swap `y->getBinary(op, x, scY, scX)`. -/
  | swap
  /-- A negation or reciprocal rewrite `getBinary(op2, y->dep(), scX, scY)`. -/
  | strip
  /-- The retry `getBinary(op, densify(y), true, false)`. -/
  | densifyY
  /-- The retry `densify(x)->getBinary(op, y, false, true)`. -/
  | densifyX
  deriving DecidableEq, Repr

/-- The recursive call that the body of `MXNode::getBinary` makes on a request,
with its kind, or `none` when the body returns without calling itself. -/
def cascadeStep (T : Calculus) (r : Request) : Option (Move × Request) :=
  match specialCase T r.op r.x r.y with
  | .swap => some (.swap, ⟨r.op, r.y, r.x, r.scY, r.scX⟩)
  | .square => none
  | .collapse => none
  | .negAdd =>
    match r.y.dep 0 with
    | .ok z => some (.strip, ⟨.OP_SUB, r.x, z, r.scX, r.scY⟩)
    | .error _ => none
  | .negSub =>
    match r.y.dep 0 with
    | .ok z => some (.strip, ⟨.OP_ADD, r.x, z, r.scX, r.scY⟩)
    | .error _ => none
  | .invMul =>
    match r.y.dep 0 with
    | .ok z => some (.strip, ⟨.OP_DIV, r.x, z, r.scX, r.scY⟩)
    | .error _ => none
  | .invDiv =>
    match r.y.dep 0 with
    | .ok z => some (.strip, ⟨.OP_MUL, r.x, z, r.scX, r.scY⟩)
    | .error _ => none
  | .noRule =>
    if r.scX = true then
      if r.y.dense = true ∨ T.FX0Checker r.op = true then none
      else
        match (densify r.y).out with
        | .ok yd => some (.densifyY, ⟨r.op, r.x, yd, true, false⟩)
        | .error _ => none
    else if r.scY = true then
      if r.x.dense = true ∨ T.F0XChecker r.op = true then none
      else
        match (densify r.x).out with
        | .ok xd => some (.densifyX, ⟨r.op, xd, r.y, false, true⟩)
        | .error _ => none
    else none

/-- The kinds of the first `fuel` recursive calls made from a request, in
order; the list ends early when a body returns without calling itself. -/
def cascadeRun (T : Calculus) : Nat → Request → List Move
  | 0, _ => []
  | fuel + 1, r =>
    match cascadeStep T r with
    | none => []
    | some (m, r2) => m :: cascadeRun T fuel r2

/-- The termination measure of `getBinary` on a request. -/
def Request.measure (r : Request) : Nat := cascadeMeasure r.x r.y r.scX r.scY

/-- No operand of the request can be densified any more: the operand that the
scalar flags would densify is already a projection onto a dense pattern. -/
def Request.densifyDone (r : Request) : Bool :=
  (r.scX && isDensified r.y) || (!r.scX && r.scY && isDensified r.x)

/-- Number of nodes of an expression. -/
def MX.nodeCount : MX → Nat
  | .symbolic _ _ => 1
  | .constant _ _ => 1
  | .unary _ x => MX.nodeCount x + 1
  | .binary _ _ _ x y => MX.nodeCount x + MX.nodeCount y + 1
  | .setSparse x _ => MX.nodeCount x + 1
  | .broadcast _ x => MX.nodeCount x + 1
  | .filled x _ => MX.nodeCount x + 1

/-- The scalar `-(-5)` added to a constant 2-by-2 matrix that stores only the
entry (0,0): a request on which the operands are swapped twice. -/
def exDoubleSwap : Request :=
  ⟨.OP_ADD, .unary .OP_NEG (.unary .OP_NEG exFive), .constant ⟨2, 2, [(0, 0)]⟩ 7,
    true, false⟩

/-! ## The destructor `MXNode::~MXNode` -/

/-- A node as the destructor sees it: its reference count and its vector
`dep_` of dependency handles, a handle being null (`none`) or the address of a
node. -/
structure NodeCell where
  count : Nat
  dep_ : List (Option Nat)
  deriving DecidableEq, Repr

/-- The memory: the live node at each address, `none` once it is released. -/
abbrev Heap := Nat → Option NodeCell

namespace Heap

/-- Method `getCount` of the handle to the node at address `a`. -/
def getCount (h : Heap) (a : Nat) : Nat :=
  match h a with
  | some c => c.count
  | none => 0

/-- Number of dependency slots of the node at address `a`. -/
def ndep (h : Heap) (a : Nat) : Nat :=
  match h a with
  | some c => c.dep_.length
  | none => 0

/-- The handle in slot `i` of the node at address `a` (null when out of range). -/
def slot (h : Heap) (a i : Nat) : Option Nat :=
  match h a with
  | some c => c.dep_.getD i none
  | none => none

/-- Modelled from the spec: copying a handle to the node at `a` adds an owner. -/
def incr (h : Heap) (a : Nat) : Heap := fun b =>
  if b = a then (h b).map fun c => { c with count := c.count + 1 } else h b

/-- Modelled from the spec: giving up a handle to the node at `a` removes an
owner. -/
def decr (h : Heap) (a : Nat) : Heap := fun b =>
  if b = a then (h b).map fun c => { c with count := c.count - 1 } else h b

/-- Slot `i` of the node at `a` becomes the null handle. -/
def setNull (h : Heap) (a i : Nat) : Heap := fun b =>
  if b = a then (h b).map fun c => { c with dep_ := c.dep_.set i none } else h b

/-- The memory of the node at `a` is given back. -/
def free (h : Heap) (a : Nat) : Heap := fun b => if b = a then none else h b

end Heap

/-- Modelled from the spec: a handle to the node at `a` is given up.  When it
was the last owner the node is destroyed: its destructor `nested` runs and its
memory is given back (the body of the destructor leaves every slot null, so
the destruction of the member `dep_` releases nothing); otherwise the count
drops by one. -/
def release (nested : Heap → Nat → Option Heap) (h : Heap) (a : Nat) : Option Heap :=
  if h.getCount a = 1 then (nested (h.decr a) a).map fun h2 => h2.free a
  else some (h.decr a)

/-- The inner `for` loop of the destructor over the slots `ii` of the top
element `t`: the memory afterwards and the dependency pushed onto the deletion
stack, if one was found (`found_dep`). -/
def scanDeps (t : Nat) : List Nat → Heap → Heap × Option Nat
  | [], h => (h, none)
  | i :: rest, h =>
    match h.slot t i with
    | none => scanDeps t rest h
    | some c =>
      -- Check if this is the only reference to the element
      if h.getCount c = 1 then
        -- Remove and add to stack
        (((h.incr c).setNull t i).decr c, some c)
      else
        -- Replace with an element without dependencies
        scanDeps t rest ((h.setNull t i).decr c)

/-- The loop `while(!deletion_stack.empty())` of the destructor, at most `fuel`
iterations of it (`none` when they do not suffice or a nested destructor
fails). -/
def processStack (nested : Heap → Nat → Option Heap) : Nat → Heap → List Nat → Option Heap
  | _, h, [] => some h
  | 0, _, _ :: _ => none
  | fuel + 1, h, t :: rest =>
    -- Top element
    let h1 := h.incr t
    match scanDeps t (List.range (h1.ndep t)) h1 with
    | (h2, some c) =>
      -- the local handle t goes out of scope
      match release nested h2 t with
      | some h3 => processStack nested fuel h3 (c :: t :: rest)
      | none => none
    | (h2, none) =>
      -- Pop from stack if no dependencies found
      match release nested h2 t with
      | none => none
      | some h3 =>
        -- the local handle t goes out of scope
        match release nested h3 t with
        | none => none
        | some h4 => processStack nested fuel h4 rest

/-- The outer `for` loop of the destructor over the slots `cc` of the node at
`a`. -/
def destroyDeps (nested : Heap → Nat → Option Heap) (fuel a : Nat) :
    List Nat → Heap → Option Heap
  | [], h => some h
  | i :: rest, h =>
    match h.slot a i with
    | none => destroyDeps nested fuel a rest h
    | some c =>
      -- Check if there are other "owners" of the node
      if h.getCount c ≠ 1 then
        -- Replace with a null pointer
        destroyDeps nested fuel a rest ((h.setNull a i).decr c)
      else
        -- Move the child to the deletion stack and process the stack
        match processStack nested fuel (((h.incr c).setNull a i).decr c) [c] with
        | some h2 => destroyDeps nested fuel a rest h2
        | none => none

/-- The destructor `MXNode::~MXNode` of the node at `a`.  The first argument
bounds the depth of nested destructor calls that the call stack can hold
(`none` when it is exceeded), the second the iterations of each `while` loop. -/
def dtor : Nat → Nat → Heap → Nat → Option Heap
  | 0, _, _, _ => none
  | depth + 1, fuel, h, a =>
    destroyDeps (dtor depth fuel) fuel a (List.range (h.ndep a)) h

/-- A chain of `n` nodes: the node at `a` has the single dependency `a + 1`,
the last node has none, and every node has one owner (the head is owned by the
handle that is about to be dropped). -/
def chainHeap (n : Nat) : Heap := fun a =>
  if a < n then some ⟨1, if a + 1 < n then [some (a + 1)] else []⟩ else none

/-- Number of live nodes among the addresses below `n`. -/
def liveCount (h : Heap) (n : Nat) : Nat :=
  ((List.range n).filter fun a => (h a).isSome).length

/-- The memory while the chain is taken apart: the head is being destroyed,
the nodes below `p` are on the deletion stack with their slot nulled, the
nodes from `p` up to `f` are untouched and the nodes from `f` on are
released. -/
def chainState (n p f : Nat) : Heap := fun a =>
  if a = 0 then some ⟨0, [none]⟩
  else if a < p then some ⟨1, [none]⟩
  else if a < f then some ⟨1, if a + 1 < n then [some (a + 1)] else []⟩
  else none

/-- The deletion stack `k, k-1, ..., 1`. -/
def descending : Nat → List Nat
  | 0 => []
  | k + 1 => (k + 1) :: descending k

/-! ## Well-formed patterns -/

/-- Modelled from the spec: the invariant of a sparsity pattern, "positions
are unique" and lie within the row and column counts. -/
def CRSSparsity.wellFormed (s : CRSSparsity) : Prop :=
  s.nz.Nodup ∧ ∀ p ∈ s.nz, p.1 < s.size1 ∧ p.2 < s.size2

instance (s : CRSSparsity) : Decidable s.wellFormed := by
  unfold CRSSparsity.wellFormed
  infer_instance

/-! ## The node-building part of `getBinarySwitch` -/

/-- The statements of `MXNode::getBinarySwitch` under the comment
"Create binary node": what the method does when the quick return is not
taken. -/
def getBinarySwitchCreate (T : Calculus) (op : Operation) (x y : MX) : Built :=
  if x.sparsity.scalar = true then
    if x.size = 0 then
      (getBinary T op (MX.scalarConst 0) y true false).map fun r => r.toMatrix y.sparsity
    else
      (getBinary T op x y true false).map fun r => r.toMatrix y.sparsity
  else if y.scalar = true then
    if y.size = 0 then
      (getBinary T op x (MX.scalarConst 0) false true).map fun r => r.toMatrix x.sparsity
    else
      (getBinary T op x y false true).map fun r => r.toMatrix x.sparsity
  else
    if x.sparsity.shape ≠ y.sparsity.shape then Built.fail .shapeMismatch
    else if x.sparsity = y.sparsity then
      -- Matching sparsities
      getBinary T op x y false false
    else
      -- Get the sparsity pattern of the result
      let r_sp := x.sparsity.patternCombine y.sparsity (T.F0XChecker op) (T.FX0Checker op)
      -- Project the arguments to this sparsity
      (getSetSparse x r_sp).bind fun xx =>
        (getSetSparse y r_sp).bind fun yy =>
          getBinary T op xx yy false false

/-- Negation and reciprocal are unary operations: every node along the chain
of negation/reciprocal heads of the expression is a unary node. -/
def unaryHeads : MX → Bool
  | .unary op x => if op = .OP_NEG ∨ op = .OP_INV then unaryHeads x else true
  | .binary _ _ op _ _ => !(decide (op = .OP_NEG) || decide (op = .OP_INV))
  | _ => true

/-- A symbolic matrix without rows, of shape 0-by-3. -/
def exEmpty : MX := .symbolic "E" ⟨0, 3, []⟩

/-! ## The nonzero-access factory functions -/

/-- The static functions and constructors of class `Slice` called by the
nonzero-access factory functions.  The class is not part of the file; its
operations are a parameter and `σ` is the type of its values. -/
structure SliceOps (σ : Type) where
  /-- Test `Slice::isSlice(nz)`. -/
  isSlice : List Int → Bool
  /-- Test `Slice::isSlice2(nz)`. -/
  isSlice2 : List Int → Bool
  /-- Constructor `Slice(nz)`. -/
  ofVector : List Int → σ
  /-- Constructor `Slice inner(nz, outer)`: the inner slice and the outer slice
  that it sets. -/
  nested : List Int → σ × σ

/-- The node classes of `getnonzeros.hpp` and `setnonzeros.hpp` with the
arguments of their constructor calls; the flag `add` is the template argument of
the `SetNonzeros` classes. -/
inductive NonzerosNode (σ : Type) where
  | GetNonzerosSlice (sp : CRSSparsity) (x : MX) (s : σ)
  | GetNonzerosSlice2 (sp : CRSSparsity) (x : MX) (inner outer : σ)
  | GetNonzerosVector (sp : CRSSparsity) (x : MX) (nz : List Int)
  | SetNonzerosSlice (add : Bool) (y x : MX) (s : σ)
  | SetNonzerosSlice2 (add : Bool) (y x : MX) (inner outer : σ)
  | SetNonzerosVector (add : Bool) (y x : MX) (nz : List Int)

/-- A handle returned by a nonzero-access factory function: an expression that
existed before, or one of the nodes above. -/
inductive NonzerosHandle (σ : Type) where
  | mx (x : MX)
  | node (n : NonzerosNode σ)

/-- Result of a nonzero-access factory call: the nodes allocated by
`MX::create` and the handle returned. -/
structure NonzerosBuilt (σ : Type) where
  created : List (NonzerosNode σ)
  out : NonzerosHandle σ

/-- Modelled from the spec: `MX::zeros(sp)` (missing), the all-zero expression
of sparsity `sp`. -/
def MX.zeros (sp : CRSSparsity) : MX := .constant sp 0

/-- Method `MXNode::getGetNonzeros`: the node `this` is `x`.  The function
`simplify` of `mx_tools` is not part of the file and is a parameter. -/
def getGetNonzeros {σ : Type} (S : SliceOps σ)
    (simplify : NonzerosHandle σ → NonzerosHandle σ)
    (x : MX) (sp : CRSSparsity) (nz : List Int) : NonzerosBuilt σ :=
  if nz.length = 0 then
    ⟨[], .mx (MX.zeros sp)⟩
  else
    let n : NonzerosNode σ :=
      if S.isSlice nz then
        .GetNonzerosSlice sp x (S.ofVector nz)
      else if S.isSlice2 nz then
        .GetNonzerosSlice2 sp x (S.nested nz).1 (S.nested nz).2
      else
        .GetNonzerosVector sp x nz
    ⟨[n], simplify (.node n)⟩

/-- Method `MXNode::getSetNonzeros`: the node `this` is `x`. -/
def getSetNonzeros {σ : Type} (S : SliceOps σ)
    (simplify : NonzerosHandle σ → NonzerosHandle σ)
    (x y : MX) (nz : List Int) : NonzerosBuilt σ :=
  if nz.length = 0 then
    ⟨[], .mx y⟩
  else
    let n : NonzerosNode σ :=
      if S.isSlice nz then
        .SetNonzerosSlice false y x (S.ofVector nz)
      else if S.isSlice2 nz then
        .SetNonzerosSlice2 false y x (S.nested nz).1 (S.nested nz).2
      else
        .SetNonzerosVector false y x nz
    ⟨[n], simplify (.node n)⟩

/-- Method `MXNode::getAddNonzeros`: the node `this` is `x`. -/
def getAddNonzeros {σ : Type} (S : SliceOps σ)
    (simplify : NonzerosHandle σ → NonzerosHandle σ)
    (x y : MX) (nz : List Int) : NonzerosBuilt σ :=
  if nz.length = 0 then
    ⟨[], .mx y⟩
  else
    let n : NonzerosNode σ :=
      if S.isSlice nz then
        .SetNonzerosSlice true y x (S.ofVector nz)
      else if S.isSlice2 nz then
        .SetNonzerosSlice2 true y x (S.nested nz).1 (S.nested nz).2
      else
        .SetNonzerosVector true y x nz
    ⟨[n], simplify (.node n)⟩

/-! ## Printing with a budget: `MXNode::print` -/

mutual
/-- A node as `print` sees it: its class and its vector `dep_` of dependency
handles.  A graph that is shared is printed as the tree it unfolds to. -/
inductive PrintNode (κ : Type) where
  | mk (kind : κ) (dep_ : PrintDeps κ)
/-- A vector of dependency handles, each null or the handle of a node. -/
inductive PrintDeps (κ : Type) where
  | nil
  | null (rest : PrintDeps κ)
  | node (d : PrintNode κ) (rest : PrintDeps κ)
end

/-- Length of a vector of dependency handles. -/
def PrintDeps.length {κ : Type} : PrintDeps κ → Nat
  | .nil => 0
  | .null rest => rest.length + 1
  | .node _ rest => rest.length + 1

/-- The vector `dep_` of a printed node. -/
def PrintNode.dep_ {κ : Type} : PrintNode κ → PrintDeps κ
  | .mk _ deps => deps

/-- Method `ndep` of a printed node. -/
def PrintNode.ndep {κ : Type} : PrintNode κ → Nat
  | .mk _ deps => deps.length

/-- The output stream, the shared counter `remaining_calls`, and the exception
in flight, if one was thrown (nothing more is written then).  The field
`expanded` is not part of the program: it counts the calls of `print` that took
the expanding branch. -/
structure PrintState where
  stream : String
  remaining_calls : Int
  expanded : Nat
  thrown : Option Error

/-- Statement `stream << text`. -/
def PrintState.write (s : PrintState) (text : String) : PrintState :=
  match s.thrown with
  | none => { s with stream := s.stream ++ text }
  | some _ => s

/-- The base implementation `MXNode::printPart`: three assertions and a comma.
It is virtual; the node classes (missing) override it. -/
def MXNode.printPart {κ : Type} (n : PrintNode κ) (part : Nat) : Except Error String :=
  if ¬ (n.ndep > 1) then .error (.casadiException "ndep()>1")
  else if ¬ (part > 0) then .error (.casadiException "part>0")
  else if ¬ (part < n.ndep) then .error (.casadiException "part<ndep()")
  else .ok ","

/-- The call `printPart(stream, part)` through the virtual table `pp`. -/
def PrintState.part {κ : Type} (pp : PrintNode κ → Nat → Except Error String)
    (n : PrintNode κ) (part : Nat) (s : PrintState) : PrintState :=
  match s.thrown with
  | none =>
    match pp n part with
    | .ok text => { s with stream := s.stream ++ text }
    | .error e => { s with thrown := some e }
  | some _ => s

mutual
/-- Method `MXNode::print(stream, remaining_calls)` of the node `n`. -/
def print {κ : Type} (pp : PrintNode κ → Nat → Except Error String) :
    PrintNode κ → PrintState → PrintState
  | .mk kind deps, s =>
    match s.thrown with
    | some _ => s
    | none =>
      if s.remaining_calls > 0 then
        let s1 := { s with remaining_calls := s.remaining_calls - 1,
                           expanded := s.expanded + 1 }
        let s2 := s1.part pp (.mk kind deps) 0
        printLoop pp (.mk kind deps) deps 0 s2
      else
        s.write "..."
/-- The loop `for(int i=0; i<ndep(); ++i)` of `print` from the index `i` on,
`deps` being the handles `dep(i)`, `dep(i+1)`, ... of the node `self`. -/
def printLoop {κ : Type} (pp : PrintNode κ → Nat → Except Error String)
    (self : PrintNode κ) : PrintDeps κ → Nat → PrintState → PrintState
  | .nil, _, s => s
  | .null rest, i, s =>
    printLoop pp self rest (i + 1) ((s.write "MX()").part pp self (i + 1))
  | .node d rest, i, s =>
    printLoop pp self rest (i + 1) ((print pp d s).part pp self (i + 1))
end

/-- A node without dependencies. -/
def PrintNode.one {κ : Type} (kind : κ) : PrintNode κ := .mk kind .nil

/-- An override of `printPart`: the name of the class and an opening bracket
before the first dependency, a comma between two dependencies and a closing
bracket after the last one. -/
def exPrintPart (n : PrintNode String) (part : Nat) : Except Error String :=
  match n with
  | .mk kind deps =>
    if part = 0 then
      if deps.length = 0 then .ok kind else .ok (kind ++ "(")
    else if part = deps.length then .ok ")"
    else .ok ","

/-- The tree `f(g(a), MX(), b)`. -/
def exPrintTree : PrintNode String :=
  .mk "f" (.node (.mk "g" (.node (.one "a") .nil)) (.null (.node (.one "b") .nil)))

/-! ## The SOS1 data of `BonminInterface` -/

namespace BonminInterface

/-- The members of `BonminInterface` that describe the SOS1 constraints.
Counts are natural numbers: the header that declares the integer types of the
members is not part of the file. -/
structure SosMembers where
  sos_num_ : Nat
  sos_num_nz_ : Nat
  sos1_types_ : List Int
  sos1_priorities_ : List Int
  sos1_starts_ : List Nat
  sos1_indices_ : List Int
  sos1_weights_ : List Rat
  deriving DecidableEq, Repr

/-- The SOS members of a newly constructed object: every vector is empty. -/
def SosMembers.fresh : SosMembers := ⟨0, 0, [], [], [], [], []⟩

/-- Modelled from the spec: `std::vector::resize(n, val)`. -/
def resize {α : Type} (v : List α) (n : Nat) (val : α) : List α :=
  v.take n ++ List.replicate (n - v.length) val

/-- The loop `for (casadi_int i=0;i<sos_num_;++i)` of `BonminInterface::init`:
`n` iterations from the index `i` on. -/
def initLoop (sos1_groups : List (List Int)) (sos1_weights : List (List Rat)) :
    Nat → Nat → SosMembers → Except Error SosMembers
  | 0, _, m => .ok m
  | n + 1, i, m =>
    -- get local group
    let sos1_group := sos1_groups.getD i []
    -- Get local weights
    let default_weights := List.replicate sos1_group.length (1 : Rat)
    let sos1_weight := if sos1_weights.isEmpty then default_weights
      else sos1_weights.getD i []
    if sos1_weight.length ≠ sos1_group.length then
      .error (.casadiException "sos1_weights has incorrect size")
    else
      -- Populate lookup vector
      let m := { m with sos1_starts_ := m.sos1_starts_ ++ [m.sos_num_nz_] }
      let m := { m with sos_num_nz_ := m.sos_num_nz_ + sos1_group.length }
      let m := { m with sos1_weights_ := m.sos1_weights_ ++ sos1_weight }
      let m := { m with sos1_indices_ := m.sos1_indices_ ++ sos1_group }
      initLoop sos1_groups sos1_weights n (i + 1) m

/-- The conversion of an integer value to `int`: the value of 32 bits in two's
complement that is congruent to it modulo `2^32`. -/
def narrow_int (v : Int) : Int := (v + 2147483648) % 4294967296 - 2147483648

/-- The SOS part of `BonminInterface::init`: the options `sos1_groups`,
`sos1_weights` and `sos1_priorities` as read from the dictionary (`none` when
the option is not given) and the block "Create sos info".  The entries of the
groups are the values of type `int` that `to_int` returns.  The global
`GlobalOptions::start_index` is a parameter; `e -= start_index` stores the
difference back into the `int` entry `e`, which converts it to `int`. -/
def init (start_index : Int) (groups_opt : Option (List (List Int)))
    (weights_opt : Option (List (List Rat))) (priorities_opt : Option (List Int))
    (m : SosMembers) : Except Error SosMembers :=
  -- Read user options
  let sos1_groups : List (List Int) :=
    match groups_opt with
    | some gs => gs.map fun g => g.map fun e => narrow_int (e - start_index)
    | none => []
  let sos1_weights : List (List Rat) :=
    match weights_opt with
    | some ws => ws
    | none => []
  let m := match priorities_opt with
    | some ps => { m with sos1_priorities_ := ps }
    | none => m
  -- Declare size
  let m := { m with sos_num_ := sos1_groups.length }
  -- sos1 type
  let m := { m with sos1_types_ := resize m.sos1_types_ m.sos_num_ 1 }
  if ¬ (sos1_weights.isEmpty = true ∨ sos1_weights.length = m.sos_num_) then
    .error (.casadiException "sos1_weights has incorrect size")
  else if ¬ (m.sos1_priorities_.isEmpty = true ∨
      m.sos1_priorities_.length = m.sos_num_) then
    .error (.casadiException "sos1_priorities has incorrect size")
  else
    let m := if m.sos1_priorities_.isEmpty then
        { m with sos1_priorities_ := resize m.sos1_priorities_ m.sos_num_ 1 }
      else m
    let m := { m with sos_num_nz_ := 0 }
    match initLoop sos1_groups sos1_weights m.sos_num_ 0 m with
    | .error e => .error e
    | .ok m => .ok { m with sos1_starts_ := m.sos1_starts_ ++ [m.sos_num_nz_] }

/-- The structure `TMINLP::SosInfo` filled by `init_mem`. -/
structure SosInfo where
  num : Nat
  numNz : Nat
  types : List Int
  priorities : List Int
  starts : List Nat
  indices : List Int
  weights : List Rat
  deriving DecidableEq, Repr

/-- The SOS part of `BonminInterface::init_mem`: the five size assertions and
the copies into the arrays of `sos_info`. -/
def init_mem (m : SosMembers) : Except Error SosInfo :=
  if ¬ m.sos_num_ = m.sos1_types_.length then
    .error (.casadiException "sos_num_==sos1_types_.size()")
  else if ¬ m.sos_num_ = m.sos1_priorities_.length then
    .error (.casadiException "sos_num_==sos1_priorities_.size()")
  else if ¬ m.sos_num_ + 1 = m.sos1_starts_.length then
    .error (.casadiException "sos_num_+1==sos1_starts_.size()")
  else if ¬ m.sos_num_nz_ = m.sos1_indices_.length then
    .error (.casadiException "sos_num_nz_==sos1_indices_.size()")
  else if ¬ m.sos_num_nz_ = m.sos1_weights_.length then
    .error (.casadiException "sos_num_nz_==sos1_weights_.size()")
  else
    .ok ⟨m.sos_num_, m.sos_num_nz_, m.sos1_types_, m.sos1_priorities_, m.sos1_starts_,
      m.sos1_indices_, m.sos1_weights_⟩

/-- The start offsets of consecutive groups, the first one at `base`. -/
def groupStarts (base : Nat) : List (List Int) → List Nat
  | [] => []
  | g :: rest => base :: groupStarts (base + g.length) rest

/-- The local vector `sos1_groups` of `init` once the options are read: the
groups of the option, each entry shifted by `-start_index` in `int`, and no
group when the option is not given. -/
def readGroups (start_index : Int) (groups_opt : Option (List (List Int))) :
    List (List Int) :=
  (groups_opt.getD []).map fun g => g.map fun e => narrow_int (e - start_index)

end BonminInterface

/-! ## Bound multipliers of `BonminInterface` -/

namespace BonminInterface

/-- Modelled from the spec: `std::max(a, b)`, that is `(a < b) ? b : a`, on
exact values. -/
def std_max (a b : Rat) : Rat := if a < b then b else a

/-- Modelled from the spec: `casadi_copy(x, n, y)` for non-null pointers: the
`n` values at `x` are stored at `y`.  A pointer is the array of the values
found from it on. -/
def casadi_copy (x : Nat → Rat) (n : Nat) (y : Nat → Rat) : Nat → Rat :=
  fun i => if i < n then x i else y i

/-- The array found from the pointer `p + off` on. -/
def offset (p : Nat → Rat) (off : Nat) : Nat → Rat := fun i => p (off + i)

/-- The array at `p` after the array `q` was stored from `p + off` on. -/
def storeAt (p : Nat → Rat) (off : Nat) (q : Nat → Rat) : Nat → Rat :=
  fun i => if off ≤ i then q (i - off) else p i

/-- The arrays of `casadi_nlpsol_data` that the two callbacks use: the primal
values `z` and the multipliers `lam`, those of the `nx_` variables first. -/
structure NlpsolData where
  z : Nat → Rat
  lam : Nat → Rat

/-- The part of `BonminMemory` that the two callbacks use.  The flag says
whether `fstats` has the entry "callback_fun". -/
structure BonminMemory where
  d_nlp : NlpsolData
  gk : Nat → Rat
  has_callback_timer : Bool

/-- The output arrays of `get_starting_point`. -/
structure StartingPoint where
  x : Nat → Rat
  z_L : Nat → Rat
  z_U : Nat → Rat
  lambda : Nat → Rat

/-- Method `BonminInterface::get_starting_point`: the output arrays after the
call (the method returns `true`). -/
def get_starting_point (nx_ ng_ : Nat) (m : BonminMemory) (init_x : Bool) (x : Nat → Rat)
    (init_z : Bool) (z_L z_U : Nat → Rat) (init_lambda : Bool) (lambda : Nat → Rat) :
    StartingPoint :=
  -- Initialize primal variables
  let x := if init_x then casadi_copy m.d_nlp.z nx_ x else x
  -- Initialize dual variables (simple bounds)
  let z := if init_z then
      (List.range nx_).foldl
        (fun (z : (Nat → Rat) × (Nat → Rat)) i =>
          (Function.update z.1 i (std_max 0 (-(m.d_nlp.lam i))),
            Function.update z.2 i (std_max 0 (m.d_nlp.lam i))))
        (z_L, z_U)
    else (z_L, z_U)
  -- Initialize dual variables (nonlinear bounds)
  let lambda := if init_lambda then casadi_copy (offset m.d_nlp.lam nx_) ng_ lambda
    else lambda
  ⟨x, z.1, z.2, lambda⟩

/-- Method `BonminInterface::intermediate_callback`: the memory after the
call.  The statistics vectors and the call of the callback function, which
store nothing into `d_nlp` or `gk`, are left out; `fcallback_null` says whether
`fcallback_` is null. -/
def intermediate_callback (nx_ ng_ : Nat) (fcallback_null : Bool) (m : BonminMemory)
    (x z_L z_U g lambda : Nat → Rat) (full_callback : Bool) : BonminMemory :=
  if !fcallback_null then
    if m.has_callback_timer then
      if full_callback then
        let z := casadi_copy x nx_ m.d_nlp.z
        let lam := (List.range nx_).foldl
          (fun (lam : Nat → Rat) i => Function.update lam i (z_U i - z_L i)) m.d_nlp.lam
        let lam := storeAt lam nx_ (casadi_copy lambda ng_ (offset lam nx_))
        let gk := casadi_copy g ng_ m.gk
        { m with d_nlp := ⟨z, lam⟩, gk := gk }
      else m
    else m
  else m

end BonminInterface

/-- Example memory: the multipliers of two variables are -3 and 5. -/
def BonminInterface.exMemory : BonminInterface.BonminMemory :=
  ⟨⟨fun _ => 0, fun i => if i = 0 then -3 else 5⟩, fun _ => 0, true⟩

/-- Example memory at the time of a callback: every stored multiplier is 7,
none of them a multiplier of `exMemory`. -/
def BonminInterface.exLater : BonminInterface.BonminMemory :=
  ⟨⟨fun _ => 1, fun _ => 7⟩, fun _ => 0, true⟩

/-! ## Ordinary reference counting -/

/-- The dependency handles of the node at `a`, in order (none when the node is
released). -/
def Heap.deps (h : Heap) (a : Nat) : List (Option Nat) :=
  match h a with
  | some c => c.dep_
  | none => []

/-- Giving up the handles `vs` one after the other by `rel`; a null handle
owns nothing. -/
def naiveList (rel : Heap → Nat → Option Heap) : List (Option Nat) → Heap → Option Heap
  | [], h => some h
  | none :: rest, h => naiveList rel rest h
  | some c :: rest, h =>
    match rel h c with
    | some h2 => naiveList rel rest h2
    | none => none

/-- The naive recursive destructor, following the words of the claim: each
child's count is decremented, and a child whose count reaches zero is released
recursively (by `release`, whose nested destructor is this one).  The first
argument bounds the depth of the recursion. -/
def naiveDtor : Nat → Heap → Nat → Option Heap
  | 0, _, _ => none
  | d + 1, h, a => naiveList (release (naiveDtor d)) (h.deps a) h

/-- One iteration of the deletion loop from the scan on: the inner `for` loop
over the slots `slots` of the top element `t`, of which the local handle was
taken, and the statements that follow it. -/
def processTop (nested : Heap → Nat → Option Heap) (fuel t : Nat) (slots : List Nat)
    (h1 : Heap) (rest : List Nat) : Option Heap :=
  match scanDeps t slots h1 with
  | (h2, some c) =>
    match release nested h2 t with
    | some h3 => processStack nested fuel h3 (c :: t :: rest)
    | none => none
  | (h2, none) =>
    match release nested h2 t with
    | none => none
    | some h3 =>
      match release nested h3 t with
      | none => none
      | some h4 => processStack nested fuel h4 rest

/-- The graph is acyclic: every dependency has a smaller rank than its owner. -/
def Acyclic (rk : Nat → Nat) (h : Heap) : Prop :=
  ∀ a i c, h.slot a i = some c → rk c < rk a

/-- A destructor that finds nothing to process on a node whose slots are all
null. -/
def NullSafe (nested : Heap → Nat → Option Heap) : Prop :=
  ∀ h a, (∀ j, h.slot a j = none) → nested h a = some h

/-- A diamond: the node 0 owns the nodes 1 and 2, which share the node 3; the
node 4 is owned by the node 1 and by a handle from outside. -/
def exDiamond : Heap := fun a =>
  match a with
  | 0 => some ⟨1, [some 1, some 2]⟩
  | 1 => some ⟨1, [some 3, some 4]⟩
  | 2 => some ⟨1, [none, some 3]⟩
  | 3 => some ⟨2, []⟩
  | 4 => some ⟨2, []⟩
  | _ => none

/-- The deletion loop follows the naive release of depth `d`: whenever the node
`c` on top of the deletion stack has the stack as its only owner, and the
memory `h` of the loop agrees with a memory `hn` outside the nodes `S` that are
being destroyed (all of a higher rank than `c`), the loop pops `c` after some
iterations in a memory that agrees outside `S` with the memory that the naive
release of `c` leaves from `hn`, and it leaves the nodes `S` as they are. -/
def FollowsNaive (rk : Nat → Nat) (d : Nat) : Prop :=
  ∀ (S : List Nat) (c : Nat) (h hn hn2 : Heap),
    Acyclic rk h → (∀ s ∈ S, rk c < rk s) → (∀ b, b ∉ S → h b = hn b) →
    h.getCount c = 1 → release (naiveDtor d) hn c = some hn2 →
    ∃ (k : Nat) (h2 : Heap),
      (∀ nested, NullSafe nested → ∀ (fuel : Nat) (rest : List Nat),
        processStack nested (fuel + k) h (c :: rest) = processStack nested fuel h2 rest) ∧
      (∀ b, b ∉ S → h2 b = hn2 b) ∧ (∀ s ∈ S, h2 s = h s) ∧ Acyclic rk h2

/-! ## Unfolding `getBinary` along the rule that fires -/

theorem getBinary_of_swap (T : Calculus) (op : Operation) (x y : MX) (scX scY : Bool)
    (h : specialCase T op x y = .swap) :
    getBinary T op x y scX scY = getBinary T op y x scY scX := by
  rw [getBinary]
  split <;> simp_all

theorem getBinary_of_square (T : Calculus) (op : Operation) (x y : MX) (scX scY : Bool)
    (h : specialCase T op x y = .square) :
    getBinary T op x y scX scY = getUnary T .OP_SQ x := by
  rw [getBinary]
  split <;> simp_all

theorem getBinary_of_collapse (T : Calculus) (op : Operation) (x y : MX) (scX scY : Bool)
    (h : specialCase T op x y = .collapse) :
    getBinary T op x y scX scY = Built.ret x := by
  rw [getBinary]
  split <;> simp_all

theorem getBinary_of_negAdd (T : Calculus) (op : Operation) (x y z : MX) (scX scY : Bool)
    (h : specialCase T op x y = .negAdd) (hz : y.dep 0 = .ok z) :
    getBinary T op x y scX scY = getBinary T .OP_SUB x z scX scY := by
  rw [getBinary]
  split <;> simp_all
  split <;> simp_all

theorem getBinary_of_negSub (T : Calculus) (op : Operation) (x y z : MX) (scX scY : Bool)
    (h : specialCase T op x y = .negSub) (hz : y.dep 0 = .ok z) :
    getBinary T op x y scX scY = getBinary T .OP_ADD x z scX scY := by
  rw [getBinary]
  split <;> simp_all
  split <;> simp_all

theorem getBinary_of_invMul (T : Calculus) (op : Operation) (x y z : MX) (scX scY : Bool)
    (h : specialCase T op x y = .invMul) (hz : y.dep 0 = .ok z) :
    getBinary T op x y scX scY = getBinary T .OP_DIV x z scX scY := by
  rw [getBinary]
  split <;> simp_all
  split <;> simp_all

theorem getBinary_of_invDiv (T : Calculus) (op : Operation) (x y z : MX) (scX scY : Bool)
    (h : specialCase T op x y = .invDiv) (hz : y.dep 0 = .ok z) :
    getBinary T op x y scX scY = getBinary T .OP_MUL x z scX scY := by
  rw [getBinary]
  split <;> simp_all
  split <;> simp_all

/-- When the switch is left by `break`, `getBinary` is its node-building tail. -/
theorem getBinary_of_noRule (T : Calculus) (op : Operation) (x y : MX) (scX scY : Bool)
    (h : specialCase T op x y = .noRule) :
    getBinary T op x y scX scY =
      if scX = true then
        if y.dense = true ∨ T.FX0Checker op = true then
          Built.create (.binary true false op x y)
        else (densify y).bind fun yd => getBinary T op x yd true false
      else if scY = true then
        if x.dense = true ∨ T.F0XChecker op = true then
          Built.create (.binary false true op x y)
        else (densify x).bind fun xd => getBinary T op xd y false true
      else if (MX.binary false false op x y).dense = false ∧ T.F00Checker op = false then
        (Built.create (.binary false false op x y)).map fun r => r.makeDense (T.fun00 op)
      else Built.create (.binary false false op x y) := by
  rw [getBinary]
  split <;> simp_all
  split_ifs <;> simp_all [Built.bind] <;> split <;> simp_all

/-- The dense pattern is dense. -/
theorem dense_sp_dense (n m : Nat) : (sp_dense n m).dense = true := by
  simp only [CRSSparsity.dense, CRSSparsity.size, CRSSparsity.numel, sp_dense,
    allPositions, beq_iff_eq]
  exact (List.length_product _ _).trans (by simp)

/-- A node whose operation is a negation or a reciprocal has a first
dependency, so `y->dep()` in the switch of `getBinary` cannot throw. -/
theorem dep_zero_ok (y : MX) (h : y.getOp = .OP_NEG ∨ y.getOp = .OP_INV) :
    ∃ z, y.dep 0 = .ok z := by
  cases y <;> simp_all [MX.getOp, MX.dep, MX.dep_]

/-- The switch of `getBinary` when the second operand is a constant. -/
theorem specialCase_const (T : Calculus) (op : Operation) (x y : MX)
    (h : y.getOp = .OP_CONST) :
    specialCase T op x y =
      if x.getOp ≠ .OP_CONST ∧ T.CommChecker op = true then .swap
      else if op = .OP_CONSTPOW ∧ y.isValue 2 = true then .square
      else if ((op = .OP_ADD ∨ op = .OP_SUB) ∧ y.isZero = true) ∨
          ((op = .OP_MUL ∨ op = .OP_DIV) ∧ y.isValue 1 = true) then .collapse
      else .noRule := by
  unfold specialCase
  rw [h]

/-- The switch of `getBinary` when the second operand is a negation. -/
theorem specialCase_neg (T : Calculus) (op : Operation) (x y : MX)
    (h : y.getOp = .OP_NEG) :
    specialCase T op x y =
      if op = .OP_ADD then .negAdd else if op = .OP_SUB then .negSub else .noRule := by
  unfold specialCase
  rw [h]

/-- The switch of `getBinary` when the second operand is a reciprocal. -/
theorem specialCase_inv (T : Calculus) (op : Operation) (x y : MX)
    (h : y.getOp = .OP_INV) :
    specialCase T op x y =
      if op = .OP_MUL then .invMul else if op = .OP_DIV then .invDiv else .noRule := by
  unfold specialCase
  rw [h]

/-- The switch of `getBinary` for every other second operand. -/
theorem specialCase_default (T : Calculus) (op : Operation) (x y : MX)
    (hc : y.getOp ≠ .OP_CONST) (hn : y.getOp ≠ .OP_NEG) (hi : y.getOp ≠ .OP_INV) :
    specialCase T op x y = .noRule := by
  unfold specialCase
  split <;> simp_all

/-- A strip rule fires only on a negation or reciprocal head. -/
theorem strip_head (T : Calculus) (op : Operation) (x y : MX)
    (h : specialCase T op x y = .negAdd ∨ specialCase T op x y = .negSub ∨
      specialCase T op x y = .invMul ∨ specialCase T op x y = .invDiv) :
    y.getOp = .OP_NEG ∨ y.getOp = .OP_INV := by
  unfold specialCase at h
  split at h <;> (try split_ifs at h) <;> simp_all

/-- A strip rule never meets a missing dependency. -/
theorem strip_dep_ne_error (T : Calculus) (op : Operation) (x y : MX) (e : Error)
    (h : specialCase T op x y = .negAdd ∨ specialCase T op x y = .negSub ∨
      specialCase T op x y = .invMul ∨ specialCase T op x y = .invDiv) :
    y.dep 0 ≠ .error e := by
  obtain ⟨z, hz⟩ := dep_zero_ok y (strip_head T op x y h)
  rw [hz]
  simp

/-- Function `densify` never fails. -/
theorem densify_out_ne_error (x : MX) (cr : List MX) (e : Error) :
    densify x ≠ ⟨cr, .error e⟩ := by
  unfold densify getSetSparse
  split <;> simp [Built.ret, Built.create]

/-- The cascade of `getBinary` never raises an error: every call returns a handle. -/
theorem getBinary_ok (T : Calculus) (op : Operation) (x y : MX) (scX scY : Bool) :
    ∃ m, (getBinary T op x y scX scY).out = .ok m := by
  induction op, x, y, scX, scY using getBinary.induct T with
  | case1 op x y scX scY h ih => rw [getBinary_of_swap _ _ _ _ _ _ h]; exact ih
  | case2 op x y scX scY h =>
    rw [getBinary_of_square _ _ _ _ _ _ h]
    unfold getUnary
    split <;> simp [Built.ret, Built.create]
  | case3 op x y scX scY h =>
    rw [getBinary_of_collapse _ _ _ _ _ _ h]
    simp [Built.ret]
  | case4 op x y scX scY h z hz ih => rw [getBinary_of_negAdd _ _ _ _ _ _ _ h hz]; exact ih
  | case5 op x y scX scY h e he =>
    exact absurd he (strip_dep_ne_error T op x y e (Or.inl h))
  | case6 op x y scX scY h z hz ih => rw [getBinary_of_negSub _ _ _ _ _ _ _ h hz]; exact ih
  | case7 op x y scX scY h e he =>
    exact absurd he (strip_dep_ne_error T op x y e (Or.inr (Or.inl h)))
  | case8 op x y scX scY h z hz ih => rw [getBinary_of_invMul _ _ _ _ _ _ _ h hz]; exact ih
  | case9 op x y scX scY h e he =>
    exact absurd he (strip_dep_ne_error T op x y e (Or.inr (Or.inr (Or.inl h))))
  | case10 op x y scX scY h z hz ih => rw [getBinary_of_invDiv _ _ _ _ _ _ _ h hz]; exact ih
  | case11 op x y scX scY h e he =>
    exact absurd he (strip_dep_ne_error T op x y e (Or.inr (Or.inr (Or.inr h))))
  | case12 op x y scY h hd =>
    rw [getBinary_of_noRule _ _ _ _ _ _ h]
    simp [hd, Built.create]
  | case13 op x y scY h hd cr yd hyd ih =>
    rw [getBinary_of_noRule _ _ _ _ _ _ h]
    simp only [if_true, if_neg hd, Built.bind, hyd, Built.after]
    exact ih
  | case14 op x y scY h hd cr e he =>
    exact absurd he (densify_out_ne_error y cr e)
  | case15 op x y scX h hx hd =>
    rw [getBinary_of_noRule _ _ _ _ _ _ h]
    simp [hx, hd, Built.create]
  | case16 op x y scX h hx hd cr xd hxd ih =>
    rw [getBinary_of_noRule _ _ _ _ _ _ h]
    simp only [if_neg hx, if_true, if_neg hd, Built.bind, hxd, Built.after]
    exact ih
  | case17 op x y scX h hx hd cr e he =>
    exact absurd he (densify_out_ne_error x cr e)
  | case18 op x y scX scY h hx hy rr hrr =>
    rw [getBinary_of_noRule _ _ _ _ _ _ h]
    simp only [if_neg hx, if_neg hy]
    rw [if_pos hrr]
    simp [Built.map, Built.create]
  | case19 op x y scX scY h hx hy rr hrr =>
    rw [getBinary_of_noRule _ _ _ _ _ _ h]
    simp only [if_neg hx, if_neg hy]
    rw [if_neg hrr]
    simp [Built.create]

/-! ## Absorbing zeros and identity collapse -/

/-- C1: absorbing-zero law of `getBinarySwitch`.  When the operands pass the
dimension check and either the operation is left-absorbing and `x` is
identically zero, or it is right-absorbing and `y` is identically zero, the
call returns the all-structural-zero matrix of shape
(max of the row counts, max of the column counts), which stores no nonzero, and
allocates no node at all (in particular no binary operation node). -/
theorem getBinarySwitch_absorbing_zero (T : Calculus) (op : Operation) (x y : MX)
    (hdim : x.sparsity.scalar = true ∨ y.scalar = true ∨
      (x.sparsity.size1 = y.size1 ∧ x.size2 = y.size2))
    (habs : (T.F0XChecker op = true ∧ x.isZero = true) ∨
      (T.FX0Checker op = true ∧ y.isZero = true)) :
    (getBinarySwitch T op x y).out =
        .ok (MX.sparse (max x.size1 y.size1) (max x.size2 y.size2)) ∧
      (getBinarySwitch T op x y).created = [] ∧
      (MX.sparse (max x.size1 y.size1) (max x.size2 y.size2)).size = 0 ∧
      (MX.sparse (max x.size1 y.size1) (max x.size2 y.size2)).sparsity.shape =
        (max x.size1 y.size1, max x.size2 y.size2) := by
  unfold getBinarySwitch
  rw [if_neg (not_not_intro hdim), if_pos habs]
  simp [Built.ret, MX.sparse, MX.size, MX.sparsity, sp_sparse, CRSSparsity.size,
    CRSSparsity.shape]

/-- Witness of C1: the product of the symbolic scalar `x0` with the constant
zero is the 1-by-1 structural zero, and nothing is allocated. -/
theorem getBinarySwitch_absorbing_zero_witness :
    (getBinarySwitch arithCalculus .OP_MUL exSym exZero).out = .ok (MX.sparse 1 1) ∧
      (getBinarySwitch arithCalculus .OP_MUL exSym exZero).created = [] :=
  have h := getBinarySwitch_absorbing_zero arithCalculus .OP_MUL exSym exZero
    (Or.inl (by decide)) (Or.inr ⟨by decide, by simp [exZero, MX.scalarConst, MX.isZero]⟩)
  ⟨h.1, h.2.1⟩

/-- C2: identity collapse for subtraction and division.  For every node `x`,
every constant `y` and every setting of the scalar flags, `x - y` with `y`
identically zero and `x / y` with `y` of value exactly 1 return the handle of
`x` itself and allocate nothing (subtraction and division being
non-commutative in the `CommChecker` table, or `x` being a constant). -/
theorem getBinary_sub_zero_div_one (T : Calculus) (x y : MX) (scX scY : Bool)
    (hy : y.getOp = .OP_CONST) :
    (T.CommChecker .OP_SUB = false ∨ x.getOp = .OP_CONST → y.isZero = true →
        getBinary T .OP_SUB x y scX scY = ⟨[], .ok x⟩) ∧
      (T.CommChecker .OP_DIV = false ∨ x.getOp = .OP_CONST → y.isValue 1 = true →
        getBinary T .OP_DIV x y scX scY = ⟨[], .ok x⟩) := by
  constructor
  · intro hc hz
    have h : specialCase T .OP_SUB x y = .collapse := by
      rw [specialCase_const T _ x y hy]
      rcases hc with hc | hc <;> simp [hc, hz]
    rw [getBinary_of_collapse T _ x y scX scY h]
    rfl
  · intro hc hv
    have h : specialCase T .OP_DIV x y = .collapse := by
      rw [specialCase_const T _ x y hy]
      rcases hc with hc | hc <;> simp [hc, hv]
    rw [getBinary_of_collapse T _ x y scX scY h]
    rfl

/-- Witness of C2: `x0 - 0` and `x0 / 1` are the handle `x0`. -/
theorem getBinary_sub_zero_div_one_witness :
    getBinary arithCalculus .OP_SUB exSym exZero false false = ⟨[], .ok exSym⟩ ∧
      getBinary arithCalculus .OP_DIV exSym exOne true false = ⟨[], .ok exSym⟩ :=
  ⟨(getBinary_sub_zero_div_one arithCalculus exSym exZero false false rfl).1
      (Or.inl (by decide)) (by simp [exZero, MX.scalarConst, MX.isZero]),
    (getBinary_sub_zero_div_one arithCalculus exSym exOne true false rfl).2
      (Or.inl (by decide)) (by simp [exOne, MX.scalarConst, MX.isValue])⟩

/-- C3, counterexample: for the non-constant `x0`, `x0 + 0` is not collapsed to
`x0`.  The commutative operation is first normalised to `0 + x0`, no rule
applies to the second operand `x0`, and a binary addition node is allocated. -/
theorem getBinary_add_zero_counterexample :
    getBinary arithCalculus .OP_ADD exSym exZero false false =
        ⟨[.binary false false .OP_ADD exZero exSym],
          .ok (.binary false false .OP_ADD exZero exSym)⟩ ∧
      getBinary arithCalculus .OP_ADD exSym exZero false false ≠ ⟨[], .ok exSym⟩ := by
  have hs : specialCase arithCalculus .OP_ADD exSym exZero = .swap := by
    simp [specialCase, exSym, exZero, MX.scalarConst, MX.getOp, arithCalculus]
  have hn : specialCase arithCalculus .OP_ADD exZero exSym = .noRule := by
    simp [specialCase, exSym, MX.getOp]
  have hd : (MX.binary false false .OP_ADD exZero exSym).dense = true := by decide
  have e : getBinary arithCalculus .OP_ADD exSym exZero false false =
      ⟨[.binary false false .OP_ADD exZero exSym],
        .ok (.binary false false .OP_ADD exZero exSym)⟩ := by
    rw [getBinary_of_swap _ _ _ _ _ _ hs, getBinary_of_noRule _ _ _ _ _ _ hn]
    simp [hd, Built.create]
  refine ⟨e, ?_⟩
  rw [e]
  simp

/-- C3 (amended): identity collapse for addition and multiplication.  For every
constant `y`, `x + y` with `y` identically zero and `x * y` with `y` of value
exactly 1 return the handle of `x` itself without allocating a node when `x`
is a constant; for a non-constant `x` the commutative operation is instead
forwarded to `y.getBinary(op, x, scY, scX)` by the constant-position
normalisation. -/
theorem getBinary_add_zero_mul_one (T : Calculus) (x y : MX) (scX scY : Bool)
    (hy : y.getOp = .OP_CONST) :
    (x.getOp = .OP_CONST → y.isZero = true →
        getBinary T .OP_ADD x y scX scY = ⟨[], .ok x⟩) ∧
      (x.getOp = .OP_CONST → y.isValue 1 = true →
        getBinary T .OP_MUL x y scX scY = ⟨[], .ok x⟩) ∧
      (x.getOp ≠ .OP_CONST → T.CommChecker .OP_ADD = true →
        getBinary T .OP_ADD x y scX scY = getBinary T .OP_ADD y x scY scX) ∧
      (x.getOp ≠ .OP_CONST → T.CommChecker .OP_MUL = true →
        getBinary T .OP_MUL x y scX scY = getBinary T .OP_MUL y x scY scX) := by
  refine ⟨?_, ?_, ?_, ?_⟩
  · intro hx hz
    have h : specialCase T .OP_ADD x y = .collapse := by
      rw [specialCase_const T _ x y hy]
      simp [hx, hz]
    rw [getBinary_of_collapse T _ x y scX scY h]
    rfl
  · intro hx hv
    have h : specialCase T .OP_MUL x y = .collapse := by
      rw [specialCase_const T _ x y hy]
      simp [hx, hv]
    rw [getBinary_of_collapse T _ x y scX scY h]
    rfl
  · intro hx hc
    have h : specialCase T .OP_ADD x y = .swap := by
      rw [specialCase_const T _ x y hy]
      simp [hx, hc]
    exact getBinary_of_swap T _ x y scX scY h
  · intro hx hc
    have h : specialCase T .OP_MUL x y = .swap := by
      rw [specialCase_const T _ x y hy]
      simp [hx, hc]
    exact getBinary_of_swap T _ x y scX scY h

/-- Witness of C3 (amended): `5 + 0` and `5 * 1` are the handle `5`; `x0 + 0`
is forwarded to `0 + x0`. -/
theorem getBinary_add_zero_mul_one_witness :
    getBinary arithCalculus .OP_ADD exFive exZero false false = ⟨[], .ok exFive⟩ ∧
      getBinary arithCalculus .OP_MUL exFive exOne false false = ⟨[], .ok exFive⟩ ∧
      getBinary arithCalculus .OP_ADD exSym exZero true false =
        getBinary arithCalculus .OP_ADD exZero exSym false true :=
  ⟨(getBinary_add_zero_mul_one arithCalculus exFive exZero false false rfl).1 rfl
      (by simp [exZero, MX.scalarConst, MX.isZero]),
    (getBinary_add_zero_mul_one arithCalculus exFive exOne false false rfl).2.1 rfl
      (by simp [exOne, MX.scalarConst, MX.isValue]),
    (getBinary_add_zero_mul_one arithCalculus exSym exZero true false rfl).2.2.1
      (by decide) (by decide)⟩

/-! ## The square rewrite -/

/-- C4, counterexample: with the exponent 2 and the constant zero as base,
`getBinary(OP_CONSTPOW, 0, 2)` is the 1-by-1 structural zero and not a unary
`OP_SQ` node; nothing is allocated. -/
theorem getBinary_constpow_two_counterexample :
    getBinary arithCalculus .OP_CONSTPOW exZero exTwo false false =
        ⟨[], .ok (MX.sparse 1 1)⟩ ∧
      (getBinary arithCalculus .OP_CONSTPOW exZero exTwo false false).out ≠
        .ok (.unary .OP_SQ exZero) := by
  have hs : specialCase arithCalculus .OP_CONSTPOW exZero exTwo = .square := by
    simp [specialCase, exZero, exTwo, MX.scalarConst, MX.getOp, MX.isValue]
  have e : getBinary arithCalculus .OP_CONSTPOW exZero exTwo false false =
      ⟨[], .ok (MX.sparse 1 1)⟩ := by
    rw [getBinary_of_square _ _ _ _ _ _ hs]
    simp [getUnary, arithCalculus, exZero, MX.scalarConst, MX.isZero, Built.ret,
      MX.size1, MX.size2, MX.sparsity, sp_dense]
  refine ⟨e, ?_⟩
  rw [e]
  simp [MX.sparse]

/-- C4 (amended): square rewrite.  For every node `x` and every constant `y`
of value exactly 2, `getBinary(OP_CONSTPOW, x, y)` returns exactly the result
of `x.getUnary(OP_SQ)` (the power not being commutative in the `CommChecker`
table, or `x` being a constant).  That result is a freshly allocated unary node with operation `OP_SQ`
whose single dependency is `x`, unless `OP_SQ` maps zero to zero and `x` is
identically zero: then it is the all-structural-zero matrix of the shape of
`x` and nothing is allocated.  In neither case is a binary node created. -/
theorem getBinary_constpow_two (T : Calculus) (x y : MX) (scX scY : Bool)
    (hy : y.getOp = .OP_CONST) (hv : y.isValue 2 = true)
    (hc : T.CommChecker .OP_CONSTPOW = false ∨ x.getOp = .OP_CONST) :
    getBinary T .OP_CONSTPOW x y scX scY = getUnary T .OP_SQ x ∧
      (¬ (T.F0XChecker .OP_SQ = true ∧ x.isZero = true) →
        getUnary T .OP_SQ x = ⟨[.unary .OP_SQ x], .ok (.unary .OP_SQ x)⟩ ∧
          (MX.unary .OP_SQ x).getOp = .OP_SQ ∧ (MX.unary .OP_SQ x).dep_ = [x]) ∧
      (T.F0XChecker .OP_SQ = true ∧ x.isZero = true →
        getUnary T .OP_SQ x = ⟨[], .ok (MX.sparse x.size1 x.size2)⟩) ∧
      (∀ n ∈ (getBinary T .OP_CONSTPOW x y scX scY).created,
        ∀ sx sy op a b, n ≠ .binary sx sy op a b) := by
  have h : specialCase T .OP_CONSTPOW x y = .square := by
    rw [specialCase_const T _ x y hy]
    rcases hc with hc | hc <;> simp [hc, hv]
  have e := getBinary_of_square T _ x y scX scY h
  refine ⟨e, ?_, ?_, ?_⟩
  · intro hn
    have hn2 : (T.F0XChecker .OP_SQ && x.isZero) = false := by
      cases h1 : T.F0XChecker .OP_SQ <;> cases h2 : x.isZero <;> simp_all
    simp [getUnary, hn2, Built.create, MX.getOp, MX.dep_]
  · intro hz
    simp [getUnary, hz.1, hz.2, Built.ret]
  · rw [e]
    intro n hn
    unfold getUnary at hn
    split at hn
    · simp [Built.ret] at hn
    · simp only [Built.create, List.mem_singleton] at hn
      subst hn
      intro sx sy op a b
      simp

/-- Witness of C4 (amended): `x0 ^ 2` is the freshly allocated node `sq(x0)`. -/
theorem getBinary_constpow_two_witness :
    getBinary arithCalculus .OP_CONSTPOW exSym exTwo false false =
      ⟨[.unary .OP_SQ exSym], .ok (.unary .OP_SQ exSym)⟩ :=
  have h := getBinary_constpow_two arithCalculus exSym exTwo false false rfl
    (by simp [exTwo, MX.scalarConst, MX.isValue]) (Or.inl (by decide))
  h.1.trans (h.2.1 (by simp [exSym, MX.isZero])).1

/-- C5, counterexample: the product `x0 * x0` of the symbolic scalar `x0` with
itself is built as a binary multiplication node over `(x0, x0)`, both through
`getBinarySwitch` and through `getBinary`; it is not the unary node `sq(x0)`. -/
theorem getBinary_mul_self_counterexample :
    getBinarySwitch arithCalculus .OP_MUL exSym exSym =
        ⟨[.binary true false .OP_MUL exSym exSym],
          .ok (.binary true false .OP_MUL exSym exSym)⟩ ∧
      getBinary arithCalculus .OP_MUL exSym exSym false false =
        ⟨[.binary false false .OP_MUL exSym exSym],
          .ok (.binary false false .OP_MUL exSym exSym)⟩ ∧
      (getBinarySwitch arithCalculus .OP_MUL exSym exSym).out ≠
        .ok (.unary .OP_SQ exSym) ∧
      (getBinary arithCalculus .OP_MUL exSym exSym false false).out ≠
        .ok (.unary .OP_SQ exSym) := by
  have hn : specialCase arithCalculus .OP_MUL exSym exSym = .noRule := by
    simp [specialCase, exSym, MX.getOp]
  have hd : exSym.dense = true := by decide
  have hd2 : (MX.binary false false .OP_MUL exSym exSym).dense = true := by decide
  have e1 : getBinary arithCalculus .OP_MUL exSym exSym true false =
      ⟨[.binary true false .OP_MUL exSym exSym],
        .ok (.binary true false .OP_MUL exSym exSym)⟩ := by
    rw [getBinary_of_noRule _ _ _ _ _ _ hn]
    simp [hd, Built.create]
  have e2 : getBinary arithCalculus .OP_MUL exSym exSym false false =
      ⟨[.binary false false .OP_MUL exSym exSym],
        .ok (.binary false false .OP_MUL exSym exSym)⟩ := by
    rw [getBinary_of_noRule _ _ _ _ _ _ hn]
    simp [hd2, Built.create]
  have e3 : getBinarySwitch arithCalculus .OP_MUL exSym exSym =
      ⟨[.binary true false .OP_MUL exSym exSym],
        .ok (.binary true false .OP_MUL exSym exSym)⟩ := by
    have hs : exSym.sparsity.scalar = true := by decide
    have hz : exSym.isZero = false := rfl
    have hsz : exSym.size ≠ 0 := by decide
    unfold getBinarySwitch
    rw [if_neg (not_not_intro (Or.inl hs)), if_neg (by simp [hz]), if_pos hs,
      if_neg hsz, e1]
    simp only [Built.map, MX.toMatrix]
    rw [if_pos (by decide)]
  refine ⟨e3, e2, ?_, ?_⟩
  · rw [e3]
    simp
  · rw [e2]
    simp

/-- C5 (amended): construction of `x0 * x0`.  For an expression `x0` that is
neither a constant nor a reciprocal, `getBinary(OP_MUL, x0, x0)` applies no
rewrite rule: it allocates a binary multiplication node whose two operands are
`x0` or its dense projection and returns that node (densified when the tables
require it).  No `OP_SQ` node is created; the square rewrite is reached only
through `OP_CONSTPOW` with the constant exponent 2. -/
theorem getBinary_mul_self (T : Calculus) (x : MX) (scX scY : Bool)
    (hc : x.getOp ≠ .OP_CONST) (hi : x.getOp ≠ .OP_INV) :
    specialCase T .OP_MUL x x = .noRule ∧
      (∃ sx sy a b,
        (a = x ∨ a = .setSparse x (sp_dense x.size1 x.size2)) ∧
        (b = x ∨ b = .setSparse x (sp_dense x.size1 x.size2)) ∧
        MX.binary sx sy .OP_MUL a b ∈ (getBinary T .OP_MUL x x scX scY).created ∧
        ((getBinary T .OP_MUL x x scX scY).out = .ok (.binary sx sy .OP_MUL a b) ∨
          (getBinary T .OP_MUL x x scX scY).out =
            .ok (.filled (.binary sx sy .OP_MUL a b) (T.fun00 .OP_MUL)))) ∧
      (∀ n ∈ (getBinary T .OP_MUL x x scX scY).created, n.getOp ≠ .OP_SQ) := by
  have hn : ∀ w : MX, specialCase T .OP_MUL w x = .noRule := by
    intro w
    unfold specialCase
    split <;> simp_all
  have hs : ∀ (w : MX) (sp : CRSSparsity),
      specialCase T .OP_MUL w (.setSparse x sp) = .noRule := by
    intro w sp
    simp [specialCase, MX.getOp]
  have hdd : (MX.setSparse x (sp_dense x.size1 x.size2)).dense = true :=
    dense_sp_dense _ _
  refine ⟨hn x, ?_⟩
  rw [getBinary_of_noRule _ _ _ _ _ _ (hn x)]
  by_cases hx : scX = true
  · rw [if_pos hx]
    by_cases h1 : x.dense = true ∨ T.FX0Checker .OP_MUL = true
    · rw [if_pos h1]
      exact ⟨⟨true, false, x, x, Or.inl rfl, Or.inl rfl, by simp [Built.create],
        Or.inl rfl⟩, by simp [Built.create, MX.getOp]⟩
    · rw [if_neg h1]
      have hnd : x.dense = false := by
        cases h : x.dense
        · rfl
        · exact absurd (Or.inl h) h1
      simp only [densify, hnd, getSetSparse, Built.create, Built.bind, Built.after,
        Bool.false_eq_true, if_false]
      rw [getBinary_of_noRule _ _ _ _ _ _ (hs x _)]
      simp only [if_true, hdd, true_or, Built.create]
      exact ⟨⟨true, false, x, _, Or.inl rfl, Or.inr rfl, by simp, Or.inl rfl⟩,
        by simp [MX.getOp]⟩
  · rw [if_neg hx]
    by_cases hy : scY = true
    · rw [if_pos hy]
      by_cases h1 : x.dense = true ∨ T.F0XChecker .OP_MUL = true
      · rw [if_pos h1]
        exact ⟨⟨false, true, x, x, Or.inl rfl, Or.inl rfl, by simp [Built.create],
          Or.inl rfl⟩, by simp [Built.create, MX.getOp]⟩
      · rw [if_neg h1]
        have hnd : x.dense = false := by
          cases h : x.dense
          · rfl
          · exact absurd (Or.inl h) h1
        simp only [densify, hnd, getSetSparse, Built.create, Built.bind, Built.after,
          Bool.false_eq_true, if_false]
        rw [getBinary_of_noRule _ _ _ _ _ _ (hn _)]
        simp only [Bool.false_eq_true, if_false, if_true, hdd, true_or, Built.create]
        exact ⟨⟨false, true, _, x, Or.inr rfl, Or.inl rfl, by simp, Or.inl rfl⟩,
          by simp [MX.getOp]⟩
    · rw [if_neg hy]
      split_ifs with h1
      · refine ⟨⟨false, false, x, x, Or.inl rfl, Or.inl rfl,
          by simp [Built.create, Built.map], ?_⟩, by simp [Built.create, Built.map, MX.getOp]⟩
        right
        simp [Built.create, Built.map, MX.makeDense, h1.1]
      · exact ⟨⟨false, false, x, x, Or.inl rfl, Or.inl rfl, by simp [Built.create],
          Or.inl rfl⟩, by simp [Built.create, MX.getOp]⟩

/-- Witness of C5 (amended): for the symbolic 2-by-2 matrix `A`, the product
`A * A` is a freshly allocated binary multiplication node. -/
theorem getBinary_mul_self_witness :
    exMat.getOp ≠ .OP_CONST ∧ exMat.getOp ≠ .OP_INV ∧
      specialCase arithCalculus .OP_MUL exMat exMat = .noRule :=
  ⟨by decide, by decide,
    (getBinary_mul_self arithCalculus exMat false false (by decide) (by decide)).1⟩

/-! ## Normalisation and stripping of the second operand -/

/-- C6: constant-position normalisation.  For every commutative operation,
every non-constant node `x` and every constant `y`, the switch of `getBinary`
takes the swap and `getBinary(op, x, y, scX, scY)` equals
`y.getBinary(op, x, scY, scX)`: operands and scalar flags are exchanged.  The
swap is not taken when `x` is itself a constant or the operation is not
commutative, whatever the second operand. -/
theorem getBinary_constant_swap (T : Calculus) (op : Operation) (x y : MX)
    (scX scY : Bool) :
    (y.getOp = .OP_CONST → x.getOp ≠ .OP_CONST → T.CommChecker op = true →
        specialCase T op x y = .swap ∧
          getBinary T op x y scX scY = getBinary T op y x scY scX) ∧
      (x.getOp = .OP_CONST ∨ T.CommChecker op = false →
        specialCase T op x y ≠ .swap) := by
  constructor
  · intro hy hx hc
    have h : specialCase T op x y = .swap := by
      rw [specialCase_const T op x y hy]
      simp [hx, hc]
    exact ⟨h, getBinary_of_swap T op x y scX scY h⟩
  · intro h hs
    unfold specialCase at hs
    split at hs <;> (try split_ifs at hs) <;> rcases h with h | h <;> simp_all

/-- Witness of C6: `x0 * 5` is built as `5 * x0` with the flags exchanged,
while `5 * 5` and `x0 - 5` are not swapped. -/
theorem getBinary_constant_swap_witness :
    getBinary arithCalculus .OP_MUL exSym exFive true false =
        getBinary arithCalculus .OP_MUL exFive exSym false true ∧
      specialCase arithCalculus .OP_MUL exFive exFive ≠ .swap ∧
      specialCase arithCalculus .OP_SUB exSym exFive ≠ .swap :=
  ⟨((getBinary_constant_swap arithCalculus .OP_MUL exSym exFive true false).1
      rfl (by decide) (by decide)).2,
    (getBinary_constant_swap arithCalculus .OP_MUL exFive exFive false false).2
      (Or.inl rfl),
    (getBinary_constant_swap arithCalculus .OP_SUB exSym exFive false false).2
      (Or.inr (by decide))⟩

/-- C7: negation rewrite.  When the second operand `y` is a negation node with
dependency `z`, `x + y` is built as `x - z` and `x - y` as `x + z`, with the
same scalar flags; for every other operation the switch applies no rule to the
negated operand. -/
theorem getBinary_negation_rewrite (T : Calculus) (op : Operation) (x y z : MX)
    (scX scY : Bool) (hy : y.getOp = .OP_NEG) (hz : y.dep 0 = .ok z) :
    getBinary T .OP_ADD x y scX scY = getBinary T .OP_SUB x z scX scY ∧
      getBinary T .OP_SUB x y scX scY = getBinary T .OP_ADD x z scX scY ∧
      (op ≠ .OP_ADD → op ≠ .OP_SUB → specialCase T op x y = .noRule) := by
  refine ⟨?_, ?_, ?_⟩
  · exact getBinary_of_negAdd T _ x y z scX scY
      (by rw [specialCase_neg T _ x y hy]; simp) hz
  · exact getBinary_of_negSub T _ x y z scX scY
      (by rw [specialCase_neg T _ x y hy]; simp) hz
  · intro h1 h2
    rw [specialCase_neg T _ x y hy]
    simp [h1, h2]

/-- Witness of C7: `x0 + (-A)` is `x0 - A`, `x0 - (-A)` is `x0 + A`, and no rule
applies to `x0 * (-A)`. -/
theorem getBinary_negation_rewrite_witness :
    getBinary arithCalculus .OP_ADD exSym (.unary .OP_NEG exMat) true false =
        getBinary arithCalculus .OP_SUB exSym exMat true false ∧
      getBinary arithCalculus .OP_SUB exSym (.unary .OP_NEG exMat) true false =
        getBinary arithCalculus .OP_ADD exSym exMat true false ∧
      specialCase arithCalculus .OP_MUL exSym (.unary .OP_NEG exMat) = .noRule :=
  have h := getBinary_negation_rewrite arithCalculus .OP_MUL exSym
    (.unary .OP_NEG exMat) exMat true false rfl rfl
  ⟨h.1, h.2.1, h.2.2 (by decide) (by decide)⟩

/-- C8: reciprocal rewrite.  When the second operand `y` is a reciprocal node
with dependency `z`, `x * y` is built as `x / z` and `x / y` as `x * z`, with
the same scalar flags. -/
theorem getBinary_reciprocal_rewrite (T : Calculus) (x y z : MX) (scX scY : Bool)
    (hy : y.getOp = .OP_INV) (hz : y.dep 0 = .ok z) :
    getBinary T .OP_MUL x y scX scY = getBinary T .OP_DIV x z scX scY ∧
      getBinary T .OP_DIV x y scX scY = getBinary T .OP_MUL x z scX scY := by
  refine ⟨?_, ?_⟩
  · exact getBinary_of_invMul T _ x y z scX scY
      (by rw [specialCase_inv T _ x y hy]; simp) hz
  · exact getBinary_of_invDiv T _ x y z scX scY
      (by rw [specialCase_inv T _ x y hy]; simp) hz

/-- Witness of C8: `x0 * (1/A)` is `x0 / A` and `x0 / (1/A)` is `x0 * A`. -/
theorem getBinary_reciprocal_rewrite_witness :
    getBinary arithCalculus .OP_MUL exSym (.unary .OP_INV exMat) true false =
        getBinary arithCalculus .OP_DIV exSym exMat true false ∧
      getBinary arithCalculus .OP_DIV exSym (.unary .OP_INV exMat) true false =
        getBinary arithCalculus .OP_MUL exSym exMat true false :=
  getBinary_reciprocal_rewrite arithCalculus exSym (.unary .OP_INV exMat) exMat
    true false rfl rfl

/-! ## Shape check and operand patterns of `getBinarySwitch` -/

/-- Once the dimension check has passed, `getBinarySwitch` returns a handle. -/
theorem getBinarySwitch_ok (T : Calculus) (op : Operation) (x y : MX)
    (hdim : x.sparsity.scalar = true ∨ y.scalar = true ∨
      (x.sparsity.size1 = y.size1 ∧ x.size2 = y.size2)) :
    ∃ m, (getBinarySwitch T op x y).out = .ok m := by
  have hmap : ∀ (b : Built) (f : MX → MX), (∃ m, b.out = .ok m) →
      ∃ m, (b.map f).out = .ok m := by
    intro b f hb
    obtain ⟨m, hm⟩ := hb
    exact ⟨f m, by simp [Built.map, hm]⟩
  unfold getBinarySwitch
  rw [if_neg (not_not_intro hdim)]
  by_cases h1 : (T.F0XChecker op = true ∧ x.isZero = true) ∨
      (T.FX0Checker op = true ∧ y.isZero = true)
  · rw [if_pos h1]
    exact ⟨_, rfl⟩
  rw [if_neg h1]
  by_cases h2 : x.sparsity.scalar = true
  · rw [if_pos h2]
    split_ifs <;> exact hmap _ _ (getBinary_ok _ _ _ _ _ _)
  rw [if_neg h2]
  by_cases h4 : y.scalar = true
  · rw [if_pos h4]
    split_ifs <;> exact hmap _ _ (getBinary_ok _ _ _ _ _ _)
  rw [if_neg h4]
  have hs : x.sparsity.shape = y.sparsity.shape := by
    rcases hdim with h | h | h
    · exact absurd h h2
    · exact absurd h h4
    · simp only [MX.size1, MX.size2] at h
      simp [CRSSparsity.shape, h.1, h.2]
  rw [if_neg (not_not_intro hs)]
  by_cases h8 : x.sparsity = y.sparsity
  · rw [if_pos h8]
    exact getBinary_ok _ _ _ _ _ _
  · rw [if_neg h8]
    simp only [getSetSparse, Built.create, Built.bind, Built.after]
    exact getBinary_ok _ _ _ _ _ _

/-- C9: shape check of `getBinarySwitch`.  The call fails with a
dimension-mismatch error if and only if neither operand is scalar and the
operands differ in row count or column count; in that case the first assertion
fails before any node has been created; and the second dimension assertion,
the one of the non-scalar branch, never fails. -/
theorem getBinarySwitch_shape_check (T : Calculus) (op : Operation) (x y : MX) :
    (((∃ l r, (getBinarySwitch T op x y).out = .error (.dimensionMismatch l r)) ∨
        (getBinarySwitch T op x y).out = .error .shapeMismatch) ↔
      (x.scalar = false ∧ y.scalar = false ∧
        (x.size1 ≠ y.size1 ∨ x.size2 ≠ y.size2))) ∧
      ((x.scalar = false ∧ y.scalar = false ∧
          (x.size1 ≠ y.size1 ∨ x.size2 ≠ y.size2)) →
        getBinarySwitch T op x y =
          ⟨[], .error (.dimensionMismatch x.sparsity.shape y.sparsity.shape)⟩) ∧
      (getBinarySwitch T op x y).out ≠ .error .shapeMismatch := by
  by_cases hdim : x.sparsity.scalar = true ∨ y.scalar = true ∨
      (x.sparsity.size1 = y.size1 ∧ x.size2 = y.size2)
  · obtain ⟨m, hm⟩ := getBinarySwitch_ok T op x y hdim
    have hno : ¬ (x.scalar = false ∧ y.scalar = false ∧
        (x.size1 ≠ y.size1 ∨ x.size2 ≠ y.size2)) := by
      rintro ⟨h1, h2, h3⟩
      simp only [MX.scalar, MX.size1, MX.size2] at h1 h2 h3 hdim
      rcases hdim with h | h | h
      · simp [h] at h1
      · simp [h] at h2
      · rcases h3 with h3 | h3
        · exact h3 h.1
        · exact h3 h.2
    rw [hm]
    refine ⟨⟨?_, fun h => absurd h hno⟩, fun h => absurd h hno, by simp⟩
    rintro (⟨l, r, h⟩ | h) <;> simp at h
  · have hfail : getBinarySwitch T op x y =
        ⟨[], .error (.dimensionMismatch x.sparsity.shape y.sparsity.shape)⟩ := by
      unfold getBinarySwitch
      rw [if_pos hdim]
      rfl
    have hyes : x.scalar = false ∧ y.scalar = false ∧
        (x.size1 ≠ y.size1 ∨ x.size2 ≠ y.size2) := by
      simp only [MX.scalar, MX.size1, MX.size2] at hdim ⊢
      push_neg at hdim
      obtain ⟨h1, h2, h3⟩ := hdim
      refine ⟨by simpa using h1, by simpa using h2, ?_⟩
      by_cases h : x.sparsity.size1 = y.sparsity.size1
      · exact Or.inr (h3 h)
      · exact Or.inl h
    rw [hfail]
    exact ⟨⟨fun _ => hyes, fun _ => Or.inl ⟨_, _, rfl⟩⟩, fun _ => rfl, by simp⟩

/-- C10: same-sparsity guarantee for non-scalar operands.  For two non-scalar
operands of equal shape that do not trigger the absorbing-zero return,
`getBinarySwitch` hands to `getBinary(op, ., ., false, false)` two operands
with identical sparsity patterns: `x` and `y` themselves when their patterns are
equal, otherwise the two freshly allocated projections of `x` and of `y` onto
`r = patternCombine(sparsity(x), sparsity(y), F0X(op), FX0(op))`, both of
pattern `r`. -/
theorem getBinarySwitch_same_sparsity (T : Calculus) (op : Operation) (x y : MX)
    (hx : x.scalar = false) (hy : y.scalar = false)
    (hs : x.sparsity.shape = y.sparsity.shape)
    (hq : ¬ ((T.F0XChecker op = true ∧ x.isZero = true) ∨
      (T.FX0Checker op = true ∧ y.isZero = true))) :
    (x.sparsity = y.sparsity →
        getBinarySwitch T op x y = getBinary T op x y false false) ∧
      (x.sparsity ≠ y.sparsity →
        getBinarySwitch T op x y =
          (getBinary T op
            (.setSparse x (x.sparsity.patternCombine y.sparsity
              (T.F0XChecker op) (T.FX0Checker op)))
            (.setSparse y (x.sparsity.patternCombine y.sparsity
              (T.F0XChecker op) (T.FX0Checker op))) false false).after
            [.setSparse x (x.sparsity.patternCombine y.sparsity
              (T.F0XChecker op) (T.FX0Checker op)),
             .setSparse y (x.sparsity.patternCombine y.sparsity
              (T.F0XChecker op) (T.FX0Checker op))]) ∧
      (MX.setSparse x (x.sparsity.patternCombine y.sparsity
          (T.F0XChecker op) (T.FX0Checker op))).sparsity =
        x.sparsity.patternCombine y.sparsity (T.F0XChecker op) (T.FX0Checker op) ∧
      (MX.setSparse y (x.sparsity.patternCombine y.sparsity
          (T.F0XChecker op) (T.FX0Checker op))).sparsity =
        x.sparsity.patternCombine y.sparsity (T.F0XChecker op) (T.FX0Checker op) := by
  have hx2 : ¬ x.sparsity.scalar = true := by
    simp only [MX.scalar] at hx
    simp [hx]
  have hy2 : ¬ y.scalar = true := by simp [hy]
  have hdim : x.sparsity.scalar = true ∨ y.scalar = true ∨
      (x.sparsity.size1 = y.size1 ∧ x.size2 = y.size2) := by
    simp only [CRSSparsity.shape, Prod.mk.injEq] at hs
    exact Or.inr (Or.inr hs)
  have hunf : getBinarySwitch T op x y =
      if x.sparsity = y.sparsity then getBinary T op x y false false
      else
        (getSetSparse x (x.sparsity.patternCombine y.sparsity
            (T.F0XChecker op) (T.FX0Checker op))).bind fun xx =>
          (getSetSparse y (x.sparsity.patternCombine y.sparsity
            (T.F0XChecker op) (T.FX0Checker op))).bind fun yy =>
              getBinary T op xx yy false false := by
    unfold getBinarySwitch
    rw [if_neg (not_not_intro hdim), if_neg hq, if_neg hx2, if_neg hy2,
      if_neg (not_not_intro hs)]
  refine ⟨?_, ?_, rfl, rfl⟩
  · intro he
    rw [hunf, if_pos he]
  · intro he
    rw [hunf, if_neg he]
    simp [getSetSparse, Built.create, Built.bind, Built.after]

/-- Witness of C10: the dense matrix `A` and the sparse matrix `B` have equal
shape and different patterns, so both are projected onto the combined pattern
(here the dense one) before the node is built. -/
theorem getBinarySwitch_same_sparsity_witness :
    exMat.sparsity ≠ exSparseMat.sparsity ∧
      getBinarySwitch arithCalculus .OP_ADD exMat exSparseMat =
        (getBinary arithCalculus .OP_ADD
          (.setSparse exMat (exMat.sparsity.patternCombine exSparseMat.sparsity
            false false))
          (.setSparse exSparseMat (exMat.sparsity.patternCombine exSparseMat.sparsity
            false false)) false false).after
          [.setSparse exMat (exMat.sparsity.patternCombine exSparseMat.sparsity
            false false),
           .setSparse exSparseMat (exMat.sparsity.patternCombine exSparseMat.sparsity
            false false)] :=
  ⟨by decide,
    (getBinarySwitch_same_sparsity arithCalculus .OP_ADD exMat exSparseMat
      (by decide) (by decide) (by decide) (by decide)).2.1 (by decide)⟩

/-! ## Accessors of the base class -/

/-- C13: dependency access.  For every node, `ndep()` is the number of
dependency handles stored, `dep(i)` returns the `i`-th stored handle for every
`0 <= i < ndep()` and fails with an out-of-range error for every `i < 0` and
every `i >= ndep()`; the const and the non-const accessor agree. -/
theorem dep_access (x : MX) :
    x.ndep = x.dep_.length ∧
      (∀ (i : Nat) (h : i < x.dep_.length),
        x.dep (i : Int) = .ok (x.dep_.get ⟨i, h⟩)) ∧
      (∀ ind : Int, ind < 0 ∨ (x.ndep : Int) ≤ ind →
        x.dep ind = .error .outOfRange) ∧
      (∀ ind : Int, x.depConst ind = x.dep ind) := by
  refine ⟨rfl, ?_, ?_, fun _ => rfl⟩
  · intro i h
    simp [MX.dep, List.getElem?_eq_getElem h]
  · intro ind h
    unfold MX.dep
    rcases h with h | h
    · rw [if_neg (by omega)]
    · have h0 : 0 ≤ ind := le_trans (Int.ofNat_nonneg _) h
      rw [if_pos h0]
      have hlen : x.dep_.length ≤ ind.toNat := by
        simp only [MX.ndep] at h
        omega
      rw [List.get?_eq_none.mpr hlen]

/-- C14: output index range of a single-output node.  With `oind == 0`,
`sparsity(oind)` returns the stored pattern and `getOutput(oind)` the handle of
the node itself; for every other `oind` both fail with an index-out-of-bounds
error. -/
theorem output_index_range (x : MX) (oind : Int) :
    (oind = 0 → x.sparsityOut oind = .ok x.sparsity ∧ x.getOutput oind = .ok x) ∧
      (oind ≠ 0 →
        x.sparsityOut oind = .error (.casadiException "Index out of bounds") ∧
        x.getOutput oind = .error (.casadiException "Output index out of bounds")) := by
  constructor
  · intro h
    simp [MX.sparsityOut, MX.getOutput, h]
  · intro h
    simp [MX.sparsityOut, MX.getOutput, h]

/-- Witness of C14 at the output indices 0 and 1 of the symbolic scalar. -/
theorem output_index_range_witness :
    exSym.sparsityOut 0 = .ok exSym.sparsity ∧ exSym.getOutput 0 = .ok exSym ∧
      exSym.getOutput 1 = .error (.casadiException "Output index out of bounds") :=
  ⟨((output_index_range exSym 0).1 rfl).1, ((output_index_range exSym 0).1 rfl).2,
    ((output_index_range exSym 1).2 (by decide)).2⟩

/-- C15: unsupported evaluation.  The base implementations of `evaluateD`
(seeded form), `evaluateSX` (seeded form) and `propagateSparsity` fail for
every input with an exception "... not defined for class <name>" whose message
ends with the name of the class of the node, and leave every buffer passed by
reference as it was. -/
theorem unsupported_evaluation {D S : Type} (typeidName : MX → String) (x : MX)
    (inD : List D) (seedD seedD2 : List (List D)) (bufD : EvalBuffers D)
    (inS : List S) (seedS seedS2 : List (List S)) (bufS : EvalBuffers S)
    (input output : List D) (fwd : Bool) :
    ((evaluateD typeidName x inD seedD seedD2 bufD).1 = bufD ∧
        (evaluateD typeidName x inD seedD seedD2 bufD).2 = .error (.casadiException
          ("MXNode::evaluateD not defined for class " ++ typeidName x))) ∧
      ((evaluateSX typeidName x inS seedS seedS2 bufS).1 = bufS ∧
        (evaluateSX typeidName x inS seedS seedS2 bufS).2 = .error (.casadiException
          ("MXNode::evaluateSX not defined for class " ++ typeidName x))) ∧
      ((propagateSparsity typeidName x input output fwd).1 = (input, output) ∧
        (propagateSparsity typeidName x input output fwd).2 =
          .error (.casadiException
            ("MXNode::propagateSparsity not defined for class " ++ typeidName x))) :=
  ⟨⟨rfl, rfl⟩, ⟨rfl, rfl⟩, ⟨rfl, rfl⟩⟩

/-- C16: code-generation placeholder.  `generateOperation` never fails and
appends to the stream exactly the text
`#error <class name>: <args> => <results>` followed by a newline; when neither
the class name nor the printed lists contain a newline, that text is exactly
one line. -/
theorem generateOperation_placeholder (typeidName : MX → String)
    (vecStr : List String → String) (x : MX) (stream : String)
    (arg res : List String) :
    (generateOperation typeidName vecStr x stream arg res).2 = .ok () ∧
      (generateOperation typeidName vecStr x stream arg res).1 =
        stream ++ ("#error " ++ typeidName x ++ ": " ++ vecStr arg ++ " => " ++
          vecStr res ++ "\n") ∧
      (Char.ofNat 10 ∉ (typeidName x).data → Char.ofNat 10 ∉ (vecStr arg).data →
        Char.ofNat 10 ∉ (vecStr res).data →
        ("#error " ++ typeidName x ++ ": " ++ vecStr arg ++ " => " ++
          vecStr res ++ "\n").data.count (Char.ofNat 10) = 1 ∧
        ("#error " ++ typeidName x ++ ": " ++ vecStr arg ++ " => " ++
          vecStr res ++ "\n").data.getLast? = some (Char.ofNat 10)) := by
  refine ⟨rfl, ?_, ?_⟩
  · simp [generateOperation, String.append_assoc]
  · intro h1 h2 h3
    constructor
    · simp only [String.data_append, List.count_append,
        List.count_eq_zero_of_not_mem h1, List.count_eq_zero_of_not_mem h2,
        List.count_eq_zero_of_not_mem h3]
      decide
    · rw [String.data_append]
      exact List.getLast?_concat _

/-- Witness of C16: the placeholder line written for the symbolic scalar. -/
theorem generateOperation_placeholder_witness :
    (generateOperation (fun _ => "SymbolicMX") (fun l => String.intercalate "," l)
        exSym "" ["a", "b"] ["r"]).1 = "#error SymbolicMX: a,b => r\n" ∧
      ("#error SymbolicMX: a,b => r\n").data.count (Char.ofNat 10) = 1 :=
  have h := generateOperation_placeholder (fun _ => "SymbolicMX")
    (fun l => String.intercalate "," l) exSym "" ["a", "b"] ["r"]
  ⟨h.2.1.trans (by decide), (h.2.2 (by decide) (by decide) (by decide)).1⟩

/-! ## Serialization symmetry of `BonminInterface` -/

/-- A bind in `Except` succeeds exactly when both steps succeed. -/
theorem except_bind_eq_ok {ε α β : Type} (x : Except ε α) (f : α → Except ε β) (b : β) :
    (x >>= f) = .ok b ↔ ∃ a, x = .ok a ∧ f a = .ok b := by
  cases x with
  | error e => simp [bind, Except.bind]
  | ok a => simp [bind, Except.bind]

/-- Function `unpack` reads the value stored under the expected key. -/
theorem unpack_cons {α : Type} (key : String) (v : α)
    (r : List (BonminInterface.Item α)) :
    BonminInterface.unpack (.entry key v :: r) key = .ok (v, r) := by
  simp [BonminInterface.unpack]

/-- Function `unpackVersion` accepts the expected tag. -/
theorem unpackVersion_cons {α : Type} (name : String) (v : Int)
    (r : List (BonminInterface.Item α)) :
    BonminInterface.unpackVersion (.version name v :: r) name v = .ok r := by
  simp [BonminInterface.unpackVersion]

/-- Function `unpack` succeeds exactly on a stream that starts with the key. -/
theorem unpack_eq_ok {α : Type} (s : List (BonminInterface.Item α)) (key : String)
    (v : α) (r : List (BonminInterface.Item α)) :
    BonminInterface.unpack s key = .ok (v, r) ↔ s = .entry key v :: r := by
  cases s with
  | nil => simp [BonminInterface.unpack]
  | cons i t =>
    cases i with
    | version n w => simp [BonminInterface.unpack]
    | entry k val =>
      simp only [BonminInterface.unpack]
      split_ifs with h
      · subst h
        simp
      · simp only [List.cons.injEq, BonminInterface.Item.entry.injEq, false_iff,
          reduceCtorEq]
        intro h1
        exact h h1.1.1

/-- Function `unpackVersion` succeeds exactly on a stream that starts with the tag. -/
theorem unpackVersion_eq_ok {α : Type} (s r : List (BonminInterface.Item α))
    (name : String) (v : Int) :
    BonminInterface.unpackVersion s name v = .ok r ↔ s = .version name v :: r := by
  cases s with
  | nil => simp [BonminInterface.unpackVersion]
  | cons i t =>
    cases i with
    | entry k val => simp [BonminInterface.unpackVersion]
    | version n w =>
      simp only [BonminInterface.unpackVersion]
      split_ifs with h
      · obtain ⟨h1, h2⟩ := h
        subst h1 h2
        simp
      · simp only [List.cons.injEq, BonminInterface.Item.version.injEq, false_iff,
          reduceCtorEq]
        intro h1
        exact h h1.1

/-- The items that `serialize_body` appends. -/
theorem serialize_body_eq {α : Type} (m : BonminInterface.Members α)
    (base : List (BonminInterface.Item α)) :
    BonminInterface.serialize_body m base = base ++
      [.version "BonminInterface" 1,
       .entry "BonminInterface::jacg_sp" m.jacg_sp_,
       .entry "BonminInterface::hesslag_sp" m.hesslag_sp_,
       .entry "BonminInterface::exact_hessian" m.exact_hessian_,
       .entry "BonminInterface::opts" m.opts_,
       .entry "BonminInterface::sos1_weights" m.sos1_weights_,
       .entry "BonminInterface::sos1_indices" m.sos1_indices_,
       .entry "BonminInterface::sos1_priorities" m.sos1_priorities_,
       .entry "BonminInterface::sos1_starts" m.sos1_starts_,
       .entry "BonminInterface::sos1_types" m.sos1_types_,
       .entry "BonminInterface::sos1_types" m.sos1_types_,
       .entry "BonminInterface::sos_num" m.sos_num_,
       .entry "BonminInterface::sos_num_nz" m.sos_num_nz_,
       .entry "BonminInterface::pass_nonlinear_variables" m.pass_nonlinear_variables_,
       .entry "BonminInterface::pass_nonlinear_constraints"
         m.pass_nonlinear_constraints_,
       .entry "BonminInterface::nl_ex" m.nl_ex_,
       .entry "BonminInterface::nl_g" m.nl_g_,
       .entry "BonminInterface::var_string_md" m.var_string_md_,
       .entry "BonminInterface::var_integer_md" m.var_integer_md_,
       .entry "BonminInterface::var_numeric_md" m.var_numeric_md_,
       .entry "BonminInterface::con_string_md" m.con_string_md_,
       .entry "BonminInterface::con_integer_md" m.con_integer_md_,
       .entry "BonminInterface::con_numeric_md" m.con_numeric_md_] := by
  simp only [BonminInterface.serialize_body, BonminInterface.pack,
    BonminInterface.packVersion, List.append_assoc, List.singleton_append,
    List.cons_append, List.nil_append]


/-- A successful first step of a bind in `Except` hands its value on. -/
theorem except_ok_bind {ε α β : Type} (a : α) (f : α → Except ε β) :
    ((Except.ok a : Except ε α) >>= f) = f a := rfl

/-- Reading back what `serialize_body` wrote restores every member. -/
theorem deserialize_serialize_body {α : Type} (m : BonminInterface.Members α)
    (rest : List (BonminInterface.Item α)) :
      BonminInterface.deserialize (BonminInterface.serialize_body m [] ++ rest) =
        .ok (m, rest) := by
  rw [serialize_body_eq]
  simp only [List.nil_append, List.cons_append]
  unfold BonminInterface.deserialize
  rw [unpackVersion_cons, except_ok_bind]
  iterate 22 (rw [unpack_cons, except_ok_bind]; dsimp only)
  rfl

/-- A stream accepted by the deserializing constructor starts with the version
tag and the keys of `serialize_body`. -/
theorem deserialize_accepts {α : Type} (s : List (BonminInterface.Item α))
    (m2 : BonminInterface.Members α) (rest2 : List (BonminInterface.Item α))
    (h : BonminInterface.deserialize s = .ok (m2, rest2)) :
    s.drop 23 = rest2 ∧ s.head? = some (.version "BonminInterface" 1) ∧
      (s.take 23).map BonminInterface.Item.key =
        (BonminInterface.serialize_body m2 []).map BonminInterface.Item.key := by
  unfold BonminInterface.deserialize at h
  rw [except_bind_eq_ok] at h
  obtain ⟨a, ha, h⟩ := h
  rw [unpackVersion_eq_ok] at ha
  subst ha
  iterate 22
    rw [except_bind_eq_ok] at h
    obtain ⟨⟨v, r⟩, ha, h⟩ := h
    rw [unpack_eq_ok] at ha
    subst ha
    dsimp only at h
  obtain ⟨h1, h2⟩ := Prod.mk.inj (Except.ok.inj h)
  subst h1 h2
  refine ⟨rfl, rfl, ?_⟩
  rw [serialize_body_eq]
  rfl

/-- C17: serialization symmetry of `BonminInterface`.  `serialize_body` appends
its items after the base-class part; reading them back with the deserializing
constructor restores every packed member and leaves the rest of the stream;
every stream that the constructor accepts starts with the version tag
("BonminInterface", 1) followed by exactly the keys that `serialize_body`
packs, in the same order and with the same multiplicity; and a stream that
starts with another version tag is rejected. -/
theorem bonmin_serialization_symmetry {α : Type} (m : BonminInterface.Members α)
    (base rest : List (BonminInterface.Item α)) :
    BonminInterface.serialize_body m base =
        base ++ BonminInterface.serialize_body m [] ∧
      BonminInterface.deserialize (BonminInterface.serialize_body m [] ++ rest) =
        .ok (m, rest) ∧
      (∀ (s : List (BonminInterface.Item α)) (m2 : BonminInterface.Members α)
        (rest2 : List (BonminInterface.Item α)),
        BonminInterface.deserialize s = .ok (m2, rest2) →
        s.drop 23 = rest2 ∧ s.head? = some (.version "BonminInterface" 1) ∧
          (s.take 23).map BonminInterface.Item.key =
            (BonminInterface.serialize_body m2 []).map BonminInterface.Item.key) ∧
      (∀ (name : String) (v : Int) (s : List (BonminInterface.Item α)),
        ¬ (name = "BonminInterface" ∧ v = 1) →
        BonminInterface.deserialize (.version name v :: s) =
          .error (.casadiException "version mismatch")) := by
  refine ⟨?_, deserialize_serialize_body m rest, deserialize_accepts, ?_⟩
  · rw [serialize_body_eq, serialize_body_eq]
    rfl
  · intro name v s h
    unfold BonminInterface.deserialize
    simp only [BonminInterface.unpackVersion, if_neg h]
    rfl

/-- Witness of C17: the example members survive the round trip, and a stream
with the version number 2 is rejected. -/
theorem bonmin_serialization_symmetry_witness :
    BonminInterface.deserialize
        (BonminInterface.serialize_body BonminInterface.exMembers [] ++ []) =
        .ok (BonminInterface.exMembers, []) ∧
      BonminInterface.deserialize
        (.version "BonminInterface" 2 :: ([] : List (BonminInterface.Item Nat))) =
        .error (.casadiException "version mismatch") :=
  have h := bonmin_serialization_symmetry BonminInterface.exMembers [] []
  ⟨h.2.1, h.2.2.2 "BonminInterface" 2 [] (by decide)⟩

/-! ## Densification and idempotence of the node-building tail -/

/-- C11: densification of zero-to-nonzero operations.  With both scalar flags
false and no rewrite rule applicable, `getBinary` allocates the same-sparsity
binary node `rr`.  If `rr` is not dense and the operation does not map (0,0) to
0, the returned expression is `rr.makeDense(f(0,0))`: it is dense and holds the
value of the operation at (0,0) at every position of the shape that `rr` does
not store.  If `rr` is dense or the operation maps (0,0) to 0, `rr` itself is
returned. -/
theorem getBinary_densification (T : Calculus) (op : Operation) (x y : MX)
    (hn : specialCase T op x y = .noRule) :
    ((MX.binary false false op x y).dense = false → T.F00Checker op = false →
        getBinary T op x y false false =
            ⟨[.binary false false op x y],
              .ok ((MX.binary false false op x y).makeDense (T.fun00 op))⟩ ∧
          ((MX.binary false false op x y).makeDense (T.fun00 op)).dense = true ∧
          ∀ p ∈ allPositions (MX.binary false false op x y).size1
              (MX.binary false false op x y).size2,
            p ∉ (MX.binary false false op x y).sparsity.nz →
            ((MX.binary false false op x y).makeDense (T.fun00 op)).filledAt p =
              some (T.fun00 op)) ∧
      ((MX.binary false false op x y).dense = true ∨ T.F00Checker op = true →
        getBinary T op x y false false =
          ⟨[.binary false false op x y], .ok (.binary false false op x y)⟩) := by
  rw [getBinary_of_noRule T op x y false false hn]
  constructor
  · intro hd hf
    have hm : (MX.binary false false op x y).makeDense (T.fun00 op) =
        .filled (.binary false false op x y) (T.fun00 op) := by
      simp [MX.makeDense, hd]
    refine ⟨?_, ?_, ?_⟩
    · simp [hd, hf, Built.map, Built.create]
    · rw [hm]
      exact dense_sp_dense _ _
    · intro p hp hnz
      rw [hm]
      simp only [MX.filledAt]
      rw [if_pos ⟨hp, hnz⟩]
  · intro h
    have hc : ¬ ((MX.binary false false op x y).dense = false ∧
        T.F00Checker op = false) := by
      rintro ⟨h1, h2⟩
      rcases h with h | h
      · rw [h] at h1
        exact Bool.noConfusion h1
      · rw [h] at h2
        exact Bool.noConfusion h2
    simp only [Bool.false_eq_true, if_false]
    rw [if_neg hc]
    rfl

/-- Witness of C11: the power of the sparse matrix `B` by itself is not dense
and 0^0 is 1, so the node is densified with the value 1; the sum `B + B` is
returned as built. -/
theorem getBinary_densification_witness :
    getBinary arithCalculus .OP_CONSTPOW exSparseMat exSparseMat false false =
        ⟨[.binary false false .OP_CONSTPOW exSparseMat exSparseMat],
          .ok (.filled (.binary false false .OP_CONSTPOW exSparseMat exSparseMat) 1)⟩ ∧
      getBinary arithCalculus .OP_ADD exSparseMat exSparseMat false false =
        ⟨[.binary false false .OP_ADD exSparseMat exSparseMat],
          .ok (.binary false false .OP_ADD exSparseMat exSparseMat)⟩ :=
  ⟨((getBinary_densification arithCalculus .OP_CONSTPOW exSparseMat exSparseMat
      (by decide)).1 (by decide) (by decide)).1,
    (getBinary_densification arithCalculus .OP_ADD exSparseMat exSparseMat
      (by decide)).2 (Or.inr (by decide))⟩


/-- Function `densify` allocates nothing but the dense projection of its operand. -/
theorem densify_created (x : MX) (cr : List MX) (o : Except Error MX)
    (h : densify x = ⟨cr, o⟩) :
    ∀ n ∈ cr, n = .setSparse x (sp_dense x.size1 x.size2) := by
  unfold densify getSetSparse at h
  split at h
  · simp only [Built.ret, Built.mk.injEq] at h
    intro n hn
    rw [← h.1] at hn
    simp at hn
  · simp only [Built.create, Built.mk.injEq] at h
    intro n hn
    rw [← h.1] at hn
    simpa using hn

/-- The conditions under which the tail of `getBinary` allocates the binary
node with the scalar flags `sx`, `sy` over `(a, b)`. -/
theorem getBinary_created_binary (T : Calculus) (op : Operation) (x y : MX)
    (scX scY : Bool) :
    ∀ n ∈ (getBinary T op x y scX scY).created,
      ∀ (sx sy : Bool) (op2 : Operation) (a b : MX), n = .binary sx sy op2 a b →
        specialCase T op2 a b = .noRule ∧
          ((sx = true ∧ sy = false ∧ (b.dense = true ∨ T.FX0Checker op2 = true)) ∨
            (sx = false ∧ sy = true ∧ (a.dense = true ∨ T.F0XChecker op2 = true)) ∨
            (sx = false ∧ sy = false)) := by
  induction op, x, y, scX, scY using getBinary.induct T with
  | case1 op x y scX scY h ih => rw [getBinary_of_swap _ _ _ _ _ _ h]; exact ih
  | case2 op x y scX scY h =>
    rw [getBinary_of_square _ _ _ _ _ _ h]
    intro n hn sx sy op2 a b he
    unfold getUnary at hn
    split at hn
    · simp [Built.ret] at hn
    · simp only [Built.create, List.mem_singleton] at hn
      rw [hn] at he
      cases he
  | case3 op x y scX scY h =>
    rw [getBinary_of_collapse _ _ _ _ _ _ h]
    intro n hn
    simp [Built.ret] at hn
  | case4 op x y scX scY h z hz ih => rw [getBinary_of_negAdd _ _ _ _ _ _ _ h hz]; exact ih
  | case5 op x y scX scY h e he =>
    exact absurd he (strip_dep_ne_error T op x y e (Or.inl h))
  | case6 op x y scX scY h z hz ih => rw [getBinary_of_negSub _ _ _ _ _ _ _ h hz]; exact ih
  | case7 op x y scX scY h e he =>
    exact absurd he (strip_dep_ne_error T op x y e (Or.inr (Or.inl h)))
  | case8 op x y scX scY h z hz ih => rw [getBinary_of_invMul _ _ _ _ _ _ _ h hz]; exact ih
  | case9 op x y scX scY h e he =>
    exact absurd he (strip_dep_ne_error T op x y e (Or.inr (Or.inr (Or.inl h))))
  | case10 op x y scX scY h z hz ih => rw [getBinary_of_invDiv _ _ _ _ _ _ _ h hz]; exact ih
  | case11 op x y scX scY h e he =>
    exact absurd he (strip_dep_ne_error T op x y e (Or.inr (Or.inr (Or.inr h))))
  | case12 op x y scY h hd =>
    rw [getBinary_of_noRule _ _ _ _ _ _ h]
    simp only [if_true, if_pos hd, Built.create, List.mem_singleton]
    intro n hn sx sy op2 a b he
    rw [hn] at he
    cases he
    exact ⟨h, Or.inl ⟨rfl, rfl, hd⟩⟩
  | case13 op x y scY h hd cr yd hyd ih =>
    rw [getBinary_of_noRule _ _ _ _ _ _ h]
    simp only [if_true, if_neg hd, Built.bind, hyd, Built.after, List.mem_append]
    intro n hn sx sy op2 a b he
    rcases hn with hn | hn
    · rw [densify_created y cr _ hyd n hn] at he
      cases he
    · exact ih n hn sx sy op2 a b he
  | case14 op x y scY h hd cr e he =>
    exact absurd he (densify_out_ne_error y cr e)
  | case15 op x y scX h hx hd =>
    rw [getBinary_of_noRule _ _ _ _ _ _ h]
    simp only [if_neg hx, if_true, if_pos hd, Built.create, List.mem_singleton]
    intro n hn sx sy op2 a b he
    rw [hn] at he
    cases he
    exact ⟨h, Or.inr (Or.inl ⟨rfl, rfl, hd⟩)⟩
  | case16 op x y scX h hx hd cr xd hxd ih =>
    rw [getBinary_of_noRule _ _ _ _ _ _ h]
    simp only [if_neg hx, if_true, if_neg hd, Built.bind, hxd, Built.after,
      List.mem_append]
    intro n hn sx sy op2 a b he
    rcases hn with hn | hn
    · rw [densify_created x cr _ hxd n hn] at he
      cases he
    · exact ih n hn sx sy op2 a b he
  | case17 op x y scX h hx hd cr e he =>
    exact absurd he (densify_out_ne_error x cr e)
  | case18 op x y scX scY h hx hy rr hrr =>
    rw [getBinary_of_noRule _ _ _ _ _ _ h]
    simp only [if_neg hx, if_neg hy]
    rw [if_pos hrr]
    simp only [Built.map, Built.create, List.mem_singleton]
    intro n hn sx sy op2 a b he
    rw [hn] at he
    cases he
    exact ⟨h, Or.inr (Or.inr ⟨rfl, rfl⟩)⟩
  | case19 op x y scX scY h hx hy rr hrr =>
    rw [getBinary_of_noRule _ _ _ _ _ _ h]
    simp only [if_neg hx, if_neg hy]
    rw [if_neg hrr]
    simp only [Built.create, List.mem_singleton]
    intro n hn sx sy op2 a b he
    rw [hn] at he
    cases he
    exact ⟨h, Or.inr (Or.inr ⟨rfl, rfl⟩)⟩

/-- C20: idempotence of construction-time simplification.  Whenever
`getBinary(op, x, y, scX, scY)` allocates a binary node with operation `op2`
and scalar flags `sx`, `sy` over the operands `(a, b)`, re-running
`getBinary(op2, a, b)` with the flags of that node applies no rewrite rule and
allocates exactly one node, the binary node with the same operation and the
same operands; it returns that node, densified when the node is not dense and
the operation does not map (0,0) to 0. -/
theorem getBinary_idempotent (T : Calculus) (op : Operation) (x y : MX)
    (scX scY sx sy : Bool) (op2 : Operation) (a b : MX)
    (h : MX.binary sx sy op2 a b ∈ (getBinary T op x y scX scY).created) :
    specialCase T op2 a b = .noRule ∧
      (getBinary T op2 a b sx sy).created = [.binary sx sy op2 a b] ∧
      ((getBinary T op2 a b sx sy).out = .ok (.binary sx sy op2 a b) ∨
        (getBinary T op2 a b sx sy).out =
          .ok ((MX.binary sx sy op2 a b).makeDense (T.fun00 op2))) := by
  obtain ⟨hn, hc⟩ := getBinary_created_binary T op x y scX scY _ h sx sy op2 a b rfl
  refine ⟨hn, ?_⟩
  rw [getBinary_of_noRule T op2 a b sx sy hn]
  rcases hc with ⟨h1, h2, h3⟩ | ⟨h1, h2, h3⟩ | ⟨h1, h2⟩
  · subst h1 h2
    simp [h3, Built.create]
  · subst h1 h2
    simp [h3, Built.create]
  · subst h1 h2
    simp only [Bool.false_eq_true, if_false]
    split_ifs
    · exact ⟨rfl, Or.inr rfl⟩
    · exact ⟨rfl, Or.inl rfl⟩

/-- Witness of C20: `x0 + (-A)` ends by allocating the node `x0 - A` with a scalar
first operand; building `x0 - A` again gives the same node. -/
theorem getBinary_idempotent_witness :
    MX.binary true false .OP_SUB exSym exMat ∈
        (getBinary arithCalculus .OP_ADD exSym (.unary .OP_NEG exMat) true false).created ∧
      (getBinary arithCalculus .OP_SUB exSym exMat true false).created =
        [.binary true false .OP_SUB exSym exMat] := by
  have hs : specialCase arithCalculus .OP_ADD exSym (.unary .OP_NEG exMat) = .negAdd := by
    decide
  have hn : specialCase arithCalculus .OP_SUB exSym exMat = .noRule := by decide
  have hd : exMat.dense = true := by decide
  have hm : MX.binary true false .OP_SUB exSym exMat ∈
      (getBinary arithCalculus .OP_ADD exSym (.unary .OP_NEG exMat) true false).created := by
    rw [getBinary_of_negAdd _ _ _ _ exMat _ _ hs rfl, getBinary_of_noRule _ _ _ _ _ _ hn]
    simp [hd, Built.create]
  exact ⟨hm, (getBinary_idempotent arithCalculus .OP_ADD exSym (.unary .OP_NEG exMat)
    true false true false .OP_SUB exSym exMat hm).2.1⟩

/-! ## What the switch of `getBinary` has tested -/

/-- What the switch of `getBinary` has tested when a rule fires. -/
theorem specialCase_spec (T : Calculus) (op : Operation) (x y : MX) :
    (specialCase T op x y = .swap →
        y.getOp = .OP_CONST ∧ x.getOp ≠ .OP_CONST ∧ T.CommChecker op = true) ∧
      (specialCase T op x y = .square →
        y.getOp = .OP_CONST ∧ op = .OP_CONSTPOW ∧ y.isValue 2 = true) ∧
      (specialCase T op x y = .collapse →
        y.getOp = .OP_CONST ∧
          (((op = .OP_ADD ∨ op = .OP_SUB) ∧ y.isZero = true) ∨
            ((op = .OP_MUL ∨ op = .OP_DIV) ∧ y.isValue 1 = true))) ∧
      (specialCase T op x y = .negAdd → y.getOp = .OP_NEG ∧ op = .OP_ADD) ∧
      (specialCase T op x y = .negSub → y.getOp = .OP_NEG ∧ op = .OP_SUB) ∧
      (specialCase T op x y = .invMul → y.getOp = .OP_INV ∧ op = .OP_MUL) ∧
      (specialCase T op x y = .invDiv → y.getOp = .OP_INV ∧ op = .OP_DIV) := by
  unfold specialCase
  split <;> (try split_ifs) <;> simp_all

/-- The example tables mark only commutative operations. -/
theorem arithCalculus_comm (op : Operation) (a b : Rat)
    (h : arithCalculus.CommChecker op = true) :
    casadi_math_fun op a b = casadi_math_fun op b a := by
  cases op <;> simp [arithCalculus] at h
  · simp [casadi_math_fun, add_comm]
  · simp [casadi_math_fun, mul_comm]

/-! ## Termination of the construction cascade -/

/-- Allocating nothing first leaves a result as it is. -/
theorem Built.after_nil (b : Built) : b.after [] = b := by
  cases b
  simp [Built.after]

/-- What a recursive call of `getBinary` is made on, for each kind of call. -/
theorem cascadeStep_spec (T : Calculus) (r r2 : Request) (m : Move)
    (h : cascadeStep T r = some (m, r2)) :
    (m = .swap → r.y.getOp = .OP_CONST ∧ r.x.getOp ≠ .OP_CONST ∧
        r2 = ⟨r.op, r.y, r.x, r.scY, r.scX⟩) ∧
      (m = .strip → (r.y.getOp = .OP_NEG ∨ r.y.getOp = .OP_INV) ∧
        r.y.dep 0 = .ok r2.y ∧ r2.x = r.x ∧ r2.scX = r.scX ∧ r2.scY = r.scY) ∧
      (m = .densifyY → r.scX = true ∧ r.y.dense = false ∧
        r2 = ⟨r.op, r.x, .setSparse r.y (sp_dense r.y.size1 r.y.size2), true, false⟩) ∧
      (m = .densifyX → r.scX = false ∧ r.scY = true ∧ r.x.dense = false ∧
        r2 = ⟨r.op, .setSparse r.x (sp_dense r.x.size1 r.x.size2), r.y, false, true⟩) := by
  obtain ⟨s1, _, _, s4, s5, s6, s7⟩ := specialCase_spec T r.op r.x r.y
  unfold cascadeStep at h
  cases hsc : specialCase T r.op r.x r.y <;> simp only [hsc] at h
  · -- swap
    simp only [Option.some.injEq, Prod.mk.injEq] at h
    obtain ⟨rfl, rfl⟩ := h
    obtain ⟨h1, h2, _⟩ := s1 hsc
    simp [h1, h2]
  · simp at h
  · simp at h
  · -- negAdd
    cases hd : r.y.dep 0 <;> simp only [hd] at h
    · simp at h
    · simp only [Option.some.injEq, Prod.mk.injEq] at h
      obtain ⟨rfl, rfl⟩ := h
      simp [(s4 hsc).1]
  · cases hd : r.y.dep 0 <;> simp only [hd] at h
    · simp at h
    · simp only [Option.some.injEq, Prod.mk.injEq] at h
      obtain ⟨rfl, rfl⟩ := h
      simp [(s5 hsc).1]
  · cases hd : r.y.dep 0 <;> simp only [hd] at h
    · simp at h
    · simp only [Option.some.injEq, Prod.mk.injEq] at h
      obtain ⟨rfl, rfl⟩ := h
      simp [(s6 hsc).1]
  · cases hd : r.y.dep 0 <;> simp only [hd] at h
    · simp at h
    · simp only [Option.some.injEq, Prod.mk.injEq] at h
      obtain ⟨rfl, rfl⟩ := h
      simp [(s7 hsc).1]
  · -- noRule
    by_cases hx : r.scX = true
    · rw [if_pos hx] at h
      by_cases hd : r.y.dense = true ∨ T.FX0Checker r.op = true
      · rw [if_pos hd] at h
        simp at h
      · rw [if_neg hd] at h
        have hnd : r.y.dense = false := by
          cases h1 : r.y.dense
          · rfl
          · exact absurd (Or.inl h1) hd
        simp only [densify, hnd, getSetSparse, Built.create, Bool.false_eq_true,
          if_false, Option.some.injEq, Prod.mk.injEq] at h
        obtain ⟨rfl, rfl⟩ := h
        simp [hx, hnd]
    · rw [if_neg hx] at h
      have hx2 : r.scX = false := by
        cases h1 : r.scX
        · rfl
        · exact absurd h1 hx
      by_cases hy : r.scY = true
      · rw [if_pos hy] at h
        by_cases hd : r.x.dense = true ∨ T.F0XChecker r.op = true
        · rw [if_pos hd] at h
          simp at h
        · rw [if_neg hd] at h
          have hnd : r.x.dense = false := by
            cases h1 : r.x.dense
            · rfl
            · exact absurd (Or.inl h1) hd
          simp only [densify, hnd, getSetSparse, Built.create, Bool.false_eq_true,
            if_false, Option.some.injEq, Prod.mk.injEq] at h
          obtain ⟨rfl, rfl⟩ := h
          simp [hx2, hy, hnd]
      · rw [if_neg hy] at h
        simp at h

/-- The step function is the recursion of `getBinary`: the result of the call on
a request is the result of the recursive call it makes, after the nodes
allocated in between. -/
theorem getBinary_cascadeStep (T : Calculus) (r r2 : Request) (m : Move)
    (h : cascadeStep T r = some (m, r2)) :
    ∃ pre, getBinary T r.op r.x r.y r.scX r.scY =
      (getBinary T r2.op r2.x r2.y r2.scX r2.scY).after pre := by
  unfold cascadeStep at h
  cases hsc : specialCase T r.op r.x r.y <;> simp only [hsc] at h
  · simp only [Option.some.injEq, Prod.mk.injEq] at h
    obtain ⟨rfl, rfl⟩ := h
    exact ⟨[], by rw [Built.after_nil]; exact getBinary_of_swap T _ _ _ _ _ hsc⟩
  · simp at h
  · simp at h
  · cases hd : r.y.dep 0 <;> simp only [hd] at h
    · simp at h
    · simp only [Option.some.injEq, Prod.mk.injEq] at h
      obtain ⟨rfl, rfl⟩ := h
      exact ⟨[], by rw [Built.after_nil]; exact getBinary_of_negAdd T _ _ _ _ _ _ hsc hd⟩
  · cases hd : r.y.dep 0 <;> simp only [hd] at h
    · simp at h
    · simp only [Option.some.injEq, Prod.mk.injEq] at h
      obtain ⟨rfl, rfl⟩ := h
      exact ⟨[], by rw [Built.after_nil]; exact getBinary_of_negSub T _ _ _ _ _ _ hsc hd⟩
  · cases hd : r.y.dep 0 <;> simp only [hd] at h
    · simp at h
    · simp only [Option.some.injEq, Prod.mk.injEq] at h
      obtain ⟨rfl, rfl⟩ := h
      exact ⟨[], by rw [Built.after_nil]; exact getBinary_of_invMul T _ _ _ _ _ _ hsc hd⟩
  · cases hd : r.y.dep 0 <;> simp only [hd] at h
    · simp at h
    · simp only [Option.some.injEq, Prod.mk.injEq] at h
      obtain ⟨rfl, rfl⟩ := h
      exact ⟨[], by rw [Built.after_nil]; exact getBinary_of_invDiv T _ _ _ _ _ _ hsc hd⟩
  · rw [getBinary_of_noRule T _ _ _ _ _ hsc]
    by_cases hx : r.scX = true
    · rw [if_pos hx] at h
      rw [if_pos hx]
      by_cases hd : r.y.dense = true ∨ T.FX0Checker r.op = true
      · rw [if_pos hd] at h
        simp at h
      · rw [if_neg hd] at h
        rw [if_neg hd]
        cases hy : densify r.y with
        | mk cr o =>
          cases o with
          | error e => exact absurd hy (densify_out_ne_error _ _ _)
          | ok yd =>
            simp only [hy, Option.some.injEq, Prod.mk.injEq] at h
            obtain ⟨rfl, rfl⟩ := h
            exact ⟨cr, by simp [Built.bind]⟩
    · rw [if_neg hx] at h
      rw [if_neg hx]
      by_cases hy : r.scY = true
      · rw [if_pos hy] at h
        rw [if_pos hy]
        by_cases hd : r.x.dense = true ∨ T.F0XChecker r.op = true
        · rw [if_pos hd] at h
          simp at h
        · rw [if_neg hd] at h
          rw [if_neg hd]
          cases hxd : densify r.x with
          | mk cr o =>
            cases o with
            | error e => exact absurd hxd (densify_out_ne_error _ _ _)
            | ok xd =>
              simp only [hxd, Option.some.injEq, Prod.mk.injEq] at h
              obtain ⟨rfl, rfl⟩ := h
              exact ⟨cr, by simp [Built.bind]⟩
      · rw [if_neg hy] at h
        simp at h

/-- A constant has no strippable head and is not a projection. -/
theorem const_head (y : MX) (h : y.getOp = .OP_CONST) :
    stripDepth y = 0 ∧ isDensified y = false := by
  cases y
  all_goals simp_all [MX.getOp, stripDepth, isDensified]

/-- Stripping a negation or reciprocal head shrinks the operand. -/
theorem strip_shrinks (y z : MX) (h : y.getOp = .OP_NEG ∨ y.getOp = .OP_INV)
    (hz : y.dep 0 = .ok z) :
    stripDepth z < stripDepth y ∧ isDensified y = false ∧ z.nodeCount < y.nodeCount := by
  cases y
  all_goals simp only [MX.getOp] at h
  all_goals simp only [MX.dep, MX.dep_] at hz
  all_goals simp_all [stripDepth, isDensified, MX.nodeCount]
  omega

/-- A projection onto a dense pattern is dense. -/
theorem dense_of_isDensified (y : MX) (h : isDensified y = true) : y.dense = true := by
  cases y
  all_goals simp_all [isDensified, MX.dense, MX.sparsity]

/-- Every recursive call of `getBinary` is made on a request of smaller measure. -/
theorem cascadeStep_measure (T : Calculus) (r r2 : Request) (m : Move)
    (h : cascadeStep T r = some (m, r2)) : r2.measure < r.measure := by
  obtain ⟨h1, h2, h3, h4⟩ := cascadeStep_spec T r r2 m h
  obtain ⟨op, x, y, scX, scY⟩ := r
  obtain ⟨op2, x2, y2, sx2, sy2⟩ := r2
  simp only at h1 h2 h3 h4
  cases m
  · obtain ⟨hy, hx, he⟩ := h1 rfl
    simp only [Request.mk.injEq] at he
    obtain ⟨_, rfl, rfl, rfl, rfl⟩ := he
    obtain ⟨e1, e2⟩ := const_head x2 hy
    simp only [Request.measure, cascadeMeasure]
    rw [e1, e2, if_pos hy, if_neg hx]
    cases sy2 <;> cases sx2 <;> cases isDensified y2 <;> simp <;> omega
  · obtain ⟨hy, hd, rfl, rfl, rfl⟩ := h2 rfl
    obtain ⟨e1, e2, _⟩ := strip_shrinks y y2 hy hd
    simp only [Request.measure, cascadeMeasure]
    rw [e2]
    generalize (if x2.getOp = Operation.OP_CONST then 0 else stripDepth x2 + 1) = c
    cases sx2 <;> cases sy2 <;> cases isDensified x2 <;> cases isDensified y2 <;>
      simp <;> omega
  · obtain ⟨hx, hnd, he⟩ := h3 rfl
    simp only [Request.mk.injEq] at he
    obtain ⟨_, rfl, rfl, rfl, rfl⟩ := he
    subst hx
    have hy2 : isDensified y = false := by
      cases hh : isDensified y
      · rfl
      · rw [dense_of_isDensified y hh] at hnd
        exact Bool.noConfusion hnd
    have e1 : isDensified (.setSparse y (sp_dense y.size1 y.size2)) = true :=
      dense_sp_dense _ _
    have e2 : stripDepth (.setSparse y (sp_dense y.size1 y.size2)) = 0 := rfl
    simp only [Request.measure, cascadeMeasure]
    rw [e1, e2, hy2]
    generalize (if x2.getOp = Operation.OP_CONST then 0 else stripDepth x2 + 1) = c
    simp
  · obtain ⟨hx, hy, hnd, he⟩ := h4 rfl
    simp only [Request.mk.injEq] at he
    obtain ⟨_, rfl, rfl, rfl, rfl⟩ := he
    subst hx hy
    have hx2 : isDensified x = false := by
      cases hh : isDensified x
      · rfl
      · rw [dense_of_isDensified x hh] at hnd
        exact Bool.noConfusion hnd
    have e1 : isDensified (.setSparse x (sp_dense x.size1 x.size2)) = true :=
      dense_sp_dense _ _
    have e2 : stripDepth (.setSparse x (sp_dense x.size1 x.size2)) = 0 := rfl
    have e3 : (MX.setSparse x (sp_dense x.size1 x.size2)).getOp ≠ .OP_CONST := by
      simp [MX.getOp]
    simp only [Request.measure, cascadeMeasure]
    rw [e1, e2, hx2, if_neg e3]
    generalize (if x.getOp = Operation.OP_CONST then 0 else stripDepth x + 1) = c
    simp
    omega

/-- A densification happens only while none has happened, and afterwards none
can happen any more. -/
theorem cascadeStep_densifyDone (T : Calculus) (r r2 : Request) (m : Move)
    (h : cascadeStep T r = some (m, r2)) :
    (m = .densifyY ∨ m = .densifyX → r.densifyDone = false ∧ r2.densifyDone = true) ∧
      (r.densifyDone = true → r2.densifyDone = true) := by
  obtain ⟨h1, h2, h3, h4⟩ := cascadeStep_spec T r r2 m h
  obtain ⟨op, x, y, scX, scY⟩ := r
  obtain ⟨op2, x2, y2, sx2, sy2⟩ := r2
  simp only at h1 h2 h3 h4
  cases m
  · obtain ⟨hy, hx, he⟩ := h1 rfl
    simp only [Request.mk.injEq] at he
    obtain ⟨_, rfl, rfl, rfl, rfl⟩ := he
    obtain ⟨_, e2⟩ := const_head x2 hy
    simp only [Request.densifyDone, e2]
    cases sy2 <;> cases sx2 <;> cases isDensified y2 <;> simp
  · obtain ⟨hy, hd, rfl, rfl, rfl⟩ := h2 rfl
    obtain ⟨_, e2, _⟩ := strip_shrinks y y2 hy hd
    simp only [Request.densifyDone, e2]
    cases sx2 <;> cases sy2 <;> cases isDensified x2 <;> cases isDensified y2 <;> simp
  · obtain ⟨hx, hnd, he⟩ := h3 rfl
    simp only [Request.mk.injEq] at he
    obtain ⟨_, rfl, rfl, rfl, rfl⟩ := he
    subst hx
    have hy2 : isDensified y = false := by
      cases hh : isDensified y
      · rfl
      · rw [dense_of_isDensified y hh] at hnd
        exact Bool.noConfusion hnd
    have e1 : isDensified (.setSparse y (sp_dense y.size1 y.size2)) = true :=
      dense_sp_dense _ _
    simp only [Request.densifyDone]
    rw [e1, hy2]
    simp
  · obtain ⟨hx, hy, hnd, he⟩ := h4 rfl
    simp only [Request.mk.injEq] at he
    obtain ⟨_, rfl, rfl, rfl, rfl⟩ := he
    subst hx hy
    have hx2 : isDensified x = false := by
      cases hh : isDensified x
      · rfl
      · rw [dense_of_isDensified x hh] at hnd
        exact Bool.noConfusion hnd
    have e1 : isDensified (.setSparse x (sp_dense x.size1 x.size2)) = true :=
      dense_sp_dense _ _
    simp only [Request.densifyDone]
    rw [e1, hx2]
    simp

/-- The cascade makes no more recursive calls than the measure of the request. -/
theorem cascadeRun_length (T : Calculus) (n : Nat) :
    ∀ r : Request, (cascadeRun T n r).length ≤ r.measure := by
  induction n with
  | zero => intro r; simp [cascadeRun]
  | succ n ih =>
    intro r
    simp only [cascadeRun]
    cases hs : cascadeStep T r with
    | none => simp
    | some p =>
      obtain ⟨m, r2⟩ := p
      have := cascadeStep_measure T r r2 m hs
      have := ih r2
      simp only [List.length_cons]
      omega

/-- Beyond the measure of the request, more fuel adds no recursive call. -/
theorem cascadeRun_stable (T : Calculus) (n : Nat) :
    ∀ (r : Request) (k : Nat), r.measure ≤ n → n ≤ k →
      cascadeRun T k r = cascadeRun T n r := by
  induction n with
  | zero =>
    intro r k hr _
    have hnone : cascadeStep T r = none := by
      cases hs : cascadeStep T r with
      | none => rfl
      | some p =>
        obtain ⟨m, r2⟩ := p
        have := cascadeStep_measure T r r2 m hs
        omega
    cases k with
    | zero => rfl
    | succ k => simp [cascadeRun, hnone]
  | succ n ih =>
    intro r k hr hk
    obtain ⟨k2, rfl⟩ : ∃ k2, k = k2 + 1 := ⟨k - 1, by omega⟩
    simp only [cascadeRun]
    cases hs : cascadeStep T r with
    | none => rfl
    | some p =>
      obtain ⟨m, r2⟩ := p
      have := cascadeStep_measure T r r2 m hs
      simp only
      rw [ih r2 k2 (by omega) (by omega)]

/-- At most one densification happens in a cascade, and none once an operand
has been densified. -/
theorem cascadeRun_densify (T : Calculus) (n : Nat) :
    ∀ r : Request,
      (cascadeRun T n r).count .densifyY + (cascadeRun T n r).count .densifyX ≤
        (if r.densifyDone = true then 0 else 1) := by
  induction n with
  | zero => intro r; simp [cascadeRun]
  | succ n ih =>
    intro r
    simp only [cascadeRun]
    cases hs : cascadeStep T r with
    | none => simp
    | some p =>
      obtain ⟨m, r2⟩ := p
      obtain ⟨d1, d2⟩ := cascadeStep_densifyDone T r r2 m hs
      have hi := ih r2
      simp only
      cases m
      · simp only [List.count_cons, beq_iff_eq, reduceCtorEq, if_false, add_zero]
        by_cases hd : r.densifyDone = true
        · rw [if_pos hd]
          rw [if_pos (d2 hd)] at hi
          exact hi
        · rw [if_neg hd]
          split at hi <;> omega
      · simp only [List.count_cons, beq_iff_eq, reduceCtorEq, if_false, add_zero]
        by_cases hd : r.densifyDone = true
        · rw [if_pos hd]
          rw [if_pos (d2 hd)] at hi
          exact hi
        · rw [if_neg hd]
          split at hi <;> omega
      · obtain ⟨e1, e2⟩ := d1 (Or.inl rfl)
        rw [if_pos e2] at hi
        simp only [List.count_cons, beq_iff_eq, reduceCtorEq, if_false, add_zero,
          if_true, e1, Bool.false_eq_true]
        omega
      · obtain ⟨e1, e2⟩ := d1 (Or.inr rfl)
        rw [if_pos e2] at hi
        simp only [List.count_cons, beq_iff_eq, reduceCtorEq, if_false, add_zero,
          if_true, e1, Bool.false_eq_true]
        omega

/-- A swap needs a non-constant first operand, and the first operand is a
constant after a swap until it is densified. -/
theorem cascadeRun_swap (T : Calculus) (n : Nat) :
    ∀ r : Request,
      (cascadeRun T n r).count .swap ≤
        (if r.x.getOp = .OP_CONST then 0 else 1) + (cascadeRun T n r).count .densifyX := by
  induction n with
  | zero => intro r; simp [cascadeRun]
  | succ n ih =>
    intro r
    simp only [cascadeRun]
    cases hs : cascadeStep T r with
    | none => simp
    | some p =>
      obtain ⟨m, r2⟩ := p
      obtain ⟨h1, h2, h3, h4⟩ := cascadeStep_spec T r r2 m hs
      have hi := ih r2
      simp only
      cases m
      · obtain ⟨hy, hx, he⟩ := h1 rfl
        subst he
        simp only at hi
        rw [if_pos hy] at hi
        rw [if_neg hx]
        simp only [List.count_cons, beq_iff_eq, reduceCtorEq, if_false, add_zero,
          if_true]
        omega
      · obtain ⟨_, _, hx, _, _⟩ := h2 rfl
        rw [hx] at hi
        simp only [List.count_cons, beq_iff_eq, reduceCtorEq, if_false, add_zero]
        exact hi
      · obtain ⟨_, _, he⟩ := h3 rfl
        subst he
        simp only at hi
        simp only [List.count_cons, beq_iff_eq, reduceCtorEq, if_false, add_zero]
        exact hi
      · simp only [List.count_cons, beq_iff_eq, reduceCtorEq, if_false, add_zero,
          if_true]
        split at hi <;> split <;> omega

/-- C19, counterexample: for the scalar `-(-5)` added to a constant matrix that
is not dense, the cascade of `getBinary` swaps the operands, strips the two
negations, densifies the first operand and then swaps the operands a second
time. -/
theorem getBinary_cascade_counterexample :
    cascadeRun arithCalculus 5 exDoubleSwap =
        [.swap, .strip, .strip, .densifyX, .swap] ∧
      ¬ (cascadeRun arithCalculus 5 exDoubleSwap).count .swap ≤ 1 := by
  decide

/-- C19 (amended): termination of the construction cascade.  For every
operation, every pair of expressions and every setting of the scalar flags the
recursive calls of `getBinary` end: each call is made on a request of smaller
measure, so that no call is made beyond the measure of the first request.  The
swap fires at most twice, a second time only after the first operand has been
densified; each negation/reciprocal rewrite strictly shrinks the second operand
and keeps the first operand and the flags; and at most one densification
happens, so that a densified operand is never densified again. -/
theorem getBinary_cascade_terminates (T : Calculus) (r : Request) (n : Nat) :
    (∀ k, r.measure ≤ k → cascadeRun T k r = cascadeRun T r.measure r) ∧
      (cascadeRun T n r).length ≤ r.measure ∧
      (cascadeRun T n r).count .swap ≤ 1 + (cascadeRun T n r).count .densifyX ∧
      (cascadeRun T n r).count .swap ≤ 2 ∧
      (cascadeRun T n r).count .densifyY + (cascadeRun T n r).count .densifyX ≤ 1 ∧
      (∀ m r2, cascadeStep T r = some (m, r2) →
        (∃ pre, getBinary T r.op r.x r.y r.scX r.scY =
          (getBinary T r2.op r2.x r2.y r2.scX r2.scY).after pre) ∧
        r2.measure < r.measure ∧
        (m = .strip → r2.y.nodeCount < r.y.nodeCount ∧ r2.x = r.x ∧
          r2.scX = r.scX ∧ r2.scY = r.scY)) := by
  have hd := cascadeRun_densify T n r
  have hs := cascadeRun_swap T n r
  have hd1 : (cascadeRun T n r).count .densifyY + (cascadeRun T n r).count .densifyX ≤ 1 := by
    split at hd <;> omega
  refine ⟨fun k hk => cascadeRun_stable T r.measure r k (le_refl _) hk,
    cascadeRun_length T n r, ?_, ?_, hd1, ?_⟩
  · split at hs <;> omega
  · split at hs <;> omega
  · intro m r2 h
    refine ⟨getBinary_cascadeStep T r r2 m h, cascadeStep_measure T r r2 m h, ?_⟩
    intro hm
    obtain ⟨hy, hz, hx, h1, h2⟩ := (cascadeStep_spec T r r2 m h).2.1 hm
    exact ⟨(strip_shrinks r.y r2.y hy hz).2.2, hx, h1, h2⟩

/-! ## Destruction of a deep chain -/

/-- One iteration of the deletion loop on the way down the chain: the single
dependency of the top element is moved to the stack. -/
theorem processStack_down (nested : Heap → Nat → Option Heap) (n k fuel : Nat)
    (rest : List Nat) (hk : 1 ≤ k) (hn : k + 1 < n) :
    processStack nested (fuel + 1) (chainState n k n) (k :: rest) =
      processStack nested fuel (chainState n (k + 1) n) ((k + 1) :: k :: rest) := by
  have hk0 : k ≠ 0 := by omega
  have hkn : k < n := by omega
  have e1 : ((chainState n k n).incr k).ndep k = 1 := by
    simp [Heap.ndep, Heap.incr, chainState, hk0, hn, hkn]
  have e2 : ((chainState n k n).incr k).slot k 0 = some (k + 1) := by
    simp [Heap.slot, Heap.incr, chainState, hk0, hn, hkn]
  have e3 : ((chainState n k n).incr k).getCount (k + 1) = 1 := by
    simp [Heap.getCount, Heap.incr, chainState, hn]
  have e4 : (((((chainState n k n).incr k).incr (k + 1)).setNull k 0).decr
      (k + 1)).getCount k = 2 := by
    simp [Heap.getCount, Heap.incr, Heap.decr, Heap.setNull, chainState, hk0, hn, hkn]
  have e5 : ((((((chainState n k n).incr k).incr (k + 1)).setNull k 0).decr
      (k + 1)).decr k) = chainState n (k + 1) n := by
    funext a
    simp only [Heap.incr, Heap.decr, Heap.setNull, chainState]
    by_cases ha0 : a = 0
    · subst ha0
      simp [hk0.symm]
    · by_cases hak : a = k
      · subst hak
        simp [ha0, hn, hkn]
      · by_cases hak1 : a = k + 1
        · subst hak1
          simp [hn]
        · simp only [ha0, hak, hak1, if_false]
          by_cases h1 : a < k
          · have h2 : a < k + 1 := by omega
            simp [h1, h2]
          · have h2 : ¬ a < k + 1 := by omega
            simp [h1, h2]
  simp only [processStack, e1, List.range_succ, List.range_zero, List.nil_append,
    scanDeps, e2, e3, if_true, release, e4, e5]
  simp

/-- The destructor of a node without slots, or whose only slot is null, changes
nothing. -/
theorem dtor_trivial (d fu : Nat) (h : Heap) (a : Nat)
    (hs : h.ndep a = 0 ∨ (h.ndep a = 1 ∧ h.slot a 0 = none)) :
    dtor (d + 1) fu h a = some h := by
  rcases hs with hs | ⟨hs, h0⟩
  · simp [dtor, hs, destroyDeps]
  · simp [dtor, hs, List.range_succ, destroyDeps, h0]

/-- One iteration of the deletion loop on a top element that has one owner and
nothing left to release: it is popped and destroyed, its nested destructor
finds nothing to do, and its memory is given back. -/
theorem processStack_pop (d fu fuel : Nat) (h : Heap) (t : Nat) (rest : List Nat)
    (ds : List (Option Nat)) (ht : h t = some ⟨1, ds⟩) (hds : ds = [] ∨ ds = [none]) :
    processStack (dtor (d + 1) fu) (fuel + 1) h (t :: rest) =
      processStack (dtor (d + 1) fu) fuel (h.free t) rest := by
  have e1 : (h.incr t) t = some ⟨2, ds⟩ := by simp [Heap.incr, ht]
  have e2 : scanDeps t (List.range ((h.incr t).ndep t)) (h.incr t) = (h.incr t, none) := by
    rcases hds with hds | hds
    · simp [Heap.ndep, e1, hds, scanDeps]
    · simp [Heap.ndep, e1, hds, List.range_succ, scanDeps, Heap.slot]
  have e3 : (h.incr t).getCount t = 2 := by simp [Heap.getCount, e1]
  have e4 : (h.incr t).decr t = h := by
    funext a
    by_cases ha : a = t
    · subst ha
      simp [Heap.incr, Heap.decr, ht]
    · simp [Heap.incr, Heap.decr, ha]
  have e5 : h.getCount t = 1 := by simp [Heap.getCount, ht]
  have e6 : (h.decr t) t = some ⟨0, ds⟩ := by simp [Heap.decr, ht]
  have e7 : dtor (d + 1) fu (h.decr t) t = some (h.decr t) := by
    apply dtor_trivial
    rcases hds with hds | hds
    · left
      simp [Heap.ndep, e6, hds]
    · right
      simp [Heap.ndep, Heap.slot, e6, hds]
  have e8 : (h.decr t).free t = h.free t := by
    funext a
    by_cases ha : a = t
    · simp [Heap.free, ha]
    · simp [Heap.free, Heap.decr, ha]
  have r1 : release (dtor (d + 1) fu) (h.incr t) t = some h := by
    unfold release
    rw [e3, if_neg (by decide), e4]
  have r2 : release (dtor (d + 1) fu) h t = some (h.free t) := by
    unfold release
    rw [e5, if_pos rfl, e7]
    simp [e8]
  simp only [processStack, e2, r1, r2]

/-- Releasing the topmost live node of the chain. -/
theorem chainState_free (n k : Nat) (hk : 1 ≤ k) :
    (chainState n (k + 1) (k + 1)).free k = chainState n k k ∧
      (chainState n k (k + 1)).free k = chainState n k k := by
  constructor
  · funext a
    simp only [Heap.free, chainState]
    by_cases ha : a = k
    · subst ha
      have : a ≠ 0 := by omega
      simp [this]
    · by_cases ha0 : a = 0
      · subst ha0
        have : 0 ≠ k := by omega
        simp [this]
      · by_cases h1 : a < k
        · have h2 : a < k + 1 := by omega
          simp [ha, ha0, h1, h2]
        · have h2 : ¬ a < k + 1 := by omega
          simp [ha, ha0, h1, h2]
  · funext a
    simp only [Heap.free, chainState]
    by_cases ha : a = k
    · subst ha
      have : a ≠ 0 := by omega
      simp [this]
    · by_cases ha0 : a = 0
      · subst ha0
        have : 0 ≠ k := by omega
        simp [this]
      · by_cases h1 : a < k
        · simp [ha, ha0, h1]
        · have h2 : ¬ a < k + 1 := by omega
          simp [ha, ha0, h1, h2]

/-- The way up: the nodes on the stack are popped and released one after the
other until only the head of the chain is left. -/
theorem processStack_up_all (d fu n : Nat) :
    ∀ (k fuel : Nat), k ≤ fuel →
      processStack (dtor (d + 1) fu) fuel (chainState n (k + 1) (k + 1)) (descending k) =
        some (chainState n 1 1) := by
  intro k
  induction k with
  | zero =>
    intro fuel _
    cases fuel <;> simp [descending, processStack]
  | succ k ih =>
    intro fuel hf
    obtain ⟨fuel2, rfl⟩ : ∃ f2, fuel = f2 + 1 := ⟨fuel - 1, by omega⟩
    have ht : (chainState n (k + 1 + 1) (k + 1 + 1)) (k + 1) = some ⟨1, [none]⟩ := by
      simp [chainState]
    simp only [descending]
    rw [processStack_pop d fu fuel2 _ (k + 1) _ [none] ht (Or.inr rfl),
      (chainState_free n (k + 1) (by omega)).1]
    exact ih fuel2 (by omega)

/-- The way down and up again: from the state in which the nodes below `k` are
on the stack, the deletion loop releases every node but the head. -/
theorem processStack_down_all (d fu n : Nat) :
    ∀ (j k fuel : Nat), 1 ≤ k → k + j + 1 = n → j + n ≤ fuel →
      processStack (dtor (d + 1) fu) fuel (chainState n k n) (descending k) =
        some (chainState n 1 1) := by
  intro j
  induction j with
  | zero =>
    intro k fuel hk hn hf
    obtain ⟨fuel2, rfl⟩ : ∃ f2, fuel = f2 + 1 := ⟨fuel - 1, by omega⟩
    obtain ⟨k2, rfl⟩ : ∃ k2, k = k2 + 1 := ⟨k - 1, by omega⟩
    have hn2 : n = k2 + 1 + 1 := by omega
    subst hn2
    have ht : (chainState (k2 + 1 + 1) (k2 + 1) (k2 + 1 + 1)) (k2 + 1) = some ⟨1, []⟩ := by
      simp [chainState]
    simp only [descending]
    rw [processStack_pop d fu fuel2 _ (k2 + 1) _ [] ht (Or.inl rfl),
      (chainState_free (k2 + 1 + 1) (k2 + 1) (by omega)).2]
    exact processStack_up_all d fu (k2 + 1 + 1) k2 fuel2 (by omega)
  | succ j ih =>
    intro k fuel hk hn hf
    obtain ⟨fuel2, rfl⟩ : ∃ f2, fuel = f2 + 1 := ⟨fuel - 1, by omega⟩
    obtain ⟨k2, rfl⟩ : ∃ k2, k = k2 + 1 := ⟨k - 1, by omega⟩
    simp only [descending]
    rw [processStack_down (dtor (d + 1) fu) n (k2 + 1) fuel2 _ hk (by omega)]
    exact ih (k2 + 1 + 1) fuel2 (by omega) (by omega) (by omega)

/-- C12: deep-chain destruction.  For every `n >= 1`, dropping the sole owning
handle of the head of a chain of `n` nodes, each owned only by its parent,
runs the destructor to completion and releases every node of the chain: all
`n` nodes are live before, none is live afterwards.  A call stack that holds
two nested destructor calls suffices whatever the length of the chain, and
each deletion loop ends within `2 n` iterations. -/
theorem chain_destruction (n depth fuel : Nat) (hn : 1 ≤ n) (hd : 2 ≤ depth)
    (hf : 2 * n ≤ fuel) :
    liveCount (chainHeap n) n = n ∧
      ∃ h, release (dtor depth fuel) (chainHeap n) 0 = some h ∧
        (∀ a, h a = none) ∧ liveCount h n = 0 := by
  constructor
  · unfold liveCount
    rw [List.filter_eq_self.mpr]
    · simp
    · intro a ha
      simp [chainHeap, List.mem_range.mp ha]
  · obtain ⟨d, rfl⟩ : ∃ d, depth = d + 1 + 1 := ⟨depth - 2, by omega⟩
    have hlive : ∀ h : Heap, (∀ a, h a = none) → liveCount h n = 0 := by
      intro h hh
      unfold liveCount
      rw [List.filter_eq_nil_iff.mpr]
      · rfl
      · intro a _
        simp [hh a]
    have h0n : 0 < n := by omega
    have c0 : (chainHeap n).getCount 0 = 1 := by
      simp [Heap.getCount, chainHeap, h0n]
    unfold release
    rw [if_pos c0]
    by_cases h1 : n = 1
    · subst h1
      have e : dtor (d + 1 + 1) fuel ((chainHeap 1).decr 0) 0 = some ((chainHeap 1).decr 0) := by
        apply dtor_trivial
        left
        simp [Heap.ndep, Heap.decr, chainHeap]
      rw [e]
      have hall : ∀ a, (((chainHeap 1).decr 0).free 0) a = none := by
        intro a
        by_cases ha : a = 0
        · simp [Heap.free, ha]
        · simp [Heap.free, Heap.decr, chainHeap, ha]
      exact ⟨_, rfl, hall, hlive _ hall⟩
    · have hn2 : 1 < n := by omega
      have e1 : ((chainHeap n).decr 0).ndep 0 = 1 := by
        simp [Heap.ndep, Heap.decr, chainHeap, hn2, h0n]
      have e2 : ((chainHeap n).decr 0).slot 0 0 = some 1 := by
        simp [Heap.slot, Heap.decr, chainHeap, hn2, h0n]
      have e3 : ((chainHeap n).decr 0).getCount 1 = 1 := by
        simp [Heap.getCount, Heap.decr, chainHeap, hn2]
      have e4 : (((((chainHeap n).decr 0).incr 1).setNull 0 0).decr 1) =
          chainState n 1 n := by
        funext a
        simp only [Heap.incr, Heap.decr, Heap.setNull, chainHeap, chainState]
        by_cases ha0 : a = 0
        · subst ha0
          have : 0 < n := by omega
          simp [this, hn2]
        · by_cases ha1 : a = 1
          · subst ha1
            simp [hn2]
          · have : ¬ a < 1 := by omega
            simp [ha0, ha1, this]
      have e5 : processStack (dtor (d + 1) fuel) fuel (chainState n 1 n) [1] =
          some (chainState n 1 1) :=
        processStack_down_all d fuel n (n - 2) 1 fuel (le_refl _) (by omega) (by omega)
      have e6 : dtor (d + 1 + 1) fuel ((chainHeap n).decr 0) 0 = some (chainState n 1 1) := by
        show destroyDeps (dtor (d + 1) fuel) fuel 0
          (List.range (((chainHeap n).decr 0).ndep 0)) ((chainHeap n).decr 0) = _
        rw [e1]
        simp only [List.range_succ, List.range_zero, List.nil_append, destroyDeps, e2, e3,
          ne_eq, not_true_eq_false, if_false, e4, e5]
      rw [e6]
      have hall : ∀ a, ((chainState n 1 1).free 0) a = none := by
        intro a
        by_cases ha : a = 0
        · simp [Heap.free, ha]
        · have : ¬ a < 1 := by omega
          simp [Heap.free, chainState, ha, this]
      exact ⟨_, rfl, hall, hlive _ hall⟩

/-- Witness of C12: the chain of three nodes is destroyed with two nested
destructor calls and six loop iterations at hand. -/
theorem chain_destruction_witness :
    liveCount (chainHeap 3) 3 = 3 ∧
      (release (dtor 2 6) (chainHeap 3) 0).isSome = true :=
  match chain_destruction 3 2 6 (by decide) (by decide) (by decide) with
  | ⟨h1, _, h2, _⟩ => ⟨h1, by rw [h2]; rfl⟩

/-! ## Unary zero propagation -/

/-- C26: unary zero propagation.  `getUnary(op)` on the node `x` returns the
all-structural-zero matrix of the shape of `x` (no stored nonzero) and
allocates nothing if and only if the operation maps zero to zero (`F0XChecker`)
and `x` is identically zero; in every other case it allocates exactly one node,
the unary node with operation `op` whose single dependency is `x`, and returns
it. -/
theorem getUnary_zero_propagation (T : Calculus) (op : Operation) (x : MX) :
    ((getUnary T op x).out = .ok (MX.sparse x.size1 x.size2) ↔
        (T.F0XChecker op = true ∧ x.isZero = true)) ∧
      ((getUnary T op x).created = [] ↔
        (T.F0XChecker op = true ∧ x.isZero = true)) ∧
      (¬ (T.F0XChecker op = true ∧ x.isZero = true) →
        getUnary T op x = ⟨[.unary op x], .ok (.unary op x)⟩) ∧
      (MX.sparse x.size1 x.size2).sparsity.shape = (x.size1, x.size2) ∧
      (MX.sparse x.size1 x.size2).sparsity.nz = [] ∧
      (MX.unary op x).getOp = op ∧ (MX.unary op x).dep_ = [x] := by
  have hpos : (T.F0XChecker op = true ∧ x.isZero = true) →
      getUnary T op x = ⟨[], .ok (MX.sparse x.size1 x.size2)⟩ := by
    intro h
    unfold getUnary
    simp [h.1, h.2, Built.ret]
  have hneg : ¬ (T.F0XChecker op = true ∧ x.isZero = true) →
      getUnary T op x = ⟨[.unary op x], .ok (.unary op x)⟩ := by
    intro h
    unfold getUnary
    have h2 : ¬ ((T.F0XChecker op && x.isZero) = true) := by
      simpa using h
    rw [if_neg h2]
    rfl
  refine ⟨⟨?_, fun h => by rw [hpos h]⟩, ⟨?_, fun h => by rw [hpos h]⟩, hneg, rfl, rfl,
    rfl, rfl⟩
  · intro h
    by_contra hc
    rw [hneg hc] at h
    simp [MX.sparse] at h
  · intro h
    by_contra hc
    rw [hneg hc] at h
    simp at h

/-! ## Scalar broadcasting in `getBinary` -/

/-- A well-formed dense pattern stores every position of its shape. -/
theorem dense_covers (s : CRSSparsity) (hw : s.wellFormed) (hd : s.dense = true) :
    ∀ p ∈ allPositions s.size1 s.size2, p ∈ s.nz := by
  obtain ⟨hnd, hin⟩ := hw
  have hsub : s.nz ⊆ allPositions s.size1 s.size2 := by
    intro p hp
    obtain ⟨h1, h2⟩ := hin p hp
    obtain ⟨a, b⟩ := p
    exact List.pair_mem_product.mpr ⟨List.mem_range.mpr h1, List.mem_range.mpr h2⟩
  have hlen : (allPositions s.size1 s.size2).length = s.nz.length := by
    simp only [CRSSparsity.dense, CRSSparsity.size, CRSSparsity.numel, beq_iff_eq] at hd
    rw [hd]
    exact (List.length_product _ _).trans (by simp)
  have hperm : s.nz.Perm (allPositions s.size1 s.size2) :=
    (List.subperm_of_subset hnd hsub).perm_of_length_le (le_of_eq hlen)
  intro p hp
  exact hperm.mem_iff.mpr hp

/-- The switch of `getBinary` looks at its first operand only to tell a
constant from a non-constant. -/
theorem specialCase_first_operand (T : Calculus) (op : Operation) (x x2 y : MX)
    (hx : x2.getOp ≠ .OP_CONST)
    (hn : specialCase T op x y = .noRule) :
    specialCase T op x2 y =
      if y.getOp = .OP_CONST ∧ T.CommChecker op = true then .swap else .noRule := by
  by_cases hy : y.getOp = .OP_CONST
  · rw [specialCase_const T op x y hy] at hn
    rw [specialCase_const T op x2 y hy]
    by_cases hc : T.CommChecker op = true
    · rw [if_pos ⟨hx, hc⟩, if_pos ⟨hy, hc⟩]
    · have h1 : ¬ (x.getOp ≠ .OP_CONST ∧ T.CommChecker op = true) := fun h => hc h.2
      have h2 : ¬ (x2.getOp ≠ .OP_CONST ∧ T.CommChecker op = true) := fun h => hc h.2
      have h3 : ¬ (y.getOp = .OP_CONST ∧ T.CommChecker op = true) := fun h => hc h.2
      rw [if_neg h1] at hn
      rw [if_neg h2, if_neg h3]
      exact hn
  · have h3 : ¬ (y.getOp = .OP_CONST ∧ T.CommChecker op = true) := fun h => hy h.1
    rw [if_neg h3]
    cases hg : y.getOp <;> simp only [specialCase, hg] at hn ⊢ <;>
      first
      | exact hn
      | exact absurd hg hy

/-- Scalar broadcasting in the tail of `getBinary`, which is reached when the
switch over the second operand is left without a rewrite.  With the first
operand flagged scalar the binary node over the nonzeros of `y` is built directly if and only if `y` is
dense or the operation maps a zero second operand to zero (`FX0Checker`);
otherwise the dense projection of `y` is allocated first and the node is built
over it.  With only the second operand flagged scalar the node over the
nonzeros of `x` is built directly if and only if `x` is dense or the operation
maps a zero first operand to zero (`F0XChecker`); otherwise the dense projection
of `x` is allocated first and the node is built over it (with the operands
exchanged when `y` is a constant and the operation commutes).  In each case the
matrix operand of the node has the shape of the given matrix operand and, the
given pattern being well formed, stores every position of that shape unless the
operation maps a structural zero there to zero. -/
theorem getBinary_noRule_broadcast (T : Calculus) (op : Operation) (x y : MX)
    (scY : Bool) (hn : specialCase T op x y = .noRule) :
    ((getBinary T op x y true scY = Built.create (.binary true false op x y) ↔
          (y.dense = true ∨ T.FX0Checker op = true)) ∧
        (¬ (y.dense = true ∨ T.FX0Checker op = true) →
          getBinary T op x y true scY =
            ⟨[.setSparse y (sp_dense y.size1 y.size2),
                .binary true false op x (.setSparse y (sp_dense y.size1 y.size2))],
              .ok (.binary true false op x (.setSparse y (sp_dense y.size1 y.size2)))⟩) ∧
        ∃ yy, (getBinary T op x y true scY).out = .ok (.binary true false op x yy) ∧
          yy.sparsity.shape = y.sparsity.shape ∧
          (y.sparsity.wellFormed → ∀ p ∈ allPositions y.size1 y.size2,
            p ∈ yy.sparsity.nz ∨ T.FX0Checker op = true)) ∧
      ((getBinary T op x y false true = Built.create (.binary false true op x y) ↔
          (x.dense = true ∨ T.F0XChecker op = true)) ∧
        (¬ (x.dense = true ∨ T.F0XChecker op = true) →
          getBinary T op x y false true =
            ⟨[.setSparse x (sp_dense x.size1 x.size2),
                if y.getOp = .OP_CONST ∧ T.CommChecker op = true then
                  .binary true false op y (.setSparse x (sp_dense x.size1 x.size2))
                else .binary false true op (.setSparse x (sp_dense x.size1 x.size2)) y],
              .ok (if y.getOp = .OP_CONST ∧ T.CommChecker op = true then
                  .binary true false op y (.setSparse x (sp_dense x.size1 x.size2))
                else .binary false true op (.setSparse x (sp_dense x.size1 x.size2)) y)⟩) ∧
        ∃ xx, ((getBinary T op x y false true).out = .ok (.binary false true op xx y) ∨
            ((getBinary T op x y false true).out = .ok (.binary true false op y xx) ∧
              xx.dense = true)) ∧
          xx.sparsity.shape = x.sparsity.shape ∧
          (x.sparsity.wellFormed → ∀ p ∈ allPositions x.size1 x.size2,
            p ∈ xx.sparsity.nz ∨ T.F0XChecker op = true)) := by
  -- the two one-step unfoldings
  have hX1 : (y.dense = true ∨ T.FX0Checker op = true) →
      getBinary T op x y true scY = Built.create (.binary true false op x y) := by
    intro h
    rw [getBinary_of_noRule T op x y true scY hn]
    simp only [if_true]
    rw [if_pos h]
  have hX2 : ¬ (y.dense = true ∨ T.FX0Checker op = true) →
      getBinary T op x y true scY =
        ⟨[.setSparse y (sp_dense y.size1 y.size2),
            .binary true false op x (.setSparse y (sp_dense y.size1 y.size2))],
          .ok (.binary true false op x (.setSparse y (sp_dense y.size1 y.size2)))⟩ := by
    intro h
    have hnd : ¬ y.dense = true := fun hd => h (Or.inl hd)
    have hs : specialCase T op x (.setSparse y (sp_dense y.size1 y.size2)) = .noRule :=
      specialCase_default T op x _ (by simp [MX.getOp]) (by simp [MX.getOp])
        (by simp [MX.getOp])
    have hdd : (MX.setSparse y (sp_dense y.size1 y.size2)).dense = true :=
      dense_sp_dense _ _
    rw [getBinary_of_noRule T op x y true scY hn]
    simp only [if_true]
    rw [if_neg h]
    unfold densify
    rw [if_neg hnd]
    simp only [getSetSparse, Built.create, Built.bind]
    rw [getBinary_of_noRule T op x _ true false hs]
    simp only [if_true]
    rw [if_pos (Or.inl hdd)]
    rfl
  have hY1 : (x.dense = true ∨ T.F0XChecker op = true) →
      getBinary T op x y false true = Built.create (.binary false true op x y) := by
    intro h
    rw [getBinary_of_noRule T op x y false true hn]
    simp only [Bool.false_eq_true, if_false, if_true]
    rw [if_pos h]
  have hY2 : ¬ (x.dense = true ∨ T.F0XChecker op = true) →
      getBinary T op x y false true =
        ⟨[.setSparse x (sp_dense x.size1 x.size2),
            if y.getOp = .OP_CONST ∧ T.CommChecker op = true then
              .binary true false op y (.setSparse x (sp_dense x.size1 x.size2))
            else .binary false true op (.setSparse x (sp_dense x.size1 x.size2)) y],
          .ok (if y.getOp = .OP_CONST ∧ T.CommChecker op = true then
              .binary true false op y (.setSparse x (sp_dense x.size1 x.size2))
            else .binary false true op (.setSparse x (sp_dense x.size1 x.size2)) y)⟩ := by
    intro h
    have hnd : ¬ x.dense = true := fun hd => h (Or.inl hd)
    have hdd : (MX.setSparse x (sp_dense x.size1 x.size2)).dense = true :=
      dense_sp_dense _ _
    have hs := specialCase_first_operand T op x (.setSparse x (sp_dense x.size1 x.size2)) y
      (by simp [MX.getOp]) hn
    rw [getBinary_of_noRule T op x y false true hn]
    simp only [Bool.false_eq_true, if_false, if_true]
    rw [if_neg h]
    unfold densify
    rw [if_neg hnd]
    simp only [getSetSparse, Built.create, Built.bind]
    by_cases hc : y.getOp = .OP_CONST ∧ T.CommChecker op = true
    · rw [if_pos hc] at hs
      rw [if_pos hc]
      have hs2 : specialCase T op y (.setSparse x (sp_dense x.size1 x.size2)) = .noRule :=
        specialCase_default T op y _ (by simp [MX.getOp]) (by simp [MX.getOp])
          (by simp [MX.getOp])
      rw [getBinary_of_swap T op _ y false true hs,
        getBinary_of_noRule T op y _ true false hs2]
      simp only [if_true]
      rw [if_pos (Or.inl hdd)]
      rfl
    · rw [if_neg hc] at hs
      rw [if_neg hc]
      rw [getBinary_of_noRule T op _ y false true hs]
      simp only [Bool.false_eq_true, if_false, if_true]
      rw [if_pos (Or.inl hdd)]
      rfl
  have hshape : ∀ z : MX, (MX.setSparse z (sp_dense z.size1 z.size2)).sparsity.shape =
      z.sparsity.shape := fun z => rfl
  have hall : ∀ (z : MX) (p : Nat × Nat), p ∈ allPositions z.size1 z.size2 →
      p ∈ (MX.setSparse z (sp_dense z.size1 z.size2)).sparsity.nz := fun z p hp => hp
  refine ⟨⟨⟨?_, hX1⟩, hX2, ?_⟩, ⟨⟨?_, hY1⟩, hY2, ?_⟩⟩
  · intro h
    by_contra hc
    rw [hX2 hc] at h
    simp [Built.create] at h
  · by_cases hc : y.dense = true ∨ T.FX0Checker op = true
    · refine ⟨y, by rw [hX1 hc]; rfl, rfl, ?_⟩
      intro hw p hp
      rcases hc with hc | hc
      · exact Or.inl (dense_covers _ hw hc p hp)
      · exact Or.inr hc
    · exact ⟨_, by rw [hX2 hc], hshape y, fun _ p hp => Or.inl (hall y p hp)⟩
  · intro h
    by_contra hc
    rw [hY2 hc] at h
    simp [Built.create] at h
  · by_cases hc : x.dense = true ∨ T.F0XChecker op = true
    · refine ⟨x, Or.inl (by rw [hY1 hc]; rfl), rfl, ?_⟩
      intro hw p hp
      rcases hc with hc | hc
      · exact Or.inl (dense_covers _ hw hc p hp)
      · exact Or.inr hc
    · refine ⟨_, ?_, hshape x, fun _ p hp => Or.inl (hall x p hp)⟩
      rw [hY2 hc]
      by_cases hs : y.getOp = .OP_CONST ∧ T.CommChecker op = true
      · rw [if_pos hs]
        exact Or.inr ⟨rfl, dense_sp_dense _ _⟩
      · rw [if_neg hs]
        exact Or.inl rfl

/-- C21 (amended): scalar broadcasting in `getBinary`.  If the switch over
`y->getOp()` is left without a rewrite, then with the first operand flagged
scalar the binary node over the nonzeros of `y` is built directly if and only
if `y` is dense or the operation maps a zero second operand to zero
(`FX0Checker`), otherwise the dense projection of `y` is allocated first and the
node is built over it; and with only the second operand flagged scalar the node
over the nonzeros of `x` is built directly if and only if `x` is dense or the
operation maps a zero first operand to zero (`F0XChecker`), otherwise the dense
projection of `x` is allocated first and the node is built over it (with the
operands exchanged when `y` is a constant and the operation commutes); in each
case the matrix operand of the node has the shape of the given matrix operand
and, the given pattern being well formed, stores every position of that shape
unless the operation maps a structural zero there to zero.  Whether or not a
rewrite fires, every binary node that the call allocates with its first
operand flagged scalar has a second operand that is dense or an operation with
`FX0Checker`, and every one with only its second operand flagged scalar has a
first operand that is dense or an operation with `F0XChecker`: the test is made
for the operation and the operands that are left when the rewrites are done. -/
theorem getBinary_scalar_broadcast (T : Calculus) (op : Operation) (x y : MX)
    (scY : Bool) :
    (specialCase T op x y = .noRule →
      ((getBinary T op x y true scY = Built.create (.binary true false op x y) ↔
            (y.dense = true ∨ T.FX0Checker op = true)) ∧
          (¬ (y.dense = true ∨ T.FX0Checker op = true) →
            getBinary T op x y true scY =
              ⟨[.setSparse y (sp_dense y.size1 y.size2),
                  .binary true false op x (.setSparse y (sp_dense y.size1 y.size2))],
                .ok (.binary true false op x (.setSparse y (sp_dense y.size1 y.size2)))⟩) ∧
          ∃ yy, (getBinary T op x y true scY).out = .ok (.binary true false op x yy) ∧
            yy.sparsity.shape = y.sparsity.shape ∧
            (y.sparsity.wellFormed → ∀ p ∈ allPositions y.size1 y.size2,
              p ∈ yy.sparsity.nz ∨ T.FX0Checker op = true)) ∧
        ((getBinary T op x y false true = Built.create (.binary false true op x y) ↔
            (x.dense = true ∨ T.F0XChecker op = true)) ∧
          (¬ (x.dense = true ∨ T.F0XChecker op = true) →
            getBinary T op x y false true =
              ⟨[.setSparse x (sp_dense x.size1 x.size2),
                  if y.getOp = .OP_CONST ∧ T.CommChecker op = true then
                    .binary true false op y (.setSparse x (sp_dense x.size1 x.size2))
                  else .binary false true op (.setSparse x (sp_dense x.size1 x.size2)) y],
                .ok (if y.getOp = .OP_CONST ∧ T.CommChecker op = true then
                    .binary true false op y (.setSparse x (sp_dense x.size1 x.size2))
                  else
                    .binary false true op (.setSparse x (sp_dense x.size1 x.size2)) y)⟩) ∧
          ∃ xx, ((getBinary T op x y false true).out = .ok (.binary false true op xx y) ∨
              ((getBinary T op x y false true).out = .ok (.binary true false op y xx) ∧
                xx.dense = true)) ∧
            xx.sparsity.shape = x.sparsity.shape ∧
            (x.sparsity.wellFormed → ∀ p ∈ allPositions x.size1 x.size2,
              p ∈ xx.sparsity.nz ∨ T.F0XChecker op = true))) ∧
      (∀ scX : Bool, ∀ n ∈ (getBinary T op x y scX scY).created,
        ∀ (sx sy : Bool) (op2 : Operation) (a b : MX), n = .binary sx sy op2 a b →
          specialCase T op2 a b = .noRule ∧
            (sx = true → sy = false ∧ (b.dense = true ∨ T.FX0Checker op2 = true) ∧
              (b.sparsity.wellFormed → ∀ p ∈ allPositions b.size1 b.size2,
                p ∈ b.sparsity.nz ∨ T.FX0Checker op2 = true)) ∧
            (sx = false → sy = true → (a.dense = true ∨ T.F0XChecker op2 = true) ∧
              (a.sparsity.wellFormed → ∀ p ∈ allPositions a.size1 a.size2,
                p ∈ a.sparsity.nz ∨ T.F0XChecker op2 = true))) := by
  refine ⟨fun hn => getBinary_noRule_broadcast T op x y scY hn, ?_⟩
  intro scX n hn sx sy op2 a b he
  obtain ⟨h1, h2⟩ := getBinary_created_binary T op x y scX scY n hn sx sy op2 a b he
  refine ⟨h1, ?_, ?_⟩
  · intro hsx
    rcases h2 with ⟨_, h3, h4⟩ | ⟨h3, _⟩ | ⟨h3, _⟩
    · refine ⟨h3, h4, ?_⟩
      intro hw p hp
      rcases h4 with h4 | h4
      · exact Or.inl (dense_covers _ hw h4 p hp)
      · exact Or.inr h4
    · rw [hsx] at h3
      exact absurd h3 (by decide)
    · rw [hsx] at h3
      exact absurd h3 (by decide)
  · intro hsx hsy
    rcases h2 with ⟨h3, _⟩ | ⟨_, _, h4⟩ | ⟨_, h3⟩
    · rw [hsx] at h3
      exact absurd h3 (by decide)
    · refine ⟨h4, ?_⟩
      intro hw p hp
      rcases h4 with h4 | h4
      · exact Or.inl (dense_covers _ hw h4 p hp)
      · exact Or.inr h4
    · rw [hsy] at h3
      exact absurd h3 (by decide)

/-- Witness of C21: the sum of the scalar `x0` and the sparse matrix `B` needs
the value of the sum at the structural zeros of `B`, so `B` is densified first;
the product is built over the nonzeros of `B` directly. -/
theorem getBinary_scalar_broadcast_witness :
    getBinary arithCalculus .OP_ADD exSym exSparseMat true false =
        ⟨[.setSparse exSparseMat (sp_dense 2 2),
            .binary true false .OP_ADD exSym (.setSparse exSparseMat (sp_dense 2 2))],
          .ok (.binary true false .OP_ADD exSym (.setSparse exSparseMat (sp_dense 2 2)))⟩ ∧
      getBinary arithCalculus .OP_MUL exSym exSparseMat true false =
        Built.create (.binary true false .OP_MUL exSym exSparseMat) :=
  ⟨((getBinary_scalar_broadcast arithCalculus .OP_ADD exSym exSparseMat false).1
      (by decide)).1.2.1 (by decide),
    ((getBinary_scalar_broadcast arithCalculus .OP_MUL exSym exSparseMat false).1
      (by decide)).1.1.2 (Or.inr (by decide))⟩

/-- C21, counterexample to the claim as stated, with the first operand `x0`
flagged scalar and the reciprocal of the sparse matrix `B` as second operand.
For the product, `FX0Checker` holds, and yet no node over the nonzeros of
`inv(B)` is built: the rewrite to `x0 / B` fires and `B` is densified.  For the
quotient, `inv(B)` is not dense and `FX0Checker` fails, and yet nothing is
densified: the rewrite to `x0 * B` fires and the node is built over the
nonzeros of `B` directly. -/
theorem getBinary_scalar_broadcast_counterexample :
    (arithCalculus.FX0Checker .OP_MUL = true ∧
        getBinary arithCalculus .OP_MUL exSym exInvB true false ≠
          Built.create (.binary true false .OP_MUL exSym exInvB) ∧
        getBinary arithCalculus .OP_MUL exSym exInvB true false =
          ⟨[.setSparse exSparseMat (sp_dense 2 2),
              .binary true false .OP_DIV exSym (.setSparse exSparseMat (sp_dense 2 2))],
            .ok (.binary true false .OP_DIV exSym
              (.setSparse exSparseMat (sp_dense 2 2)))⟩) ∧
      (exInvB.dense = false ∧ arithCalculus.FX0Checker .OP_DIV = false ∧
        getBinary arithCalculus .OP_DIV exSym exInvB true false =
          Built.create (.binary true false .OP_MUL exSym exSparseMat)) := by
  have hmul : getBinary arithCalculus .OP_MUL exSym exInvB true false =
      ⟨[.setSparse exSparseMat (sp_dense 2 2),
          .binary true false .OP_DIV exSym (.setSparse exSparseMat (sp_dense 2 2))],
        .ok (.binary true false .OP_DIV exSym (.setSparse exSparseMat (sp_dense 2 2)))⟩ := by
    rw [getBinary_of_invMul arithCalculus .OP_MUL exSym exInvB exSparseMat true false
      (by decide) rfl]
    exact ((getBinary_noRule_broadcast arithCalculus .OP_DIV exSym exSparseMat false
      (by decide)).1.2.1 (by decide))
  refine ⟨⟨by decide, ?_, hmul⟩, by decide, by decide, ?_⟩
  · rw [hmul]
    intro h
    simp [Built.create] at h
  · rw [getBinary_of_invDiv arithCalculus .OP_DIV exSym exInvB exSparseMat true false
      (by decide) rfl]
    exact ((getBinary_noRule_broadcast arithCalculus .OP_MUL exSym exSparseMat false
      (by decide)).1.1.2 (Or.inr (by decide)))

/-! ## Shape of the absorbing-zero return -/

/-- Method `getBinarySwitch` is its dimension check, its quick return and its
node-building part. -/
theorem getBinarySwitch_split (T : Calculus) (op : Operation) (x y : MX) :
    getBinarySwitch T op x y =
      if ¬ (x.sparsity.scalar = true ∨ y.scalar = true ∨
          (x.sparsity.size1 = y.size1 ∧ x.size2 = y.size2)) then
        Built.fail (.dimensionMismatch x.sparsity.shape y.sparsity.shape)
      else if (T.F0XChecker op = true ∧ x.isZero = true) ∨
          (T.FX0Checker op = true ∧ y.isZero = true) then
        Built.ret (MX.sparse (max x.size1 y.size1) (max x.size2 y.size2))
      else getBinarySwitchCreate T op x y := by
  unfold getBinarySwitch getBinarySwitchCreate
  rfl

/-- The broadcast `toMatrix(r, sp)` has the shape of `sp`. -/
theorem toMatrix_shape (r : MX) (sp : CRSSparsity) :
    (r.toMatrix sp).sparsity.shape = sp.shape := by
  unfold MX.toMatrix
  split_ifs with h
  · exact h
  · rfl

/-- A scalar pattern has one row and one column. -/
theorem scalar_shape (s : CRSSparsity) (h : s.scalar = true) :
    s.size1 = 1 ∧ s.size2 = 1 := by
  simp only [CRSSparsity.scalar, CRSSparsity.numel, beq_iff_eq] at h
  exact mul_eq_one.mp h

/-- On operands of equal shape whose negations and reciprocals are unary nodes
the cascade of `getBinary` returns an expression of that shape. -/
theorem getBinary_shape (T : Calculus) (op : Operation) (x y : MX) (scX scY : Bool) :
    unaryHeads x = true → unaryHeads y = true →
      x.sparsity.shape = y.sparsity.shape →
      ∀ m, (getBinary T op x y scX scY).out = .ok m →
        m.sparsity.shape = x.sparsity.shape := by
  have hstrip : ∀ (op : Operation) (x y z : MX),
      (specialCase T op x y = .negAdd ∨ specialCase T op x y = .negSub ∨
        specialCase T op x y = .invMul ∨ specialCase T op x y = .invDiv) →
      y.dep 0 = .ok z → unaryHeads y = true →
      unaryHeads z = true ∧ z.sparsity = y.sparsity := by
    intro op x y z h hz hu
    have hop := strip_head T op x y h
    cases y <;> simp only [MX.getOp, reduceCtorEq, or_self] at hop
    · simp only [MX.dep, MX.dep_] at hz
      simp only [unaryHeads, hop, if_true] at hu
      simp at hz
      subst hz
      exact ⟨hu, rfl⟩
    · simp only [unaryHeads] at hu
      rcases hop with hop | hop <;> simp [hop] at hu
  have hdens : ∀ z : MX, unaryHeads (.setSparse z (sp_dense z.size1 z.size2)) = true ∧
      (MX.setSparse z (sp_dense z.size1 z.size2)).sparsity.shape = z.sparsity.shape :=
    fun z => ⟨rfl, rfl⟩
  have hd2 : ∀ (z zd : MX) (cr : List MX), ¬ z.dense = true →
      densify z = ⟨cr, .ok zd⟩ → zd = .setSparse z (sp_dense z.size1 z.size2) := by
    intro z zd cr hnd h
    unfold densify at h
    rw [if_neg hnd] at h
    simp only [getSetSparse, Built.create, Built.mk.injEq, Except.ok.injEq] at h
    exact h.2.symm
  induction op, x, y, scX, scY using getBinary.induct T with
  | case1 op x y scX scY h ih =>
    intro hx hy hs m hm
    rw [getBinary_of_swap _ _ _ _ _ _ h] at hm
    rw [ih hy hx hs.symm m hm, hs]
  | case2 op x y scX scY h =>
    intro hx hy hs m hm
    rw [getBinary_of_square _ _ _ _ _ _ h] at hm
    unfold getUnary at hm
    split at hm
    · simp only [Built.ret, Except.ok.injEq] at hm
      rw [← hm]
      rfl
    · simp only [Built.create, Except.ok.injEq] at hm
      rw [← hm]
      rfl
  | case3 op x y scX scY h =>
    intro hx hy hs m hm
    rw [getBinary_of_collapse _ _ _ _ _ _ h] at hm
    simp only [Built.ret, Except.ok.injEq] at hm
    rw [← hm]
  | case4 op x y scX scY h z hz ih =>
    intro hx hy hs m hm
    rw [getBinary_of_negAdd _ _ _ _ _ _ _ h hz] at hm
    obtain ⟨h1, h2⟩ := hstrip op x y z (Or.inl h) hz hy
    exact ih hx h1 (by rw [h2]; exact hs) m hm
  | case5 op x y scX scY h e he =>
    exact absurd he (strip_dep_ne_error T op x y e (Or.inl h))
  | case6 op x y scX scY h z hz ih =>
    intro hx hy hs m hm
    rw [getBinary_of_negSub _ _ _ _ _ _ _ h hz] at hm
    obtain ⟨h1, h2⟩ := hstrip op x y z (Or.inr (Or.inl h)) hz hy
    exact ih hx h1 (by rw [h2]; exact hs) m hm
  | case7 op x y scX scY h e he =>
    exact absurd he (strip_dep_ne_error T op x y e (Or.inr (Or.inl h)))
  | case8 op x y scX scY h z hz ih =>
    intro hx hy hs m hm
    rw [getBinary_of_invMul _ _ _ _ _ _ _ h hz] at hm
    obtain ⟨h1, h2⟩ := hstrip op x y z (Or.inr (Or.inr (Or.inl h))) hz hy
    exact ih hx h1 (by rw [h2]; exact hs) m hm
  | case9 op x y scX scY h e he =>
    exact absurd he (strip_dep_ne_error T op x y e (Or.inr (Or.inr (Or.inl h))))
  | case10 op x y scX scY h z hz ih =>
    intro hx hy hs m hm
    rw [getBinary_of_invDiv _ _ _ _ _ _ _ h hz] at hm
    obtain ⟨h1, h2⟩ := hstrip op x y z (Or.inr (Or.inr (Or.inr h))) hz hy
    exact ih hx h1 (by rw [h2]; exact hs) m hm
  | case11 op x y scX scY h e he =>
    exact absurd he (strip_dep_ne_error T op x y e (Or.inr (Or.inr (Or.inr h))))
  | case12 op x y scY h hd =>
    intro hx hy hs m hm
    rw [getBinary_of_noRule _ _ _ _ _ _ h] at hm
    simp only [if_true, if_pos hd, Built.create, Except.ok.injEq] at hm
    rw [← hm]
    exact hs.symm
  | case13 op x y scY h hd cr yd hyd ih =>
    intro hx hy hs m hm
    rw [getBinary_of_noRule _ _ _ _ _ _ h] at hm
    simp only [if_true, if_neg hd, Built.bind, hyd, Built.after] at hm
    have e := hd2 y yd cr (fun hh => hd (Or.inl hh)) hyd
    subst e
    exact ih hx (hdens y).1 (by rw [(hdens y).2]; exact hs) m hm
  | case14 op x y scY h hd cr e he =>
    exact absurd he (densify_out_ne_error y cr e)
  | case15 op x y scX h hx hd =>
    intro hx2 hy hs m hm
    rw [getBinary_of_noRule _ _ _ _ _ _ h] at hm
    simp only [if_neg hx, if_true, if_pos hd, Built.create, Except.ok.injEq] at hm
    rw [← hm]
    rfl
  | case16 op x y scX h hx hd cr xd hxd ih =>
    intro hx2 hy hs m hm
    rw [getBinary_of_noRule _ _ _ _ _ _ h] at hm
    simp only [if_neg hx, if_true, if_neg hd, Built.bind, hxd, Built.after] at hm
    have e := hd2 x xd cr (fun hh => hd (Or.inl hh)) hxd
    subst e
    rw [ih (hdens x).1 hy (by rw [(hdens x).2]; exact hs) m hm]
    exact (hdens x).2
  | case17 op x y scX h hx hd cr e he =>
    exact absurd he (densify_out_ne_error x cr e)
  | case18 op x y scX scY h hx hy rr hrr =>
    intro hx2 hy2 hs m hm
    rw [getBinary_of_noRule _ _ _ _ _ _ h] at hm
    simp only [if_neg hx, if_neg hy] at hm
    rw [if_pos hrr] at hm
    simp only [Built.map, Built.create, Except.ok.injEq] at hm
    rw [← hm]
    unfold MX.makeDense
    split_ifs <;> rfl
  | case19 op x y scX scY h hx hy rr hrr =>
    intro hx2 hy2 hs m hm
    rw [getBinary_of_noRule _ _ _ _ _ _ h] at hm
    simp only [if_neg hx, if_neg hy] at hm
    rw [if_neg hrr] at hm
    simp only [Built.create, Except.ok.injEq] at hm
    rw [← hm]
    rfl

/-- C25: shape of the absorbing-zero return.  For operands that pass the
dimension check of `getBinarySwitch` (negations and reciprocals being unary
nodes), the node-building part of the method returns an expression whose shape
is that of the non-scalar operand when exactly one operand is scalar and the
common shape of the operands otherwise.  The shape (max of the row counts, max
of the column counts) of the quick zero return equals that shape if and only if
it is not the case that one operand is scalar while the other has no row or no
column. -/
theorem getBinarySwitch_zero_shape (T : Calculus) (op : Operation) (x y : MX)
    (hdim : x.sparsity.scalar = true ∨ y.scalar = true ∨
      (x.sparsity.size1 = y.size1 ∧ x.size2 = y.size2))
    (hu : x.scalar = false → y.scalar = false →
      unaryHeads x = true ∧ unaryHeads y = true) :
    ∃ m, (getBinarySwitchCreate T op x y).out = .ok m ∧
      m.sparsity.shape = (if x.scalar = true then y.sparsity.shape else x.sparsity.shape) ∧
      (x.scalar = y.scalar → x.sparsity.shape = y.sparsity.shape) ∧
      ((MX.sparse (max x.size1 y.size1) (max x.size2 y.size2)).sparsity.shape =
          m.sparsity.shape ↔
        ¬ ((x.scalar = true ∧ (y.size1 = 0 ∨ y.size2 = 0)) ∨
          (y.scalar = true ∧ (x.size1 = 0 ∨ x.size2 = 0)))) := by
  have hmap : ∀ (b : Built) (sp : CRSSparsity), (∃ m, b.out = .ok m) →
      ∃ m, (b.map fun r => r.toMatrix sp).out = .ok m ∧ m.sparsity.shape = sp.shape := by
    intro b sp hb
    obtain ⟨m, hm⟩ := hb
    exact ⟨m.toMatrix sp, by simp [Built.map, hm], toMatrix_shape m sp⟩
  have hquick : (MX.sparse (max x.size1 y.size1) (max x.size2 y.size2)).sparsity.shape =
      (max x.size1 y.size1, max x.size2 y.size2) := rfl
  rw [hquick]
  by_cases hx : x.sparsity.scalar = true
  · -- the first operand is scalar
    have hx1 := scalar_shape _ hx
    have hc : ∃ m, (getBinarySwitchCreate T op x y).out = .ok m ∧
        m.sparsity.shape = y.sparsity.shape := by
      unfold getBinarySwitchCreate
      rw [if_pos hx]
      split_ifs <;> exact hmap _ _ (getBinary_ok _ _ _ _ _ _)
    obtain ⟨m, hm, hsh⟩ := hc
    have hxs : x.scalar = true := hx
    refine ⟨m, hm, by rw [if_pos hxs]; exact hsh, ?_, ?_⟩
    · intro he
      have hy1 := scalar_shape y.sparsity (by rw [← hxs, he]; rfl)
      simp only [CRSSparsity.shape, hx1.1, hx1.2, hy1.1, hy1.2]
    · rw [hsh]
      simp only [CRSSparsity.shape, MX.size1, MX.size2, hx1.1, hx1.2, Prod.mk.injEq, hxs,
        true_and]
      constructor
      · rintro ⟨h1, h2⟩ (h | ⟨hys, h⟩)
        · omega
        · have hy1 := scalar_shape y.sparsity hys
          omega
      · intro h
        push_neg at h
        have := h.1
        omega
  by_cases hy : y.scalar = true
  · -- only the second operand is scalar
    have hy1 := scalar_shape y.sparsity hy
    have hc : ∃ m, (getBinarySwitchCreate T op x y).out = .ok m ∧
        m.sparsity.shape = x.sparsity.shape := by
      unfold getBinarySwitchCreate
      rw [if_neg hx, if_pos hy]
      split_ifs <;> exact hmap _ _ (getBinary_ok _ _ _ _ _ _)
    obtain ⟨m, hm, hsh⟩ := hc
    have hxs : ¬ x.scalar = true := hx
    refine ⟨m, hm, by rw [if_neg hxs]; exact hsh, ?_, ?_⟩
    · intro he
      rw [he] at hxs
      exact absurd hy hxs
    · rw [hsh]
      simp only [CRSSparsity.shape, MX.size1, MX.size2, hy1.1, hy1.2, Prod.mk.injEq, hy,
        true_and]
      constructor
      · rintro ⟨h1, h2⟩ (⟨hxs2, _⟩ | h)
        · exact hxs hxs2
        · omega
      · intro h
        push_neg at h
        have := h.2
        omega
  · -- neither operand is scalar
    have hd : x.sparsity.size1 = y.sparsity.size1 ∧ x.sparsity.size2 = y.sparsity.size2 := by
      rcases hdim with h | h | h
      · exact absurd h hx
      · exact absurd h hy
      · exact h
    have hs : x.sparsity.shape = y.sparsity.shape := by
      simp only [CRSSparsity.shape, hd.1, hd.2]
    have hxs : x.scalar = false := by
      simpa [MX.scalar] using hx
    have hys : y.scalar = false := by
      simpa using hy
    obtain ⟨hux, huy⟩ := hu hxs hys
    have hc : ∃ m, (getBinarySwitchCreate T op x y).out = .ok m ∧
        m.sparsity.shape = x.sparsity.shape := by
      unfold getBinarySwitchCreate
      rw [if_neg hx, if_neg hy, if_neg (not_not_intro hs)]
      by_cases h8 : x.sparsity = y.sparsity
      · rw [if_pos h8]
        obtain ⟨m, hm⟩ := getBinary_ok T op x y false false
        exact ⟨m, hm, getBinary_shape T op x y false false hux huy hs m hm⟩
      · rw [if_neg h8]
        simp only [getSetSparse, Built.create, Built.bind, Built.after]
        obtain ⟨m, hm⟩ := getBinary_ok T op
          (.setSparse x (x.sparsity.patternCombine y.sparsity (T.F0XChecker op)
            (T.FX0Checker op)))
          (.setSparse y (x.sparsity.patternCombine y.sparsity (T.F0XChecker op)
            (T.FX0Checker op))) false false
        exact ⟨m, hm, getBinary_shape T op
          (.setSparse x (x.sparsity.patternCombine y.sparsity (T.F0XChecker op)
            (T.FX0Checker op)))
          (.setSparse y (x.sparsity.patternCombine y.sparsity (T.F0XChecker op)
            (T.FX0Checker op))) false false rfl rfl rfl m hm⟩
    obtain ⟨m, hm, hsh⟩ := hc
    refine ⟨m, hm, by rw [hxs]; exact hsh, fun _ => hs, ?_⟩
    rw [hsh]
    simp only [CRSSparsity.shape, MX.size1, MX.size2, hd.1, hd.2, max_self, hxs, hys,
      Bool.false_eq_true, false_and, or_self, not_false_eq_true]

/-- Witness of C25: for the scalar `x0` and the dense 2-by-2 matrix `A` the
node-building part returns an expression of the shape of `A`, which is the
shape (max rows, max columns) of the quick return. -/
theorem getBinarySwitch_zero_shape_witness :
    ∃ m, (getBinarySwitchCreate arithCalculus .OP_MUL exSym exMat).out = .ok m ∧
      m.sparsity.shape = (2, 2) ∧
      (MX.sparse (max exSym.size1 exMat.size1) (max exSym.size2 exMat.size2)).sparsity.shape =
        m.sparsity.shape :=
  match getBinarySwitch_zero_shape arithCalculus .OP_MUL exSym exMat (Or.inl (by decide))
      (fun h => absurd h (by decide)) with
  | ⟨m, h1, h2, _, h4⟩ => ⟨m, h1, h2, h4.mpr (by decide)⟩

/-- Counterexample to C25 as stated: the product of the scalar constant zero
with a 0-by-3 matrix passes the dimension check and takes the quick return,
which has shape 1-by-3, while the node-building part returns an expression of
shape 0-by-3, the shape of the non-scalar operand; with the scalar `x0`, which
is not known to be zero, `getBinarySwitch` itself returns shape 0-by-3 for
operands of the same shapes. -/
theorem getBinarySwitch_zero_shape_counterexample :
    exZero.sparsity.scalar = true ∧
      getBinarySwitch arithCalculus .OP_MUL exZero exEmpty = Built.ret (MX.sparse 1 3) ∧
      (MX.sparse 1 3).sparsity.shape = (1, 3) ∧
      (getBinarySwitchCreate arithCalculus .OP_MUL exZero exEmpty).out =
        .ok (.binary true false .OP_MUL exZero exEmpty) ∧
      (MX.binary true false .OP_MUL exZero exEmpty).sparsity.shape = (0, 3) ∧
      exEmpty.sparsity.shape = (0, 3) ∧
      exSym.sparsity.shape = exZero.sparsity.shape ∧
      (getBinarySwitch arithCalculus .OP_MUL exSym exEmpty).out =
        .ok (.binary true false .OP_MUL exSym exEmpty) ∧
      (MX.binary true false .OP_MUL exSym exEmpty).sparsity.shape = (0, 3) := by
  have hn0 : specialCase arithCalculus .OP_MUL exZero exEmpty = .noRule := by decide
  have hn1 : specialCase arithCalculus .OP_MUL exSym exEmpty = .noRule := by decide
  have hd : exEmpty.dense = true := by decide
  have c0 : (getBinarySwitchCreate arithCalculus .OP_MUL exZero exEmpty).out =
      .ok (.binary true false .OP_MUL exZero exEmpty) := by
    unfold getBinarySwitchCreate
    rw [if_pos (by decide), if_neg (by decide), getBinary_of_noRule _ _ _ _ _ _ hn0]
    simp only [if_true]
    rw [if_pos (Or.inl hd)]
    rfl
  have c1 : (getBinarySwitchCreate arithCalculus .OP_MUL exSym exEmpty).out =
      .ok (.binary true false .OP_MUL exSym exEmpty) := by
    unfold getBinarySwitchCreate
    rw [if_pos (by decide), if_neg (by decide), getBinary_of_noRule _ _ _ _ _ _ hn1]
    simp only [if_true]
    rw [if_pos (Or.inl hd)]
    rfl
  refine ⟨by decide, ?_, rfl, c0, rfl, rfl, rfl, ?_, rfl⟩
  · rw [getBinarySwitch_split, if_neg (by decide), if_pos (by decide)]
    rfl
  · rw [getBinarySwitch_split, if_neg (by decide), if_neg (by decide)]
    exact c1

/-! ## The nonzero-access factory functions -/

/-- C27: empty nonzero lists allocate nothing.  For every node `x`,
`getGetNonzeros(sp, nz)` with an empty `nz` returns the all-zero expression of
sparsity `sp`, and `getSetNonzeros(y, nz)` and `getAddNonzeros(y, nz)` with an
empty `nz` return the handle `y` itself, no node being created.  With a
non-empty `nz` each of the three creates exactly one node, of the slice variant
if `nz` is a slice, else of the nested-slice variant if `nz` is a nested slice,
else of the index-vector variant, and returns what `simplify` makes of it. -/
theorem nonzeros_factories {σ : Type} (S : SliceOps σ)
    (simplify : NonzerosHandle σ → NonzerosHandle σ)
    (x y : MX) (sp : CRSSparsity) (nz : List Int) :
    (nz = [] →
        getGetNonzeros S simplify x sp nz = ⟨[], .mx (MX.zeros sp)⟩ ∧
        (MX.zeros sp).sparsity = sp ∧ (MX.zeros sp).isZero = true ∧
        getSetNonzeros S simplify x y nz = ⟨[], .mx y⟩ ∧
        getAddNonzeros S simplify x y nz = ⟨[], .mx y⟩) ∧
      (nz ≠ [] →
        (S.isSlice nz = true →
          getGetNonzeros S simplify x sp nz =
              ⟨[.GetNonzerosSlice sp x (S.ofVector nz)],
                simplify (.node (.GetNonzerosSlice sp x (S.ofVector nz)))⟩ ∧
            getSetNonzeros S simplify x y nz =
              ⟨[.SetNonzerosSlice false y x (S.ofVector nz)],
                simplify (.node (.SetNonzerosSlice false y x (S.ofVector nz)))⟩ ∧
            getAddNonzeros S simplify x y nz =
              ⟨[.SetNonzerosSlice true y x (S.ofVector nz)],
                simplify (.node (.SetNonzerosSlice true y x (S.ofVector nz)))⟩) ∧
        (S.isSlice nz = false → S.isSlice2 nz = true →
          getGetNonzeros S simplify x sp nz =
              ⟨[.GetNonzerosSlice2 sp x (S.nested nz).1 (S.nested nz).2],
                simplify (.node
                  (.GetNonzerosSlice2 sp x (S.nested nz).1 (S.nested nz).2))⟩ ∧
            getSetNonzeros S simplify x y nz =
              ⟨[.SetNonzerosSlice2 false y x (S.nested nz).1 (S.nested nz).2],
                simplify (.node
                  (.SetNonzerosSlice2 false y x (S.nested nz).1 (S.nested nz).2))⟩ ∧
            getAddNonzeros S simplify x y nz =
              ⟨[.SetNonzerosSlice2 true y x (S.nested nz).1 (S.nested nz).2],
                simplify (.node
                  (.SetNonzerosSlice2 true y x (S.nested nz).1 (S.nested nz).2))⟩) ∧
        (S.isSlice nz = false → S.isSlice2 nz = false →
          getGetNonzeros S simplify x sp nz =
              ⟨[.GetNonzerosVector sp x nz],
                simplify (.node (.GetNonzerosVector sp x nz))⟩ ∧
            getSetNonzeros S simplify x y nz =
              ⟨[.SetNonzerosVector false y x nz],
                simplify (.node (.SetNonzerosVector false y x nz))⟩ ∧
            getAddNonzeros S simplify x y nz =
              ⟨[.SetNonzerosVector true y x nz],
                simplify (.node (.SetNonzerosVector true y x nz))⟩)) := by
  constructor
  · intro h
    subst h
    exact ⟨rfl, rfl, by simp [MX.zeros, MX.isZero], rfl, rfl⟩
  · intro h
    have hl : ¬ nz.length = 0 := fun h0 => h (List.length_eq_zero.mp h0)
    refine ⟨?_, ?_, ?_⟩
    · intro h1
      simp only [getGetNonzeros, getSetNonzeros, getAddNonzeros, if_neg hl, h1, if_true,
        and_self]
    · intro h1 h2
      simp only [getGetNonzeros, getSetNonzeros, getAddNonzeros, if_neg hl, h1, h2, if_true,
        Bool.false_eq_true, if_false, and_self]
    · intro h1 h2
      simp only [getGetNonzeros, getSetNonzeros, getAddNonzeros, if_neg hl, h1, h2,
        Bool.false_eq_true, if_false, and_self]

/-! ## The print budget -/

/-- Writing to the stream leaves the counters alone. -/
theorem PrintState.write_counters (s : PrintState) (text : String) :
    (s.write text).remaining_calls = s.remaining_calls ∧
      (s.write text).expanded = s.expanded := by
  unfold PrintState.write
  split <;> exact ⟨rfl, rfl⟩

/-- A call of `printPart` leaves the counters alone. -/
theorem PrintState.part_counters {κ : Type} (pp : PrintNode κ → Nat → Except Error String)
    (n : PrintNode κ) (part : Nat) (s : PrintState) :
    (s.part pp n part).remaining_calls = s.remaining_calls ∧
      (s.part pp n part).expanded = s.expanded := by
  unfold PrintState.part
  split
  · split <;> exact ⟨rfl, rfl⟩
  · exact ⟨rfl, rfl⟩

mutual
/-- Every expansion takes one unit of the budget, and the budget never
becomes negative. -/
theorem print_counters {κ : Type} (pp : PrintNode κ → Nat → Except Error String) :
    ∀ (n : PrintNode κ) (s : PrintState),
      (print pp n s).remaining_calls + (print pp n s).expanded =
          s.remaining_calls + s.expanded ∧
        (print pp n s).remaining_calls ≤ s.remaining_calls ∧
        (0 ≤ s.remaining_calls → 0 ≤ (print pp n s).remaining_calls)
  | .mk kind deps, s => by
    unfold print
    split
    · exact ⟨rfl, le_refl _, fun h => h⟩
    · split
      · rename_i hpos
        have h := printLoop_counters pp (.mk kind deps) deps 0
          (PrintState.part pp (.mk kind deps) 0
            { s with remaining_calls := s.remaining_calls - 1, expanded := s.expanded + 1 })
        have hp := PrintState.part_counters pp (.mk kind deps) 0
          { s with remaining_calls := s.remaining_calls - 1, expanded := s.expanded + 1 }
        simp only at hp
        rw [hp.1, hp.2] at h
        obtain ⟨h1, h2, h3⟩ := h
        dsimp only
        refine ⟨?_, ?_, ?_⟩
        · rw [h1]
          push_cast
          ring
        · omega
        · intro _
          exact h3 (by omega)
      · have hw := PrintState.write_counters s "..."
        rw [hw.1, hw.2]
        exact ⟨rfl, le_refl _, fun h => h⟩
/-- The same for the loop over the dependencies. -/
theorem printLoop_counters {κ : Type} (pp : PrintNode κ → Nat → Except Error String)
    (self : PrintNode κ) :
    ∀ (deps : PrintDeps κ) (i : Nat) (s : PrintState),
      (printLoop pp self deps i s).remaining_calls + (printLoop pp self deps i s).expanded =
          s.remaining_calls + s.expanded ∧
        (printLoop pp self deps i s).remaining_calls ≤ s.remaining_calls ∧
        (0 ≤ s.remaining_calls → 0 ≤ (printLoop pp self deps i s).remaining_calls)
  | .nil, i, s => by
    unfold printLoop
    exact ⟨rfl, le_refl _, fun h => h⟩
  | .null rest, i, s => by
    unfold printLoop
    have h := printLoop_counters pp self rest (i + 1) ((s.write "MX()").part pp self (i + 1))
    have hp := PrintState.part_counters pp self (i + 1) (s.write "MX()")
    have hw := PrintState.write_counters s "MX()"
    rw [hp.1, hp.2, hw.1, hw.2] at h
    exact h
  | .node d rest, i, s => by
    unfold printLoop
    have h := printLoop_counters pp self rest (i + 1) ((print pp d s).part pp self (i + 1))
    have hp := PrintState.part_counters pp self (i + 1) (print pp d s)
    have hd := print_counters pp d s
    rw [hp.1, hp.2] at h
    obtain ⟨h1, h2, h3⟩ := h
    obtain ⟨d1, d2, d3⟩ := hd
    exact ⟨h1.trans d1, h2.trans d2, fun h0 => h3 (d3 h0)⟩
end

/-- C28: the print budget of `MXNode::print(stream, remaining_calls)`.  The
method is total on every finite tree of nodes.  Called with
`remaining_calls <= 0` it writes exactly "..." and leaves the counter
unchanged.  Called with a positive counter it decrements the counter by one,
writes part 0 and runs the loop over the dependencies; the counter drops by
exactly one per expanding call, it never becomes negative, so that a budget `N`
pays for at most `N` expansions in total.  In the loop a null dependency is
printed as "MX()", and a dependency reached when the counter is exhausted is
printed as "...". -/
theorem print_budget {κ : Type} (pp : PrintNode κ → Nat → Except Error String)
    (n : PrintNode κ) (s : PrintState) (hs : s.thrown = none) :
    (s.remaining_calls ≤ 0 →
        print pp n s = ⟨s.stream ++ "...", s.remaining_calls, s.expanded, s.thrown⟩) ∧
      (0 < s.remaining_calls →
        print pp n s = printLoop pp n n.dep_ 0
          (PrintState.part pp n 0
            ⟨s.stream, s.remaining_calls - 1, s.expanded + 1, s.thrown⟩)) ∧
      ((print pp n s).remaining_calls + (print pp n s).expanded =
        s.remaining_calls + s.expanded) ∧
      (0 ≤ s.remaining_calls →
        0 ≤ (print pp n s).remaining_calls ∧
          ((print pp n s).expanded : Int) - s.expanded ≤ s.remaining_calls) ∧
      (∀ (self : PrintNode κ) (rest : PrintDeps κ) (i : Nat) (t : PrintState),
        t.thrown = none →
        printLoop pp self (.null rest) i t =
          printLoop pp self rest (i + 1)
            (PrintState.part pp self (i + 1)
              ⟨t.stream ++ "MX()", t.remaining_calls, t.expanded, t.thrown⟩)) ∧
      (∀ (self d : PrintNode κ) (rest : PrintDeps κ) (i : Nat) (t : PrintState),
        t.thrown = none → t.remaining_calls ≤ 0 →
        printLoop pp self (.node d rest) i t =
          printLoop pp self rest (i + 1)
            (PrintState.part pp self (i + 1)
              ⟨t.stream ++ "...", t.remaining_calls, t.expanded, t.thrown⟩)) := by
  have hdots : ∀ (d : PrintNode κ) (t : PrintState), t.thrown = none →
      t.remaining_calls ≤ 0 → print pp d t = { t with stream := t.stream ++ "..." } := by
    intro d t ht hr
    obtain ⟨kind, deps⟩ := d
    unfold print
    rw [ht]
    dsimp only
    rw [if_neg (by omega)]
    unfold PrintState.write
    rw [ht]
  obtain ⟨h1, _, h3⟩ := print_counters pp n s
  refine ⟨hdots n s hs, ?_, h1, ?_, ?_, ?_⟩
  · intro hpos
    obtain ⟨kind, deps⟩ := n
    unfold print
    rw [hs]
    dsimp only
    rw [if_pos hpos]
    rfl
  · intro h0
    exact ⟨h3 h0, by have := h3 h0; omega⟩
  · intro self rest i t ht
    rw [printLoop]
    unfold PrintState.write
    rw [ht]
  · intro self d rest i t ht hr
    rw [printLoop, hdots d t ht hr]

/-- Witness of C28: the tree `f(g(a), MX(), b)` printed with a budget of two
expansions. -/
theorem print_budget_witness :
    (print exPrintPart exPrintTree ⟨"", 2, 0, none⟩).stream = "f(g(...),MX(),...)" ∧
      (print exPrintPart exPrintTree ⟨"", 2, 0, none⟩).remaining_calls = 0 ∧
      0 ≤ (print exPrintPart exPrintTree ⟨"", 2, 0, none⟩).remaining_calls ∧
      print exPrintPart exPrintTree ⟨"", 0, 0, none⟩ = ⟨"...", 0, 0, none⟩ :=
  ⟨by decide, by decide,
    ((print_budget exPrintPart exPrintTree ⟨"", 2, 0, none⟩ rfl).2.2.2.1 (by decide)).1,
    (print_budget exPrintPart exPrintTree ⟨"", 0, 0, none⟩ rfl).1 (by decide)⟩

/-! ## SOS1 flattening in `BonminInterface::init` -/

open BonminInterface in
/-- The loop of `init` succeeds when every weight list has the length of its
group, and then appends the flattened groups. -/
theorem initLoop_ok (G : List (List Int)) (W : List (List Rat)) :
    ∀ (n i : Nat) (m : SosMembers), i + n ≤ G.length → (W = [] ∨ i + n ≤ W.length) →
      (∀ j, i ≤ j → j < i + n → W ≠ [] →
        (W.getD j []).length = (G.getD j []).length) →
      initLoop G W n i m = .ok
        { m with
          sos_num_nz_ := m.sos_num_nz_ + (((G.drop i).take n).map List.length).sum
          sos1_starts_ := m.sos1_starts_ ++ groupStarts m.sos_num_nz_ ((G.drop i).take n)
          sos1_indices_ := m.sos1_indices_ ++ ((G.drop i).take n).flatten
          sos1_weights_ := m.sos1_weights_ ++
            (if W = [] then
              (((G.drop i).take n).map fun g => List.replicate g.length (1 : Rat)).flatten
            else ((W.drop i).take n).flatten) } := by
  intro n
  induction n with
  | zero =>
    intro i m _ _ _
    simp [initLoop, groupStarts]
  | succ n ih =>
    intro i m hG hW hc
    have hi : i < G.length := by omega
    have hGd : G.drop i = G[i] :: G.drop (i + 1) := List.drop_eq_getElem_cons hi
    have hg : G.getD i [] = G[i] := by simp [List.getD_eq_getElem, hi]
    unfold initLoop
    simp only [hg]
    by_cases hw : W = []
    · subst hw
      simp only [List.isEmpty_nil, if_true, List.length_replicate, ne_eq, not_true_eq_false,
        if_false]
      rw [ih (i + 1) _ (by omega) (Or.inl rfl) (fun j _ _ h => absurd rfl h)]
      simp only [hGd, List.take_succ_cons, List.map_cons, List.sum_cons, List.flatten_cons,
        groupStarts, if_true, List.append_assoc, List.singleton_append, Nat.add_assoc]
    · have hiw : i < W.length := by
        rcases hW with h | h
        · exact absurd h hw
        · omega
      have hWd : W.drop i = W[i] :: W.drop (i + 1) := List.drop_eq_getElem_cons hiw
      have hwg : W.getD i [] = W[i] := by simp [List.getD_eq_getElem, hiw]
      have hne : W.isEmpty = false := by
        cases W
        · exact absurd rfl hw
        · rfl
      have hlen : W[i].length = G[i].length := by
        have := hc i (le_refl _) (by omega) hw
        rw [hwg, hg] at this
        exact this
      simp only [hne, Bool.false_eq_true, if_false, hwg, hlen, ne_eq, not_true_eq_false]
      rw [ih (i + 1) _ (by omega) (Or.inr (by rcases hW with h | h
                                              · exact absurd h hw
                                              · omega))
        (fun j h1 h2 h3 => hc j (by omega) (by omega) h3)]
      simp only [hGd, hWd, List.take_succ_cons, List.map_cons, List.sum_cons, List.flatten_cons,
        groupStarts, if_neg hw, List.append_assoc, List.singleton_append, Nat.add_assoc]

open BonminInterface in
/-- The loop of `init` fails when some weight list has another length than its
group. -/
theorem initLoop_error (G : List (List Int)) (W : List (List Rat)) :
    ∀ (n i : Nat) (m : SosMembers),
      (∃ j, i ≤ j ∧ j < i + n ∧ W ≠ [] ∧ (W.getD j []).length ≠ (G.getD j []).length) →
      ∃ e, initLoop G W n i m = .error e := by
  intro n
  induction n with
  | zero =>
    rintro i m ⟨j, h1, h2, _⟩
    omega
  | succ n ih =>
    rintro i m ⟨j, h1, h2, hw, hj⟩
    have hne : W.isEmpty = false := by
      cases W
      · exact absurd rfl hw
      · rfl
    unfold initLoop
    simp only [hne, Bool.false_eq_true, if_false]
    by_cases hi : (W.getD i []).length = (G.getD i []).length
    · simp only [hi, ne_eq, not_true_eq_false, if_false]
      have hji : j ≠ i := by
        rintro rfl
        exact hj hi
      exact ih (i + 1) _ ⟨j, by omega, by omega, hw, hj⟩
    · simp only [ne_eq, hi, not_false_eq_true, if_true]
      exact ⟨_, rfl⟩

open BonminInterface in
/-- The start offsets of the groups followed by the total are the prefix sums
of the group sizes. -/
theorem groupStarts_prefix_sums (G : List (List Int)) :
    ∀ base : Nat, groupStarts base G ++ [base + (G.map List.length).sum] =
      (List.range (G.length + 1)).map fun j => base + ((G.take j).map List.length).sum := by
  induction G with
  | nil =>
    intro base
    simp [groupStarts]
  | cons g rest ih =>
    intro base
    rw [List.length_cons, List.range_succ_eq_map]
    simp only [groupStarts, List.cons_append, List.map_cons, List.map_map, List.sum_cons,
      List.take_zero, List.map_nil, List.sum_nil, Nat.add_zero]
    congr 1
    rw [← Nat.add_assoc, ih]
    apply List.map_congr_left
    intro j _
    simp [Nat.add_assoc]

open BonminInterface in
/-- The SOS part of `init` on a newly constructed object, in terms of the
values of the three options (empty when an option is not given). -/
theorem init_fresh (start_index : Int) (groups_opt : Option (List (List Int)))
    (weights_opt : Option (List (List Rat))) (priorities_opt : Option (List Int)) :
    init start_index groups_opt weights_opt priorities_opt .fresh =
      if ¬ ((weights_opt.getD []).isEmpty = true ∨
          (weights_opt.getD []).length = (groups_opt.getD []).length) then
        .error (.casadiException "sos1_weights has incorrect size")
      else if ¬ ((priorities_opt.getD []).isEmpty = true ∨
          (priorities_opt.getD []).length = (groups_opt.getD []).length) then
        .error (.casadiException "sos1_priorities has incorrect size")
      else
        match initLoop
            ((groups_opt.getD []).map fun g => g.map fun e => narrow_int (e - start_index))
            (weights_opt.getD []) (groups_opt.getD []).length 0
            ⟨(groups_opt.getD []).length, 0, List.replicate (groups_opt.getD []).length 1,
              if (priorities_opt.getD []).isEmpty then
                List.replicate (groups_opt.getD []).length 1
              else priorities_opt.getD [], [], [], []⟩ with
        | .error e => .error e
        | .ok m => .ok { m with sos1_starts_ := m.sos1_starts_ ++ [m.sos_num_nz_] } := by
  cases groups_opt <;> cases weights_opt <;>
    rcases priorities_opt with _ | (_ | ⟨p, ps⟩) <;>
    simp only [init, resize, SosMembers.fresh, Option.getD, List.length_map, List.take_nil,
      List.length_nil, Nat.sub_zero, List.nil_append, List.isEmpty_nil, if_true, List.map_nil,
      List.isEmpty_cons, Bool.false_eq_true, if_false]

/-- The SOS part of `init` on a newly constructed object, characterised in
terms of the values `G`, `W` and `P` of the three options. -/
theorem init_sos_characterised (start_index : Int) (groups_opt : Option (List (List Int)))
    (weights_opt : Option (List (List Rat))) (priorities_opt : Option (List Int)) :
    let G := (groups_opt.getD []).map
      fun g => g.map fun e => BonminInterface.narrow_int (e - start_index)
    let W := weights_opt.getD []
    let P := priorities_opt.getD []
    ((∃ m, BonminInterface.init start_index groups_opt weights_opt priorities_opt .fresh
          = .ok m) ↔
        ((W = [] ∨ W.length = G.length) ∧ (P = [] ∨ P.length = G.length) ∧
          (W ≠ [] → ∀ i < G.length, (W.getD i []).length = (G.getD i []).length))) ∧
      ∀ m, BonminInterface.init start_index groups_opt weights_opt priorities_opt .fresh
          = .ok m →
        m.sos_num_ = G.length ∧
        m.sos1_starts_ =
          ((List.range (G.length + 1)).map fun j => ((G.take j).map List.length).sum) ∧
        m.sos1_starts_.length = G.length + 1 ∧
        m.sos_num_nz_ = (G.map List.length).sum ∧
        m.sos1_starts_.getLast? = some m.sos_num_nz_ ∧
        m.sos1_indices_ = G.flatten ∧
        m.sos1_weights_ =
          (if W = [] then (G.map fun g => List.replicate g.length (1 : Rat)).flatten
            else W.flatten) ∧
        m.sos1_types_ = List.replicate G.length 1 ∧
        m.sos1_priorities_ = (if P = [] then List.replicate G.length 1 else P) ∧
        m.sos1_priorities_.length = G.length ∧
        ∃ info, BonminInterface.init_mem m = .ok info := by
  intro G W P
  have hGl : (groups_opt.getD []).length = G.length := by simp [G]
  have hemp : ∀ {α : Type} (l : List α), l.isEmpty = true ↔ l = [] := by
    intro α l
    cases l <;> simp
  have hinit := init_fresh start_index groups_opt weights_opt priorities_opt
  rw [hGl] at hinit
  simp only [hemp] at hinit
  change BonminInterface.init start_index groups_opt weights_opt priorities_opt .fresh =
    if ¬ (W = [] ∨ W.length = G.length) then _
    else if ¬ (P = [] ∨ P.length = G.length) then _
    else
      match BonminInterface.initLoop G W G.length 0
        ⟨G.length, 0, List.replicate G.length 1,
          if P = [] then List.replicate G.length 1 else P, [], [], []⟩ with
      | .error e => .error e
      | .ok m => .ok { m with sos1_starts_ := m.sos1_starts_ ++ [m.sos_num_nz_] } at hinit
  rw [hinit]
  by_cases hW : W = [] ∨ W.length = G.length
  swap
  · rw [if_pos hW]
    refine ⟨⟨fun ⟨m, h⟩ => by simp at h, fun h => absurd h.1 hW⟩, fun m h => by simp at h⟩
  rw [if_neg (not_not_intro hW)]
  by_cases hP : P = [] ∨ P.length = G.length
  swap
  · rw [if_pos hP]
    refine ⟨⟨fun ⟨m, h⟩ => by simp at h, fun h => absurd h.2.1 hP⟩, fun m h => by simp at h⟩
  rw [if_neg (not_not_intro hP)]
  by_cases hc : W ≠ [] → ∀ i < G.length, (W.getD i []).length = (G.getD i []).length
  swap
  · have hex : ∃ j, 0 ≤ j ∧ j < 0 + G.length ∧ W ≠ [] ∧
        (W.getD j []).length ≠ (G.getD j []).length := by
      push_neg at hc
      obtain ⟨hw, i, hi, hne⟩ := hc
      exact ⟨i, Nat.zero_le _, by omega, hw, hne⟩
    obtain ⟨e, he⟩ := initLoop_error G W G.length 0
      ⟨G.length, 0, List.replicate G.length 1,
        if P = [] then List.replicate G.length 1 else P, [], [], []⟩ hex
    rw [he]
    refine ⟨⟨fun ⟨m, h⟩ => by simp at h, fun h => absurd h.2.2 hc⟩, fun m h => by simp at h⟩
  have hok := initLoop_ok G W G.length 0
    ⟨G.length, 0, List.replicate G.length 1,
      if P = [] then List.replicate G.length 1 else P, [], [], []⟩ (by omega)
    (by rcases hW with h | h
        · exact Or.inl h
        · exact Or.inr (by omega))
    (fun j _ h2 hw => hc hw j (by omega))
  have hWt : ¬ W = [] → W.take G.length = W := by
    intro hw
    rcases hW with h | h
    · exact absurd h hw
    · rw [← h, List.take_length]
  have hok2 : BonminInterface.initLoop G W G.length 0
      ⟨G.length, 0, List.replicate G.length 1,
        if P = [] then List.replicate G.length 1 else P, [], [], []⟩ =
      .ok ⟨G.length, (G.map List.length).sum, List.replicate G.length 1,
        if P = [] then List.replicate G.length 1 else P,
        BonminInterface.groupStarts 0 G, G.flatten,
        if W = [] then (G.map fun g => List.replicate g.length (1 : Rat)).flatten
          else W.flatten⟩ := by
    rw [hok]
    simp only [List.drop_zero, List.take_length, Nat.zero_add, List.nil_append]
    by_cases hw : W = []
    · simp only [if_pos hw]
    · simp only [if_neg hw, hWt hw]
  rw [hok2]
  refine ⟨⟨fun _ => ⟨hW, hP, hc⟩, fun _ => ⟨_, rfl⟩⟩, ?_⟩
  intro m hm
  simp only [Except.ok.injEq] at hm
  subst hm
  have hst := groupStarts_prefix_sums G 0
  simp only [Nat.zero_add] at hst
  have hPl : (if P = [] then List.replicate G.length (1 : Int) else P).length = G.length := by
    by_cases hp : P = []
    · rw [if_pos hp, List.length_replicate]
    · rw [if_neg hp]
      rcases hP with h | h
      · exact absurd h hp
      · exact h
  have hil : (G.flatten).length = (G.map List.length).sum := by
    rw [List.length_flatten]
  have hwl : (if W = [] then (G.map fun g => List.replicate g.length (1 : Rat)).flatten
      else W.flatten).length = (G.map List.length).sum := by
    by_cases hw : W = []
    · rw [if_pos hw, List.length_flatten, List.map_map]
      congr 1
      apply List.map_congr_left
      intro g _
      simp
    · rw [if_neg hw, List.length_flatten]
      rcases hW with h | h
      · exact absurd h hw
      · congr 1
        apply List.ext_getElem
        · simp [h]
        · intro i h1 h2
          simp only [List.length_map] at h1 h2
          have := hc hw i h2
          simp only [List.getElem_map]
          rw [List.getD_eq_getElem _ _ h1, List.getD_eq_getElem _ _ h2] at this
          exact this
  dsimp only
  rw [hst]
  refine ⟨rfl, rfl, by simp, rfl, ?_, rfl, rfl, rfl, rfl, hPl, ?_⟩
  · rw [List.range_succ, List.map_append, List.map_singleton, List.getLast?_concat,
      List.take_length]
  · unfold BonminInterface.init_mem
    dsimp only
    rw [if_neg (by simp), if_neg (by simp [hPl]), if_neg (by simp),
      if_neg (by simp [hil]), if_neg (by simp [hwl])]
    exact ⟨_, rfl⟩

/-- The entry shift of `init` is the exact difference whenever the difference
is a value of `int`. -/
theorem narrow_int_of_range (v : Int) (h1 : -2147483648 ≤ v) (h2 : v < 2147483648) :
    BonminInterface.narrow_int v = v := by
  unfold BonminInterface.narrow_int
  omega

/-- The groups read by `init` are as many as the groups of the option, each of
the size of its group; their entries are the exact differences when these are
values of `int`. -/
theorem readGroups_shape (start_index : Int) (groups_opt : Option (List (List Int))) :
    (BonminInterface.readGroups start_index groups_opt).length =
        (groups_opt.getD []).length ∧
      (BonminInterface.readGroups start_index groups_opt).map List.length =
        (groups_opt.getD []).map List.length ∧
      ((∀ g ∈ groups_opt.getD [], ∀ e ∈ g,
          -2147483648 ≤ e - start_index ∧ e - start_index < 2147483648) →
        BonminInterface.readGroups start_index groups_opt =
          (groups_opt.getD []).map fun g => g.map fun e => e - start_index) := by
  refine ⟨by simp [BonminInterface.readGroups], ?_, ?_⟩
  · simp only [BonminInterface.readGroups, List.map_map]
    apply List.map_congr_left
    intro g _
    simp
  · intro h
    unfold BonminInterface.readGroups
    apply List.map_congr_left
    intro g hg
    apply List.map_congr_left
    intro e he
    exact narrow_int_of_range _ (h g hg e he).1 (h g hg e he).2

/-- C29 (amended): SOS1 flattening in `BonminInterface::init`.  Let `G` be the
groups of the option `sos1_groups`, each entry shifted by `-start_index` in
`int` arithmetic, `k` their number, `W` the option `sos1_weights` and `P` the
option `sos1_priorities`, an option that is not given being the empty list.
`G` has as many groups as the option, of the same sizes, and its entries are
the exact differences whenever these are values of `int`.  On a newly
constructed object `init` succeeds if and only if `W` is empty or has `k`
entries, `P` is empty or has `k` entries, and, `W` not being empty, every
weight list has the length of its group: an empty list counts as absent,
whether it was given or not.  After a successful `init`: `sos_num_ = k`;
`sos1_starts_` is the list of the `k+1` prefix sums of the group sizes;
`sos_num_nz_` is its last entry, the sum of the group sizes; `sos1_indices_`
is the concatenation of the shifted groups; `sos1_weights_` is the
concatenation of the weight lists, all weights being 1 when `W` is empty;
`sos1_types_` and `sos1_priorities_` have `k` entries; and none of the five
size assertions of `init_mem` fails. -/
theorem init_sos_flattening (start_index : Int) (groups_opt : Option (List (List Int)))
    (weights_opt : Option (List (List Rat))) (priorities_opt : Option (List Int)) :
    ((BonminInterface.readGroups start_index groups_opt).length =
          (groups_opt.getD []).length ∧
        (BonminInterface.readGroups start_index groups_opt).map List.length =
          (groups_opt.getD []).map List.length ∧
        ((∀ g ∈ groups_opt.getD [], ∀ e ∈ g,
            -2147483648 ≤ e - start_index ∧ e - start_index < 2147483648) →
          BonminInterface.readGroups start_index groups_opt =
            (groups_opt.getD []).map fun g => g.map fun e => e - start_index)) ∧
      ((∃ m, BonminInterface.init start_index groups_opt weights_opt priorities_opt .fresh
          = .ok m) ↔
        ((weights_opt.getD [] = [] ∨ (weights_opt.getD []).length =
            (BonminInterface.readGroups start_index groups_opt).length) ∧
          (priorities_opt.getD [] = [] ∨ (priorities_opt.getD []).length =
            (BonminInterface.readGroups start_index groups_opt).length) ∧
          (weights_opt.getD [] ≠ [] →
            ∀ i < (BonminInterface.readGroups start_index groups_opt).length,
              ((weights_opt.getD []).getD i []).length =
                ((BonminInterface.readGroups start_index groups_opt).getD i []).length))) ∧
      ∀ m, BonminInterface.init start_index groups_opt weights_opt priorities_opt .fresh
          = .ok m →
        m.sos_num_ = (BonminInterface.readGroups start_index groups_opt).length ∧
        m.sos1_starts_ =
          ((List.range ((BonminInterface.readGroups start_index groups_opt).length + 1)).map
            fun j => (((BonminInterface.readGroups start_index groups_opt).take j).map
              List.length).sum) ∧
        m.sos1_starts_.length =
          (BonminInterface.readGroups start_index groups_opt).length + 1 ∧
        m.sos_num_nz_ =
          ((BonminInterface.readGroups start_index groups_opt).map List.length).sum ∧
        m.sos1_starts_.getLast? = some m.sos_num_nz_ ∧
        m.sos1_indices_ = (BonminInterface.readGroups start_index groups_opt).flatten ∧
        m.sos1_weights_ =
          (if weights_opt.getD [] = [] then
            ((BonminInterface.readGroups start_index groups_opt).map
              fun g => List.replicate g.length (1 : Rat)).flatten
            else (weights_opt.getD []).flatten) ∧
        m.sos1_types_ =
          List.replicate (BonminInterface.readGroups start_index groups_opt).length 1 ∧
        m.sos1_priorities_ =
          (if priorities_opt.getD [] = [] then
            List.replicate (BonminInterface.readGroups start_index groups_opt).length 1
            else priorities_opt.getD []) ∧
        m.sos1_priorities_.length =
          (BonminInterface.readGroups start_index groups_opt).length ∧
        ∃ info, BonminInterface.init_mem m = .ok info :=
  ⟨readGroups_shape start_index groups_opt,
    init_sos_characterised start_index groups_opt weights_opt priorities_opt⟩

/-- Witness of C29: two groups with the start index 1 and no weights are
flattened and pass the assertions of `init_mem`; a weight list of the wrong
length makes `init` fail. -/
theorem init_sos_flattening_witness :
    (BonminInterface.init 1 (some [[1, 2], [3]]) none none .fresh).toOption =
        some ⟨2, 3, [1, 1], [1, 1], [0, 2, 3], [0, 1, 2], [1, 1, 1]⟩ ∧
      (∃ info, BonminInterface.init_mem
        ⟨2, 3, [1, 1], [1, 1], [0, 2, 3], [0, 1, 2], [1, 1, 1]⟩ = .ok info) ∧
      (BonminInterface.init 1 (some [[1, 2], [3]]) (some [[1, 2], []]) none
        .fresh).toOption = none :=
  ⟨by decide,
    ((init_sos_flattening 1 (some [[1, 2], [3]]) none none).2.2 _ rfl).2.2.2.2.2.2.2.2.2.2,
    by decide⟩

/-- C29, counterexample to the claim as stated: with two groups, a weights
list and a priorities list that are given with the length 0, not 2, do not
make `init` fail: both count as absent.  And the shift is taken in `int`: the
entry `-2147483648` with the start index 1 is stored as `2147483647`, which is
not the difference `-2147483649`. -/
theorem init_sos_flattening_counterexample :
    (BonminInterface.init 0 (some [[1], [2]]) (some []) (some []) .fresh).toOption =
        some ⟨2, 2, [1, 1], [1, 1], [0, 1, 2], [1, 2], [1, 1]⟩ ∧
      ([] : List (List Rat)).length ≠ 2 ∧ ([] : List Int).length ≠ 2 ∧
      (BonminInterface.init 1 (some [[-2147483648]]) none none .fresh).toOption =
        some ⟨1, 1, [1], [1], [0, 1], [2147483647], [1]⟩ ∧
      (-2147483648 : Int) - 1 ≠ 2147483647 := by
  decide

/-! ## Round trip of the bound multipliers -/

/-- A loop that stores `g i` at the index `i` for every `i` below `n`. -/
theorem foldl_update_range {α : Type} (g : Nat → α) (n : Nat) (f : Nat → α) :
    (List.range n).foldl (fun (h : Nat → α) i => Function.update h i (g i)) f =
      fun i => if i < n then g i else f i := by
  induction n with
  | zero => simp
  | succ n ih =>
    rw [List.range_succ, List.foldl_append, ih]
    funext i
    simp only [List.foldl_cons, List.foldl_nil, Function.update]
    by_cases h : i = n
    · subst h
      simp
    · simp only [h, dite_false, eq_rec_constant]
      by_cases h2 : i < n
      · rw [if_pos h2, if_pos (by omega)]
      · rw [if_neg h2, if_neg (by omega)]

/-- A loop that stores into two arrays at once. -/
theorem foldl_update_range_pair {α : Type} (g1 g2 : Nat → α) (n : Nat) (f1 f2 : Nat → α) :
    (List.range n).foldl
        (fun (z : (Nat → α) × (Nat → α)) i =>
          (Function.update z.1 i (g1 i), Function.update z.2 i (g2 i))) (f1, f2) =
      (fun i => if i < n then g1 i else f1 i, fun i => if i < n then g2 i else f2 i) := by
  induction n with
  | zero => simp
  | succ n ih =>
    rw [List.range_succ, List.foldl_append, ih]
    simp only [List.foldl_cons, List.foldl_nil, Prod.mk.injEq]
    constructor <;>
    · funext i
      simp only [Function.update]
      by_cases h : i = n
      · subst h
        simp
      · simp only [h, dite_false, eq_rec_constant]
        by_cases h2 : i < n
        · rw [if_pos h2, if_pos (by omega)]
        · rw [if_neg h2, if_neg (by omega)]

/-- C30: round trip of the bound multipliers.  For every stored multiplier
`lam[i]` of a variable (exact arithmetic), `get_starting_point` with `init_z`
sets `z_L[i] = max(0, -lam[i])` and `z_U[i] = max(0, lam[i])`; both are
non-negative, at most one of them is nonzero and `z_U[i] - z_L[i] = lam[i]`.
On a full callback (a callback function being set) `intermediate_callback`
stores `z_U[i] - z_L[i]` into `lam[i]`, whatever the memory `m2` of the call
held there before; given the two arrays that `get_starting_point` made from
the memory `m`, it therefore stores the original `lam[i]` of `m`. -/
theorem bound_multiplier_round_trip (nx_ ng_ : Nat) (m m2 : BonminInterface.BonminMemory)
    (init_x init_lambda : Bool) (x z_L z_U lambda x2 g lambda2 : Nat → Rat) :
    (∀ i, i < nx_ →
        (BonminInterface.get_starting_point nx_ ng_ m init_x x true z_L z_U init_lambda
            lambda).z_L i = max 0 (-(m.d_nlp.lam i)) ∧
          (BonminInterface.get_starting_point nx_ ng_ m init_x x true z_L z_U init_lambda
            lambda).z_U i = max 0 (m.d_nlp.lam i) ∧
          0 ≤ (BonminInterface.get_starting_point nx_ ng_ m init_x x true z_L z_U
            init_lambda lambda).z_L i ∧
          0 ≤ (BonminInterface.get_starting_point nx_ ng_ m init_x x true z_L z_U
            init_lambda lambda).z_U i ∧
          ((BonminInterface.get_starting_point nx_ ng_ m init_x x true z_L z_U init_lambda
              lambda).z_L i = 0 ∨
            (BonminInterface.get_starting_point nx_ ng_ m init_x x true z_L z_U init_lambda
              lambda).z_U i = 0) ∧
          (BonminInterface.get_starting_point nx_ ng_ m init_x x true z_L z_U init_lambda
              lambda).z_U i -
            (BonminInterface.get_starting_point nx_ ng_ m init_x x true z_L z_U init_lambda
              lambda).z_L i = m.d_nlp.lam i) ∧
      (m2.has_callback_timer = true → ∀ i, i < nx_ →
        (∀ zL zU : Nat → Rat,
          (BonminInterface.intermediate_callback nx_ ng_ false m2 x2 zL zU g lambda2
            true).d_nlp.lam i = zU i - zL i) ∧
        (BonminInterface.intermediate_callback nx_ ng_ false m2 x2
            (BonminInterface.get_starting_point nx_ ng_ m init_x x true z_L z_U init_lambda
              lambda).z_L
            (BonminInterface.get_starting_point nx_ ng_ m init_x x true z_L z_U init_lambda
              lambda).z_U
            g lambda2 true).d_nlp.lam i = m.d_nlp.lam i) := by
  have hL : ∀ i, i < nx_ →
      (BonminInterface.get_starting_point nx_ ng_ m init_x x true z_L z_U init_lambda
        lambda).z_L i = BonminInterface.std_max 0 (-(m.d_nlp.lam i)) := by
    intro i hi
    simp only [BonminInterface.get_starting_point, if_true, foldl_update_range_pair, if_pos hi]
  have hU : ∀ i, i < nx_ →
      (BonminInterface.get_starting_point nx_ ng_ m init_x x true z_L z_U init_lambda
        lambda).z_U i = BonminInterface.std_max 0 (m.d_nlp.lam i) := by
    intro i hi
    simp only [BonminInterface.get_starting_point, if_true, foldl_update_range_pair, if_pos hi]
  have hmax : ∀ a b : Rat, BonminInterface.std_max a b = max a b := by
    intro a b
    unfold BonminInterface.std_max
    by_cases h : a < b
    · rw [if_pos h, max_eq_right (le_of_lt h)]
    · rw [if_neg h, max_eq_left (le_of_not_lt h)]
  have hsplit : ∀ v : Rat, 0 ≤ max 0 (-v) ∧ 0 ≤ max 0 v ∧ (max 0 (-v) = 0 ∨ max 0 v = 0) ∧
      max 0 v - max 0 (-v) = v := by
    intro v
    rcases le_total 0 v with h | h
    · rw [max_eq_left (by linarith : -v ≤ 0), max_eq_right h]
      exact ⟨le_refl _, h, Or.inl rfl, by ring⟩
    · rw [max_eq_right (by linarith : 0 ≤ -v), max_eq_left h]
      exact ⟨by linarith, le_refl _, Or.inr rfl, by ring⟩
  have hcb : ∀ (zL zU : Nat → Rat) i, m2.has_callback_timer = true → i < nx_ →
      (BonminInterface.intermediate_callback nx_ ng_ false m2 x2 zL zU g lambda2
        true).d_nlp.lam i = zU i - zL i := by
    intro zL zU i ht hi
    simp only [BonminInterface.intermediate_callback, Bool.not_false, if_true, ht,
      foldl_update_range, BonminInterface.storeAt]
    rw [if_neg (by omega), if_pos hi]
  constructor
  · intro i hi
    rw [hL i hi, hU i hi, hmax, hmax]
    obtain ⟨h1, h2, h3, h4⟩ := hsplit (m.d_nlp.lam i)
    exact ⟨rfl, rfl, h1, h2, h3, h4⟩
  · intro ht i hi
    refine ⟨fun zL zU => hcb zL zU i ht hi, ?_⟩
    rw [hcb _ _ i ht hi, hL i hi, hU i hi, hmax, hmax]
    exact (hsplit (m.d_nlp.lam i)).2.2.2

/-- Witness of C30: the multiplier -3 is split into `z_L = 3`, `z_U = 0`, and
a callback on a memory that holds the multiplier 7 stores -3 there. -/
theorem bound_multiplier_round_trip_witness :
    (BonminInterface.get_starting_point 2 0 BonminInterface.exMemory false (fun _ => 0) true
        (fun _ => 0) (fun _ => 0) false (fun _ => 0)).z_L 0 = 3 ∧
      (BonminInterface.get_starting_point 2 0 BonminInterface.exMemory false (fun _ => 0) true
        (fun _ => 0) (fun _ => 0) false (fun _ => 0)).z_U 0 = 0 ∧
      BonminInterface.exLater.d_nlp.lam 0 = 7 ∧
      (BonminInterface.intermediate_callback 2 0 false BonminInterface.exLater (fun _ => 0)
        (BonminInterface.get_starting_point 2 0 BonminInterface.exMemory false (fun _ => 0)
          true (fun _ => 0) (fun _ => 0) false (fun _ => 0)).z_L
        (BonminInterface.get_starting_point 2 0 BonminInterface.exMemory false (fun _ => 0)
          true (fun _ => 0) (fun _ => 0) false (fun _ => 0)).z_U
        (fun _ => 0) (fun _ => 0) true).d_nlp.lam 0 = -3 :=
  ⟨by decide, by decide, rfl,
    ((bound_multiplier_round_trip 2 0 BonminInterface.exMemory BonminInterface.exLater false
      false (fun _ => 0) (fun _ => 0) (fun _ => 0) (fun _ => 0) (fun _ => 0) (fun _ => 0)
      (fun _ => 0)).2 rfl 0 (by decide)).2⟩

/-! ## The memory operations of the destructor -/

theorem Heap.incr_decr (h : Heap) (x : Nat) : (h.incr x).decr x = h := by
  funext b
  by_cases hb : b = x
  · subst hb
    cases hx : h b <;> simp [Heap.incr, Heap.decr, hx]
  · simp [Heap.incr, Heap.decr, hb]

theorem Heap.incr_ne (h : Heap) (x b : Nat) (hb : b ≠ x) : (h.incr x) b = h b := by
  simp [Heap.incr, hb]

theorem Heap.decr_ne (h : Heap) (x b : Nat) (hb : b ≠ x) : (h.decr x) b = h b := by
  simp [Heap.decr, hb]

theorem Heap.setNull_ne (h : Heap) (t i b : Nat) (hb : b ≠ t) : (h.setNull t i) b = h b := by
  simp [Heap.setNull, hb]

theorem Heap.free_ne (h : Heap) (x b : Nat) (hb : b ≠ x) : (h.free x) b = h b := by
  simp [Heap.free, hb]

theorem Heap.free_self (h : Heap) (x : Nat) : (h.free x) x = none := by
  simp [Heap.free]

theorem Heap.slot_incr (h : Heap) (x t j : Nat) : (h.incr x).slot t j = h.slot t j := by
  unfold Heap.slot Heap.incr
  by_cases ht : t = x
  · subst ht
    cases hx : h t <;> simp [hx]
  · simp [ht]

theorem Heap.slot_decr (h : Heap) (x t j : Nat) : (h.decr x).slot t j = h.slot t j := by
  unfold Heap.slot Heap.decr
  by_cases ht : t = x
  · subst ht
    cases hx : h t <;> simp [hx]
  · simp [ht]

theorem Heap.slot_setNull (h : Heap) (t i u j : Nat) :
    (h.setNull t i).slot u j = if u = t ∧ j = i then none else h.slot u j := by
  unfold Heap.slot Heap.setNull
  by_cases hu : u = t
  · subst hu
    cases hx : h u with
    | none => simp [hx]
    | some c =>
      simp only [hx, if_true, Option.map_some', true_and]
      by_cases hj : j = i
      · subst hj
        rw [if_pos rfl]
        simp only [List.getD_eq_getElem?_getD, List.getElem?_set, if_true]
        split <;> rfl
      · rw [if_neg hj]
        simp only [List.getD_eq_getElem?_getD]
        rw [List.getElem?_set_ne (fun e => hj e.symm)]
  · simp [hu]

theorem Heap.slot_free (h : Heap) (x u j : Nat) :
    (h.free x).slot u j = if u = x then none else h.slot u j := by
  unfold Heap.slot Heap.free
  by_cases hu : u = x <;> simp [hu]

theorem Heap.ndep_incr (h : Heap) (x t : Nat) : (h.incr x).ndep t = h.ndep t := by
  unfold Heap.ndep Heap.incr
  by_cases ht : t = x
  · subst ht
    cases hx : h t <;> simp [hx]
  · simp [ht]

theorem Heap.ndep_decr (h : Heap) (x t : Nat) : (h.decr x).ndep t = h.ndep t := by
  unfold Heap.ndep Heap.decr
  by_cases ht : t = x
  · subst ht
    cases hx : h t <;> simp [hx]
  · simp [ht]

theorem Heap.ndep_setNull (h : Heap) (t i u : Nat) : (h.setNull t i).ndep u = h.ndep u := by
  unfold Heap.ndep Heap.setNull
  by_cases hu : u = t
  · subst hu
    cases hx : h u <;> simp [hx]
  · simp [hu]

theorem Heap.getCount_setNull (h : Heap) (t i x : Nat) :
    (h.setNull t i).getCount x = h.getCount x := by
  unfold Heap.getCount Heap.setNull
  by_cases hx : x = t
  · subst hx
    cases hc : h x <;> simp [hc]
  · simp [hx]

theorem Heap.getCount_decr (h : Heap) (x y : Nat) :
    (h.decr x).getCount y = if y = x then h.getCount x - 1 else h.getCount y := by
  unfold Heap.getCount Heap.decr
  by_cases hy : y = x
  · subst hy
    cases hc : h y <;> simp [hc]
  · simp [hy]

theorem Heap.getCount_incr (h : Heap) (x y : Nat) :
    (h.incr x).getCount y =
      if y = x ∧ (h x).isSome = true then h.getCount x + 1 else h.getCount y := by
  unfold Heap.getCount Heap.incr
  by_cases hy : y = x
  · subst hy
    cases hc : h y <;> simp [hc]
  · simp [hy]

/-- A node with a positive count is live. -/
theorem Heap.isSome_of_getCount (h : Heap) (x : Nat) (hc : 0 < h.getCount x) :
    (h x).isSome = true := by
  unfold Heap.getCount at hc
  cases hx : h x
  · simp [hx] at hc
  · rfl

/-- A slot beyond the dependency vector is null. -/
theorem Heap.slot_of_ndep_le (h : Heap) (t j : Nat) (hj : h.ndep t ≤ j) :
    h.slot t j = none := by
  unfold Heap.slot
  unfold Heap.ndep at hj
  cases hx : h t with
  | none => rfl
  | some c =>
    simp only [hx] at hj
    simp only [List.getD_eq_getElem?_getD]
    rw [List.getElem?_eq_none hj]
    rfl

/-- The dependency vector of a node lists its slots. -/
theorem Heap.deps_getD (h : Heap) (t j : Nat) : (h.deps t).getD j none = h.slot t j := by
  unfold Heap.deps Heap.slot
  cases h t <;> rfl

theorem Heap.deps_length (h : Heap) (t : Nat) : (h.deps t).length = h.ndep t := by
  unfold Heap.deps Heap.ndep
  cases h t <;> rfl

theorem Acyclic.incr {rk : Nat → Nat} {h : Heap} (ha : Acyclic rk h) (x : Nat) :
    Acyclic rk (h.incr x) := by
  intro a i c hs
  rw [Heap.slot_incr] at hs
  exact ha a i c hs

theorem Acyclic.decr {rk : Nat → Nat} {h : Heap} (ha : Acyclic rk h) (x : Nat) :
    Acyclic rk (h.decr x) := by
  intro a i c hs
  rw [Heap.slot_decr] at hs
  exact ha a i c hs

theorem Acyclic.setNull {rk : Nat → Nat} {h : Heap} (ha : Acyclic rk h) (t i : Nat) :
    Acyclic rk (h.setNull t i) := by
  intro a j c hs
  rw [Heap.slot_setNull] at hs
  split at hs
  · cases hs
  · exact ha a j c hs

theorem Acyclic.free {rk : Nat → Nat} {h : Heap} (ha : Acyclic rk h) (x : Nat) :
    Acyclic rk (h.free x) := by
  intro a j c hs
  rw [Heap.slot_free] at hs
  split at hs
  · cases hs
  · exact ha a j c hs

/-! ## One iteration of the deletion loop -/

/-- An iteration of the deletion loop is the scan of all the slots of the top
element, of which the local handle was taken. -/
theorem processStack_succ (nested : Heap → Nat → Option Heap) (fuel : Nat) (h : Heap)
    (t : Nat) (rest : List Nat) :
    processStack nested (fuel + 1) h (t :: rest) =
      processTop nested fuel t (List.range ((h.incr t).ndep t)) (h.incr t) rest := by
  simp only [processStack, processTop]

theorem processTop_null (nested : Heap → Nat → Option Heap) (fuel t i : Nat) (L : List Nat)
    (h1 : Heap) (rest : List Nat) (hs : h1.slot t i = none) :
    processTop nested fuel t (i :: L) h1 rest = processTop nested fuel t L h1 rest := by
  simp only [processTop, scanDeps, hs]

theorem processTop_shared (nested : Heap → Nat → Option Heap) (fuel t i x : Nat)
    (L : List Nat) (h1 : Heap) (rest : List Nat) (hs : h1.slot t i = some x)
    (hc : h1.getCount x ≠ 1) :
    processTop nested fuel t (i :: L) h1 rest =
      processTop nested fuel t L ((h1.setNull t i).decr x) rest := by
  simp only [processTop, scanDeps, hs, if_neg hc]

theorem processTop_unique (nested : Heap → Nat → Option Heap) (fuel t i x : Nat)
    (L : List Nat) (h1 h3 : Heap) (rest : List Nat) (hs : h1.slot t i = some x)
    (hc : h1.getCount x = 1)
    (hr : release nested (((h1.incr x).setNull t i).decr x) t = some h3) :
    processTop nested fuel t (i :: L) h1 rest =
      processStack nested fuel h3 (x :: t :: rest) := by
  simp only [processTop, scanDeps, hs, if_pos hc, hr]

/-- Slots that are null are passed over by the scan. -/
theorem processTop_skip (nested : Heap → Nat → Option Heap) (fuel t : Nat) (h1 : Heap)
    (rest : List Nat) (L : List Nat) :
    ∀ (m s : Nat), (∀ j, s ≤ j → j < s + m → h1.slot t j = none) →
      processTop nested fuel t (List.range' s m ++ L) h1 rest =
        processTop nested fuel t L h1 rest := by
  intro m
  induction m with
  | zero =>
    intro s _
    rfl
  | succ m ih =>
    intro s hs
    rw [List.range'_succ, List.cons_append,
      processTop_null _ _ _ _ _ _ _ (hs s (le_refl _) (by omega))]
    exact ih (s + 1) (fun j h1 h2 => hs j (by omega) (by omega))

/-- The top element is popped: with two owners left (the stack and the local
handle) and every slot null it is destroyed, its destructor finds nothing to
process, and its memory is given back. -/
theorem processTop_pop (nested : Heap → Nat → Option Heap) (hN : NullSafe nested)
    (fuel t : Nat) (h1 : Heap) (rest : List Nat) (hc : h1.getCount t = 2)
    (hs : ∀ j, h1.slot t j = none) :
    processTop nested fuel t [] h1 rest = processStack nested fuel (h1.free t) rest := by
  have r1 : release nested h1 t = some (h1.decr t) := by
    unfold release
    rw [hc, if_neg (by decide)]
  have c2 : (h1.decr t).getCount t = 1 := by
    rw [Heap.getCount_decr, if_pos rfl, hc]
  have n2 : nested ((h1.decr t).decr t) t = some ((h1.decr t).decr t) := by
    apply hN
    intro j
    rw [Heap.slot_decr, Heap.slot_decr]
    exact hs j
  have e : ((h1.decr t).decr t).free t = h1.free t := by
    funext b
    by_cases hb : b = t
    · subst hb
      simp [Heap.free]
    · simp [Heap.free, Heap.decr, hb]
  have r2 : release nested (h1.decr t) t = some (h1.free t) := by
    unfold release
    rw [c2, if_pos rfl, n2]
    simp [e]
  simp only [processTop, scanDeps, r1, r2]

/-- The outer loop of the destructor finds nothing to process on slots that
are all null. -/
theorem destroyDeps_null (nested : Heap → Nat → Option Heap) (fuel a : Nat) (h : Heap)
    (hs : ∀ j, h.slot a j = none) :
    ∀ L : List Nat, destroyDeps nested fuel a L h = some h := by
  intro L
  induction L with
  | nil => rfl
  | cons i L ih => simp only [destroyDeps, hs i, ih]

/-- The destructor finds nothing to process on a node whose slots are all
null, whatever the depth of calls left. -/
theorem dtor_nullSafe (d fuel : Nat) : NullSafe (dtor (d + 1) fuel) := by
  intro h a hs
  simp only [dtor]
  exact destroyDeps_null _ _ _ _ hs _

/-! ## The deletion loop follows the naive release -/

theorem Heap.slot_congr {h h2 : Heap} {c : Nat} (e : h c = h2 c) (j : Nat) :
    h.slot c j = h2.slot c j := by
  unfold Heap.slot
  rw [e]

theorem Heap.ndep_congr {h h2 : Heap} {c : Nat} (e : h c = h2 c) :
    h.ndep c = h2.ndep c := by
  unfold Heap.ndep
  rw [e]

theorem Heap.getCount_congr {h h2 : Heap} {c : Nat} (e : h c = h2 c) :
    h.getCount c = h2.getCount c := by
  unfold Heap.getCount
  rw [e]

theorem Heap.deps_congr {h h2 : Heap} {c : Nat} (e : h c = h2 c) :
    h.deps c = h2.deps c := by
  unfold Heap.deps
  rw [e]

theorem Heap.decr_congr {h h2 : Heap} {c : Nat} (e : h c = h2 c) (x : Nat) :
    (h.decr x) c = (h2.decr x) c := by
  unfold Heap.decr
  rw [e]

/-- Pushing a child: its count and its cell are as before. -/
theorem Heap.push_ne (h : Heap) (x t i b : Nat) (hb : b ≠ t) :
    (((h.incr x).setNull t i).decr x) b = h b := by
  have e := congrFun (Heap.incr_decr h x) b
  by_cases hx : b = x
  · subst hx
    simp only [Heap.decr, if_true, Heap.setNull, if_neg hb] at e ⊢
    exact e
  · rw [Heap.decr_ne _ _ _ hx, Heap.setNull_ne _ _ _ _ hb, Heap.incr_ne _ _ _ hx]

/-- The scan of the slots of the top element `c` from the slot `i` on follows
the naive release of the handles in these slots. -/
theorem sim_inner (rk : Nat → Nat) (d : Nat) (ihd : FollowsNaive rk d) (S : List Nat)
    (c : Nat) (hS : ∀ s ∈ S, rk c < rk s) :
    ∀ (vs : List (Option Nat)) (i : Nat) (h1 hn1 hn2 : Heap),
      Acyclic rk h1 → (∀ b, b ≠ c → b ∉ S → h1 b = hn1 b) → h1.getCount c = 2 →
      (∀ j, j < i → h1.slot c j = none) →
      (∀ j, h1.slot c (i + j) = vs.getD j none) → h1.ndep c = i + vs.length →
      naiveList (release (naiveDtor d)) vs hn1 = some hn2 →
      ∃ (k : Nat) (h2 : Heap),
        (∀ nested, NullSafe nested → ∀ (fuel : Nat) (rest : List Nat),
          processTop nested (fuel + k) c (List.range' i vs.length) h1 rest =
            processStack nested fuel h2 rest) ∧
        (∀ b, b ≠ c → b ∉ S → h2 b = hn2 b) ∧ h2 c = none ∧
        (∀ s ∈ S, h2 s = h1 s) ∧ Acyclic rk h2 := by
  have hcS : c ∉ S := fun hm => absurd (hS c hm) (lt_irrefl _)
  intro vs
  induction vs with
  | nil =>
    intro i h1 hn1 hn2 hac hag hcount hlow hsl _ hnl
    simp only [naiveList, Option.some.injEq] at hnl
    subst hnl
    have hnull : ∀ j, h1.slot c j = none := by
      intro j
      by_cases hj : j < i
      · exact hlow j hj
      · have := hsl (j - i)
        rw [show i + (j - i) = j by omega] at this
        rw [this]
        rfl
    refine ⟨0, h1.free c, ?_, ?_, Heap.free_self _ _, ?_, hac.free c⟩
    · intro nested hN fuel rest
      exact processTop_pop nested hN _ c h1 rest hcount hnull
    · intro b hb hbS
      rw [Heap.free_ne _ _ _ hb]
      exact hag b hb hbS
    · intro s hs
      exact Heap.free_ne _ _ _ (fun e => hcS (e ▸ hs))
  | cons v vs ih =>
    intro i h1 hn1 hn2 hac hag hcount hlow hsl hnd hnl
    have hv : h1.slot c i = v := by
      have := hsl 0
      simpa using this
    have hsl2 : ∀ j, h1.slot c (i + 1 + j) = vs.getD j none := by
      intro j
      have := hsl (j + 1)
      rw [show i + (j + 1) = i + 1 + j by omega] at this
      rw [this]
      rfl
    have hnd2 : h1.ndep c = i + 1 + vs.length := by
      rw [hnd, List.length_cons]
      omega
    rw [List.length_cons, List.range'_succ]
    cases v with
    | none =>
      simp only [naiveList] at hnl
      obtain ⟨k, h2, e1, e2, e3, e4, e5⟩ := ih (i + 1) h1 hn1 hn2 hac hag hcount
        (fun j hj => by
          by_cases hji : j = i
          · rw [hji]; exact hv
          · exact hlow j (by omega))
        hsl2 hnd2 hnl
      refine ⟨k, h2, ?_, e2, e3, e4, e5⟩
      intro nested hN fuel rest
      rw [processTop_null _ _ _ _ _ _ _ hv]
      exact e1 nested hN fuel rest
    | some x =>
      have hrx : rk x < rk c := hac c i x hv
      have hxc : x ≠ c := fun e => by rw [e] at hrx; exact lt_irrefl _ hrx
      have hxS : x ∉ S := fun hm => by
        have := hS x hm
        omega
      have hxe : h1 x = hn1 x := hag x hxc hxS
      simp only [naiveList] at hnl
      cases hrel : release (naiveDtor d) hn1 x with
      | none => simp [hrel] at hnl
      | some hx =>
        simp only [hrel] at hnl
        by_cases hc1 : h1.getCount x = 1
        · -- the child has no other owner: it is pushed and destroyed first
          have hpe : ∀ b, b ≠ c →
              ((((h1.incr x).setNull c i).decr x).decr c) b = h1 b := by
            intro b hb
            rw [Heap.decr_ne _ _ _ hb]
            exact Heap.push_ne h1 x c i b hb
          have hc2 : (((h1.incr x).setNull c i).decr x).getCount c = 2 := by
            rw [Heap.getCount_decr, if_neg (Ne.symm hxc), Heap.getCount_setNull,
              Heap.getCount_incr, if_neg (fun e => hxc e.1.symm)]
            exact hcount
          have hr3 : ∀ nested, release nested (((h1.incr x).setNull c i).decr x) c =
              some ((((h1.incr x).setNull c i).decr x).decr c) := by
            intro nested
            unfold release
            rw [hc2, if_neg (by decide)]
          obtain ⟨k1, h4, f1, f2, f3, f4⟩ := ihd (c :: S) x
            ((((h1.incr x).setNull c i).decr x).decr c) hn1 hx
            ((((hac.incr x).setNull c i).decr x).decr c)
            (fun s hs => by
              rcases List.mem_cons.mp hs with e | e
              · rw [e]; exact hrx
              · exact lt_trans hrx (hS s e))
            (fun b hb => by
              have hbc : b ≠ c := fun e => hb (e ▸ List.mem_cons_self _ _)
              have hbS : b ∉ S := fun e => hb (List.mem_cons_of_mem _ e)
              rw [hpe b hbc]
              exact hag b hbc hbS)
            (by rw [Heap.getCount_congr (hpe x hxc)]; exact hc1)
            hrel
          have h4c : h4 c = ((((h1.incr x).setNull c i).decr x).decr c) c :=
            f3 c (List.mem_cons_self _ _)
          have hs4 : ∀ j, (h4.incr c).slot c j = if j = i then none else h1.slot c j := by
            intro j
            rw [Heap.slot_incr, Heap.slot_congr h4c, Heap.slot_decr, Heap.slot_decr,
              Heap.slot_setNull, Heap.slot_incr]
            simp
          have hn4 : (h4.incr c).ndep c = h1.ndep c := by
            rw [Heap.ndep_incr, Heap.ndep_congr h4c, Heap.ndep_decr, Heap.ndep_decr,
              Heap.ndep_setNull, Heap.ndep_incr]
          have hc4 : h4.getCount c = 1 := by
            rw [Heap.getCount_congr h4c, Heap.getCount_decr, if_pos rfl, hc2]
          have hc5 : (h4.incr c).getCount c = 2 := by
            rw [Heap.getCount_incr,
              if_pos ⟨rfl, Heap.isSome_of_getCount _ _ (by rw [hc4]; decide)⟩, hc4]
          obtain ⟨k2, h2, e1, e2, e3, e4, e5⟩ := ih (i + 1) (h4.incr c) hx hn2 (f4.incr c)
            (fun b hb hbS => by
              rw [Heap.incr_ne _ _ _ hb]
              exact f2 b (fun hm => by
                rcases List.mem_cons.mp hm with e | e
                · exact hb e
                · exact hbS e))
            hc5
            (fun j hj => by
              rw [hs4]
              by_cases hji : j = i
              · rw [if_pos hji]
              · rw [if_neg hji]
                exact hlow j (by omega))
            (fun j => by
              rw [hs4, if_neg (by omega)]
              exact hsl2 j)
            (by rw [hn4]; exact hnd2)
            hnl
          have hsplit : List.range' 0 (i + 1 + vs.length) =
              List.range' 0 (i + 1) ++ List.range' (i + 1) vs.length := by
            have := List.range'_append_1 0 (i + 1) vs.length
            rw [Nat.zero_add, Nat.add_comm vs.length] at this
            exact this.symm
          refine ⟨k2 + 1 + k1, h2, ?_, e2, e3, ?_, e5⟩
          · intro nested hN fuel rest
            rw [processTop_unique nested _ c i x _ h1 _ rest hv hc1 (hr3 nested),
              show fuel + (k2 + 1 + k1) = (fuel + k2 + 1) + k1 by omega,
              f1 nested hN (fuel + k2 + 1) (c :: rest), processStack_succ, hn4, hnd2,
              List.range_eq_range', hsplit,
              processTop_skip nested _ c _ rest _ (i + 1) 0
                (fun j _ hj => by
                  rw [hs4]
                  by_cases hji : j = i
                  · rw [if_pos hji]
                  · rw [if_neg hji]
                    exact hlow j (by omega))]
            exact e1 nested hN fuel rest
          · intro s hs
            have hsc : s ≠ c := fun e => hcS (e ▸ hs)
            rw [e4 s hs, Heap.incr_ne _ _ _ hsc, f3 s (List.mem_cons_of_mem _ hs)]
            exact hpe s hsc
        · -- the child has other owners: the slot is cleared
          have hcn : hn1.getCount x ≠ 1 := by
            rw [← Heap.getCount_congr hxe]
            exact hc1
          have hxr : hx = hn1.decr x := by
            unfold release at hrel
            rw [if_neg hcn] at hrel
            exact (Option.some.inj hrel).symm
          subst hxr
          obtain ⟨k, h2, e1, e2, e3, e4, e5⟩ := ih (i + 1) ((h1.setNull c i).decr x)
            (hn1.decr x) hn2 ((hac.setNull c i).decr x)
            (fun b hb hbS => by
              by_cases hbx : b = x
              · rw [hbx]
                have : (h1.setNull c i) x = hn1 x := by
                  rw [Heap.setNull_ne _ _ _ _ hxc]
                  exact hxe
                exact Heap.decr_congr this x
              · rw [Heap.decr_ne _ _ _ hbx, Heap.decr_ne _ _ _ hbx,
                  Heap.setNull_ne _ _ _ _ hb]
                exact hag b hb hbS)
            (by rw [Heap.getCount_decr, if_neg (Ne.symm hxc), Heap.getCount_setNull]
                exact hcount)
            (fun j hj => by
              rw [Heap.slot_decr, Heap.slot_setNull]
              by_cases hji : j = i
              · rw [if_pos ⟨rfl, hji⟩]
              · rw [if_neg (fun e => hji e.2)]
                exact hlow j (by omega))
            (fun j => by
              rw [Heap.slot_decr, Heap.slot_setNull, if_neg (fun e => by omega)]
              exact hsl2 j)
            (by rw [Heap.ndep_decr, Heap.ndep_setNull]; exact hnd2)
            hnl
          refine ⟨k, h2, ?_, e2, e3, ?_, e5⟩
          · intro nested hN fuel rest
            rw [processTop_shared _ _ _ _ _ _ _ _ hv hc1]
            exact e1 nested hN fuel rest
          · intro s hs
            have hsc : s ≠ c := fun e => hcS (e ▸ hs)
            have hsx : s ≠ x := fun e => hxS (e ▸ hs)
            rw [e4 s hs, Heap.decr_ne _ _ _ hsx, Heap.setNull_ne _ _ _ _ hsc]


/-- The deletion loop follows the naive release of every depth. -/
theorem followsNaive (rk : Nat → Nat) : ∀ d, FollowsNaive rk d := by
  intro d
  induction d with
  | zero =>
    intro S c h hn hn2 _ hS hag hcount hrel
    have hcS : c ∉ S := fun hm => absurd (hS c hm) (lt_irrefl _)
    have hcn : hn.getCount c = 1 := by
      rw [← Heap.getCount_congr (hag c hcS)]
      exact hcount
    unfold release at hrel
    rw [if_pos hcn] at hrel
    simp [naiveDtor] at hrel
  | succ d ihd =>
    intro S c h hn hn2 hac hS hag hcount hrel
    have hcS : c ∉ S := fun hm => absurd (hS c hm) (lt_irrefl _)
    have hce : h c = hn c := hag c hcS
    have hcn : hn.getCount c = 1 := by
      rw [← Heap.getCount_congr hce]
      exact hcount
    unfold release at hrel
    rw [if_pos hcn] at hrel
    simp only [naiveDtor] at hrel
    cases hnl : naiveList (release (naiveDtor d)) ((hn.decr c).deps c) (hn.decr c) with
    | none => simp [hnl] at hrel
    | some hn3 =>
      simp only [hnl, Option.map_some', Option.some.injEq] at hrel
      have hdeps : (hn.decr c).deps c = h.deps c := by
        unfold Heap.deps Heap.decr
        rw [← hce]
        cases h c <;> simp
      rw [hdeps] at hnl
      obtain ⟨k, h2, e1, e2, e3, e4, e5⟩ := sim_inner rk d ihd S c hS (h.deps c) 0
        (h.incr c) (hn.decr c) hn3 (hac.incr c)
        (fun b hb hbS => by
          rw [Heap.incr_ne _ _ _ hb, Heap.decr_ne _ _ _ hb]
          exact hag b hbS)
        (by rw [Heap.getCount_incr,
              if_pos ⟨rfl, Heap.isSome_of_getCount _ _ (by rw [hcount]; decide)⟩, hcount])
        (fun j hj => absurd hj (Nat.not_lt_zero _))
        (fun j => by rw [Nat.zero_add, Heap.slot_incr, Heap.deps_getD])
        (by rw [Nat.zero_add, Heap.ndep_incr, Heap.deps_length])
        hnl
      refine ⟨k + 1, h2, ?_, ?_, ?_, e5⟩
      · intro nested hN fuel rest
        rw [show fuel + (k + 1) = (fuel + k) + 1 by omega, processStack_succ,
          Heap.ndep_incr, ← Heap.deps_length, List.range_eq_range']
        exact e1 nested hN fuel rest
      · intro b hbS
        rw [← hrel]
        by_cases hb : b = c
        · rw [hb, e3, Heap.free_self]
        · rw [Heap.free_ne _ _ _ hb]
          exact e2 b hb hbS
      · intro s hs
        rw [e4 s hs]
        exact Heap.incr_ne _ _ _ (fun e => hcS (e ▸ hs))

/-- The outer loop of the destructor of the node `a` from the slot `i` on
follows the naive release of the handles in these slots. -/
theorem sim_outer (rk : Nat → Nat) (d a : Nat) :
    ∀ (vs : List (Option Nat)) (i : Nat) (h hn hn2 : Heap),
      Acyclic rk h → (∀ b, b ≠ a → h b = hn b) →
      (∀ j, h.slot a (i + j) = vs.getD j none) →
      naiveList (release (naiveDtor d)) vs hn = some hn2 →
      ∃ (F : Nat) (h2 : Heap),
        (∀ nested, NullSafe nested → ∀ fuel, F ≤ fuel →
          destroyDeps nested fuel a (List.range' i vs.length) h = some h2) ∧
        (∀ b, b ≠ a → h2 b = hn2 b) ∧ Acyclic rk h2 := by
  intro vs
  induction vs with
  | nil =>
    intro i h hn hn2 hac hag _ hnl
    simp only [naiveList, Option.some.injEq] at hnl
    subst hnl
    exact ⟨0, h, fun _ _ _ _ => rfl, hag, hac⟩
  | cons v vs ih =>
    intro i h hn hn2 hac hag hsl hnl
    have hv : h.slot a i = v := by
      have := hsl 0
      simpa using this
    have hsl2 : ∀ j, h.slot a (i + 1 + j) = vs.getD j none := by
      intro j
      have := hsl (j + 1)
      rw [show i + (j + 1) = i + 1 + j by omega] at this
      rw [this]
      rfl
    rw [List.length_cons, List.range'_succ]
    cases v with
    | none =>
      simp only [naiveList] at hnl
      obtain ⟨F, h2, e1, e2, e3⟩ := ih (i + 1) h hn hn2 hac hag hsl2 hnl
      refine ⟨F, h2, ?_, e2, e3⟩
      intro nested hN fuel hF
      simp only [destroyDeps, hv]
      exact e1 nested hN fuel hF
    | some x =>
      have hrx : rk x < rk a := hac a i x hv
      have hxa : x ≠ a := fun e => by rw [e] at hrx; exact lt_irrefl _ hrx
      have hxe : h x = hn x := hag x hxa
      simp only [naiveList] at hnl
      cases hrel : release (naiveDtor d) hn x with
      | none => simp [hrel] at hnl
      | some hx =>
        simp only [hrel] at hnl
        by_cases hc1 : h.getCount x = 1
        · -- the child has no other owner: the deletion loop destroys it
          have hpe : ∀ b, b ≠ a → (((h.incr x).setNull a i).decr x) b = h b :=
            fun b hb => Heap.push_ne h x a i b hb
          obtain ⟨k1, h4, f1, f2, f3, f4⟩ := followsNaive rk d [a] x
            (((h.incr x).setNull a i).decr x) hn hx
            (((hac.incr x).setNull a i).decr x)
            (fun s hs => by
              rw [List.mem_singleton.mp hs]
              exact hrx)
            (fun b hb => by
              have hba : b ≠ a := fun e => hb (e ▸ List.mem_singleton_self _)
              rw [hpe b hba]
              exact hag b hba)
            (by rw [Heap.getCount_congr (hpe x hxa)]; exact hc1)
            hrel
          have h4a : h4 a = (((h.incr x).setNull a i).decr x) a :=
            f3 a (List.mem_singleton_self _)
          obtain ⟨F, h2, e1, e2, e3⟩ := ih (i + 1) h4 hx hn2 f4
            (fun b hb => f2 b (fun hm => hb (List.mem_singleton.mp hm)))
            (fun j => by
              rw [Heap.slot_congr h4a, Heap.slot_decr, Heap.slot_setNull, Heap.slot_incr,
                if_neg (fun e => by omega)]
              exact hsl2 j)
            hnl
          refine ⟨max k1 F, h2, ?_, e2, e3⟩
          intro nested hN fuel hF
          have hk : fuel = (fuel - k1) + k1 := by omega
          have hp : processStack nested fuel (((h.incr x).setNull a i).decr x) [x] =
              some h4 := by
            rw [hk, f1 nested hN (fuel - k1) []]
            cases fuel - k1 <;> rfl
          simp only [destroyDeps, hv, hc1, ne_eq, not_true_eq_false, if_false, hp]
          exact e1 nested hN fuel (by omega)
        · -- the child has other owners: the slot is cleared
          have hcn : hn.getCount x ≠ 1 := by
            rw [← Heap.getCount_congr hxe]
            exact hc1
          have hxr : hx = hn.decr x := by
            unfold release at hrel
            rw [if_neg hcn] at hrel
            exact (Option.some.inj hrel).symm
          subst hxr
          obtain ⟨F, h2, e1, e2, e3⟩ := ih (i + 1) ((h.setNull a i).decr x) (hn.decr x) hn2
            ((hac.setNull a i).decr x)
            (fun b hb => by
              by_cases hbx : b = x
              · rw [hbx]
                have : (h.setNull a i) x = hn x := by
                  rw [Heap.setNull_ne _ _ _ _ hxa]
                  exact hxe
                exact Heap.decr_congr this x
              · rw [Heap.decr_ne _ _ _ hbx, Heap.decr_ne _ _ _ hbx,
                  Heap.setNull_ne _ _ _ _ hb]
                exact hag b hb)
            (fun j => by
              rw [Heap.slot_decr, Heap.slot_setNull, if_neg (fun e => by omega)]
              exact hsl2 j)
            hnl
          refine ⟨F, h2, ?_, e2, e3⟩
          intro nested hN fuel hF
          simp only [destroyDeps, hv, ne_eq, hc1, not_false_eq_true, if_true]
          exact e1 nested hN fuel hF

/-- On an acyclic graph the naive release terminates: a depth above the rank
of the node suffices. -/
theorem naive_terminates (rk : Nat → Nat) :
    ∀ (d : Nat) (h : Heap) (a : Nat), Acyclic rk h → rk a < d →
      ∃ h2, release (naiveDtor d) h a = some h2 ∧ Acyclic rk h2 := by
  intro d
  induction d with
  | zero =>
    intro h a _ hr
    exact absurd hr (Nat.not_lt_zero _)
  | succ d ih =>
    intro h a hac hr
    have hlist : ∀ (vs : List (Option Nat)) (g : Heap), Acyclic rk g →
        (∀ x, some x ∈ vs → rk x < d) →
        ∃ g2, naiveList (release (naiveDtor d)) vs g = some g2 ∧ Acyclic rk g2 := by
      intro vs
      induction vs with
      | nil =>
        intro g hg _
        exact ⟨g, rfl, hg⟩
      | cons v vs ihv =>
        intro g hg hvs
        cases v with
        | none =>
          simp only [naiveList]
          exact ihv g hg (fun x hx => hvs x (List.mem_cons_of_mem _ hx))
        | some x =>
          obtain ⟨g1, r1, a1⟩ := ih g x hg (hvs x (List.mem_cons_self _ _))
          simp only [naiveList, r1]
          exact ihv g1 a1 (fun y hy => hvs y (List.mem_cons_of_mem _ hy))
    unfold release
    split_ifs with hc
    · have hranks : ∀ x, some x ∈ (h.decr a).deps a → rk x < d := by
        intro x hx
        obtain ⟨j, hj⟩ := List.getElem_of_mem hx
        obtain ⟨hjl, hje⟩ := hj
        have hs : (h.decr a).slot a j = some x := by
          rw [← Heap.deps_getD, List.getD_eq_getElem _ _ hjl, hje]
        rw [Heap.slot_decr] at hs
        have := hac a j x hs
        omega
      obtain ⟨g2, r2, a2⟩ := hlist ((h.decr a).deps a) (h.decr a) (hac.decr a) hranks
      simp only [naiveDtor, r2, Option.map_some']
      exact ⟨_, rfl, a2.free a⟩
    · exact ⟨_, rfl, hac.decr a⟩


/-- On a memory in which the graph is acyclic, dropping a handle to the node
`a` with the iterative destructor gives the memory that the naive release
gives, whatever the depth of calls beyond two, once the deletion loops are
given enough iterations. -/
theorem dtor_follows_naive (rk : Nat → Nat) (h : Heap) (a : Nat) (hac : Acyclic rk h)
    (d : Nat) (hn2 : Heap) (hrel : release (naiveDtor d) h a = some hn2) :
    ∃ F, ∀ fuel depth, F ≤ fuel → release (dtor (depth + 2) fuel) h a = some hn2 := by
  unfold release at hrel ⊢
  by_cases hc : h.getCount a = 1
  · rw [if_pos hc] at hrel
    cases d with
    | zero => simp [naiveDtor] at hrel
    | succ d =>
      simp only [naiveDtor] at hrel
      cases hnl : naiveList (release (naiveDtor d)) ((h.decr a).deps a) (h.decr a) with
      | none => simp [hnl] at hrel
      | some hn3 =>
        simp only [hnl, Option.map_some', Option.some.injEq] at hrel
        obtain ⟨F, h2, e1, e2, _⟩ := sim_outer rk d a ((h.decr a).deps a) 0 (h.decr a)
          (h.decr a) hn3 (hac.decr a) (fun _ _ => rfl)
          (fun j => by rw [Nat.zero_add, Heap.deps_getD]) hnl
        refine ⟨F, fun fuel depth hF => ?_⟩
        rw [if_pos hc]
        have hd : dtor (depth + 2) fuel (h.decr a) a = some h2 := by
          simp only [dtor]
          rw [← Heap.deps_length, List.range_eq_range']
          exact e1 _ (dtor_nullSafe depth fuel) fuel hF
        rw [hd, Option.map_some', ← hrel]
        congr 1
        funext b
        by_cases hb : b = a
        · rw [hb, Heap.free_self, Heap.free_self]
        · rw [Heap.free_ne _ _ _ hb, Heap.free_ne _ _ _ hb]
          exact e2 b hb
  · rw [if_neg hc] at hrel
    exact ⟨0, fun fuel depth _ => by rw [if_neg hc]; exact hrel⟩

/-- The graph of the example is acyclic. -/
theorem exDiamond_acyclic : Acyclic (fun a => 4 - a) exDiamond := by
  intro a i c hs
  unfold Heap.slot exDiamond at hs
  rcases a with _ | _ | _ | _ | _ | a
  · rcases i with _ | _ | i <;> simp at hs <;> subst hs <;> decide
  · rcases i with _ | _ | i <;> simp at hs <;> subst hs <;> decide
  · rcases i with _ | _ | i <;> simp at hs <;> subst hs <;> decide
  · simp at hs
  · simp at hs
  · simp at hs

/-- The scan of the slots of the top element: when no dependency is found to
push, every scanned slot and every slot that was null is null afterwards. -/
theorem scanDeps_none (t : Nat) :
    ∀ (L : List Nat) (h h2 : Heap), scanDeps t L h = (h2, none) →
      ∀ j, (j ∈ L ∨ h.slot t j = none) → h2.slot t j = none := by
  intro L
  induction L with
  | nil =>
    intro h h2 hs j hj
    simp only [scanDeps, Prod.mk.injEq, and_true] at hs
    subst hs
    rcases hj with hj | hj
    · cases hj
    · exact hj
  | cons i L ih =>
    intro h h2 hs j hj
    unfold scanDeps at hs
    cases hv : h.slot t i with
    | none =>
      simp only [hv] at hs
      apply ih h h2 hs j
      rcases hj with hj | hj
      · rcases List.mem_cons.mp hj with e | e
        · right
          rw [e]
          exact hv
        · exact Or.inl e
      · exact Or.inr hj
    | some c =>
      simp only [hv] at hs
      split_ifs at hs with hc
      · simp at hs
      · apply ih _ h2 hs j
        by_cases hji : j = i
        · right
          rw [Heap.slot_decr, Heap.slot_setNull, if_pos ⟨rfl, hji⟩]
        · rcases hj with hj | hj
          · rcases List.mem_cons.mp hj with e | e
            · exact absurd e hji
            · exact Or.inl e
          · right
            rw [Heap.slot_decr, Heap.slot_setNull, if_neg (fun e => hji e.2)]
            exact hj

/-- C22: shared children survive destruction.  When the destructor examines a
slot of the node being destroyed (outer loop) or of the top element of the
deletion stack (inner loop) and the dependency `c` in it has a reference count
greater than one, the dependency is not pushed onto the deletion stack: the
loop goes on to the next slot in the memory in which only that slot was set to
null and the count of `c` was decremented; there the slot is null, the count of
`c` is one less and still positive, the dependency slots of `c` are unchanged,
and so are the other slots of the owner and all other nodes. -/
theorem shared_child_survives (nested : Heap → Nat → Option Heap) (fuel t i c : Nat)
    (rest : List Nat) (h : Heap) (hs : h.slot t i = some c) (hc : 1 < h.getCount c) :
    destroyDeps nested fuel t (i :: rest) h =
        destroyDeps nested fuel t rest ((h.setNull t i).decr c) ∧
      scanDeps t (i :: rest) h = scanDeps t rest ((h.setNull t i).decr c) ∧
      ((h.setNull t i).decr c).slot t i = none ∧
      ((h.setNull t i).decr c).getCount c = h.getCount c - 1 ∧
      1 ≤ ((h.setNull t i).decr c).getCount c ∧
      (c ≠ t → ((h.setNull t i).decr c).deps c = h.deps c) ∧
      (∀ j, j ≠ i → ((h.setNull t i).decr c).slot t j = h.slot t j) ∧
      (c ≠ t → ((h.setNull t i).decr c).getCount t = h.getCount t) ∧
      (∀ b, b ≠ t → b ≠ c → ((h.setNull t i).decr c) b = h b) := by
  have hne : h.getCount c ≠ 1 := by omega
  have hcnt : ((h.setNull t i).decr c).getCount c = h.getCount c - 1 := by
    rw [Heap.getCount_decr, if_pos rfl, Heap.getCount_setNull]
  refine ⟨?_, ?_, ?_, hcnt, ?_, ?_, ?_, ?_, ?_⟩
  · simp only [destroyDeps, hs, ne_eq, hne, not_false_eq_true, if_true]
  · simp only [scanDeps, hs, if_neg hne]
  · rw [Heap.slot_decr, Heap.slot_setNull, if_pos ⟨rfl, rfl⟩]
  · rw [hcnt]
    omega
  · intro hct
    unfold Heap.deps
    simp only [Heap.decr, if_true, Heap.setNull, if_neg hct]
    cases h c <;> rfl
  · intro j hj
    rw [Heap.slot_decr, Heap.slot_setNull, if_neg (fun e => hj e.2)]
  · intro hct
    rw [Heap.getCount_decr, if_neg (Ne.symm hct), Heap.getCount_setNull]
  · intro b hbt hbc
    rw [Heap.decr_ne _ _ _ hbc, Heap.setNull_ne _ _ _ _ hbt]

/-- Witness of C22: in the diamond the node 1 is on the stack and its second
dependency, the node 4, has two owners; the scan clears the slot, leaves the
node 4 alive with one owner and finds nothing to push. -/
theorem shared_child_survives_witness :
    exDiamond.slot 1 1 = some 4 ∧ 1 < exDiamond.getCount 4 ∧
      (scanDeps 1 [1] exDiamond).2 = none ∧
      ((exDiamond.setNull 1 1).decr 4).getCount 4 = 1 ∧
      ((exDiamond.setNull 1 1).decr 4).slot 1 1 = none :=
  have w := shared_child_survives (fun g _ => some g) 0 1 1 4 [] exDiamond (by decide)
    (by decide)
  ⟨by decide, by decide, by rw [w.2.1]; rfl, w.2.2.2.1, w.2.2.1⟩

/-- C23: no nested traversal during destruction.  Whenever the scan of the
top element of the deletion stack finds no dependency to push, so that the
element is popped, every dependency slot of the element is null; the element,
owned by the stack and the local handle only, is then destroyed by a destructor
that finds nothing to process, and the loop goes on with the rest of the stack
in the memory in which the element is released.  The destructor of a node whose
slots are all null returns the memory unchanged, whatever the depth of calls
left.  Consequently, on every acyclic graph, the destructor completes with a
call stack that holds two nested destructor calls, with the same result for
every greater depth. -/
theorem dtor_no_nested_traversal :
    (∀ (t : Nat) (h h2 : Heap),
        scanDeps t (List.range (h.ndep t)) h = (h2, none) → ∀ j, h2.slot t j = none) ∧
      (∀ (d depth fuel t : Nat) (h h2 : Heap) (rest : List Nat),
        scanDeps t (List.range ((h.incr t).ndep t)) (h.incr t) = (h2, none) →
        h2.getCount t = 2 →
        processStack (dtor (depth + 1) d) (fuel + 1) h (t :: rest) =
          processStack (dtor (depth + 1) d) fuel (h2.free t) rest) ∧
      (∀ (d fuel : Nat) (h : Heap) (t : Nat),
        (∀ j, h.slot t j = none) → dtor (d + 1) fuel h t = some h) ∧
      (∀ (rk : Nat → Nat) (h : Heap) (a : Nat), Acyclic rk h →
        ∃ F h2, ∀ fuel depth, F ≤ fuel →
          release (dtor (depth + 2) fuel) h a = some h2) := by
  have hnull : ∀ (t : Nat) (h h2 : Heap),
      scanDeps t (List.range (h.ndep t)) h = (h2, none) → ∀ j, h2.slot t j = none := by
    intro t h h2 hs j
    apply scanDeps_none t _ h h2 hs j
    by_cases hj : j < h.ndep t
    · exact Or.inl (List.mem_range.mpr hj)
    · exact Or.inr (Heap.slot_of_ndep_le h t j (by omega))
  refine ⟨hnull, ?_, ?_, ?_⟩
  · intro d depth fuel t h h2 rest hs hc
    have hp := processTop_pop (dtor (depth + 1) d) (dtor_nullSafe depth d) fuel t h2 rest hc
      (hnull t (h.incr t) h2 hs)
    rw [← hp]
    simp only [processStack, processTop, hs, scanDeps]
  · intro d fuel h t hs
    exact dtor_nullSafe d fuel h t hs
  · intro rk h a hac
    obtain ⟨h2, hr, _⟩ := naive_terminates rk (rk a + 1) h a hac (Nat.lt_succ_self _)
    obtain ⟨F, hF⟩ := dtor_follows_naive rk h a hac _ h2 hr
    exact ⟨F, h2, hF⟩

/-- C24: the iterative destructor refines ordinary reference counting.  On
every memory in which the graph is acyclic, dropping a handle to the node `a`
terminates both with the naive recursive release (given a recursion depth above
the rank of `a`) and with `MXNode::~MXNode` (given two nested calls and enough
iterations of the deletion loops), and both leave the same memory: the same
nodes are released, and the nodes that survive have the same reference counts
and the same dependencies. -/
theorem dtor_refines_naive (rk : Nat → Nat) (h : Heap) (a : Nat) (hac : Acyclic rk h) :
    ∃ h2, (∀ d, rk a < d → release (naiveDtor d) h a = some h2) ∧
      (∃ F, ∀ fuel depth, F ≤ fuel → release (dtor (depth + 2) fuel) h a = some h2) := by
  obtain ⟨h2, hr, _⟩ := naive_terminates rk (rk a + 1) h a hac (Nat.lt_succ_self _)
  obtain ⟨F, hF⟩ := dtor_follows_naive rk h a hac _ h2 hr
  refine ⟨h2, ?_, F, hF⟩
  intro d hd
  obtain ⟨h3, hr3, _⟩ := naive_terminates rk d h a hac hd
  obtain ⟨F3, hF3⟩ := dtor_follows_naive rk h a hac _ h3 hr3
  have e1 := hF (max F F3) 0 (le_max_left _ _)
  have e2 := hF3 (max F F3) 0 (le_max_right _ _)
  rw [e1] at e2
  rw [hr3, Option.some.inj e2]

/-- Witness of C24: dropping the handle of the node 0 of the diamond releases
the nodes 0 to 3 and leaves the node 4 with one owner, with the naive release
and with the iterative destructor alike. -/
theorem dtor_refines_naive_witness :
    (∃ F, ∀ fuel, F ≤ fuel →
        release (dtor 2 fuel) exDiamond 0 = release (naiveDtor 5) exDiamond 0) ∧
      (release (naiveDtor 5) exDiamond 0).map
          (fun g => ((List.range 6).map fun b => (g b).map fun n => n.count)) =
        some [none, none, none, none, some 1, none] ∧
      (release (dtor 2 10) exDiamond 0).map
          (fun g => ((List.range 6).map fun b => (g b).map fun n => n.count)) =
        some [none, none, none, none, some 1, none] :=
  match dtor_refines_naive (fun a => 4 - a) exDiamond 0 exDiamond_acyclic with
  | ⟨_, h1, F, h2⟩ =>
    ⟨⟨F, fun fuel hf => by rw [h2 fuel 0 hf, h1 5 (by decide)]⟩, by decide, by decide⟩

/-! ## Values of the rewrite rules, position by position -/

/-- A structural zero holds the value zero. -/
theorem valueAt_structural_zero (ρ : String → Nat × Nat → Rat) (e : MX) (q : Nat × Nat)
    (h : q ∉ e.sparsity.nz) : e.valueAt ρ q = some 0 := by
  cases e with
  | symbolic name sp =>
    simp only [MX.sparsity] at h
    simp only [MX.valueAt, if_neg h]
  | constant sp v =>
    simp only [MX.sparsity] at h
    simp only [MX.valueAt, if_neg h]
  | unary op x =>
    simp only [MX.sparsity] at h
    simp only [MX.valueAt, if_neg h]
  | binary scX scY op x y =>
    simp only [MX.sparsity] at h
    simp only [MX.valueAt, if_neg h]
  | setSparse x sp =>
    simp only [MX.sparsity] at h
    simp only [MX.valueAt, if_neg h]
  | broadcast sp x =>
    simp only [MX.sparsity] at h
    simp only [MX.valueAt, if_neg h]
  | filled x v =>
    simp only [MX.sparsity, sp_dense] at h
    simp only [MX.valueAt, MX.size1, MX.size2, if_neg h]

/-- Every entry of an identically zero node has the value zero. -/
theorem valueAt_of_isZero (ρ : String → Nat × Nat → Rat) (y : MX) (q : Nat × Nat)
    (h : y.isZero = true) : y.valueAt ρ q = some 0 := by
  cases y <;> simp only [MX.isZero, Bool.false_eq_true, beq_iff_eq] at h
  subst h
  simp [MX.valueAt]

/-- A stored entry of a node of known value `w` has the value `w`. -/
theorem valueAt_of_isValue (ρ : String → Nat × Nat → Rat) (y : MX) (w : Rat) (q : Nat × Nat)
    (h : y.isValue w = true) (hq : q ∈ y.sparsity.nz) : y.valueAt ρ q = some w := by
  cases y <;> simp only [MX.isValue, Bool.false_eq_true, beq_iff_eq] at h
  subst h
  simp only [MX.sparsity] at hq
  simp only [MX.valueAt, if_pos hq]

/-- Every entry of `-z` is the negated entry of `z`. -/
theorem valueAt_neg (ρ : String → Nat × Nat → Rat) (z : MX) (q : Nat × Nat) :
    (MX.unary .OP_NEG z).valueAt ρ q = (z.valueAt ρ q).bind fun c => some (-c) := by
  by_cases h : q ∈ z.sparsity.nz
  · simp only [MX.valueAt, if_pos h, casadi_math_fun]
  · rw [valueAt_structural_zero ρ z q h]
    simp only [MX.valueAt, if_neg h, Option.some_bind, neg_zero]

/-- A stored entry of `1/z` is the reciprocal of the entry of `z`, and has no
value when that entry is zero; a structural zero of `z` is one of `1/z`. -/
theorem valueAt_inv (ρ : String → Nat × Nat → Rat) (z : MX) (q : Nat × Nat) :
    (q ∈ z.sparsity.nz → (MX.unary .OP_INV z).valueAt ρ q =
        (z.valueAt ρ q).bind fun c => if c = 0 then none else some (1 / c)) ∧
      (q ∉ z.sparsity.nz → (MX.unary .OP_INV z).valueAt ρ q = some 0 ∧
        z.valueAt ρ q = some 0) := by
  constructor
  · intro h
    simp only [MX.valueAt, if_pos h, casadi_math_fun]
  · intro h
    exact ⟨by simp only [MX.valueAt, if_neg h], valueAt_structural_zero ρ z q h⟩

/-- The values of the requests that the rules of the switch of `getBinary`
exchange for one another. -/
theorem requestAt_rewrite (ρ : String → Nat × Nat → Rat) (op : Operation) (x y z : MX)
    (scX scY : Bool) (p : Nat × Nat) :
    ((∀ a b, casadi_math_fun op a b = casadi_math_fun op b a) →
        requestAt ρ op y x scY scX p = requestAt ρ op x y scX scY p) ∧
      requestAt ρ .OP_SUB x z scX scY p = requestAt ρ .OP_ADD x (.unary .OP_NEG z) scX scY p ∧
      requestAt ρ .OP_ADD x z scX scY p = requestAt ρ .OP_SUB x (.unary .OP_NEG z) scX scY p ∧
      (readAt scY p ∈ z.sparsity.nz →
        requestAt ρ .OP_DIV x z scX scY p =
          requestAt ρ .OP_MUL x (.unary .OP_INV z) scX scY p) ∧
      (readAt scY p ∉ z.sparsity.nz →
        requestAt ρ .OP_DIV x z scX scY p = none ∧
          requestAt ρ .OP_MUL x (.unary .OP_INV z) scX scY p =
            (x.valueAt ρ (readAt scX p)).map fun _ => 0) ∧
      (∀ v, requestAt ρ .OP_DIV x (.unary .OP_INV z) scX scY p = some v →
        requestAt ρ .OP_MUL x z scX scY p = some v) ∧
      (readAt scY p ∉ z.sparsity.nz →
        requestAt ρ .OP_DIV x (.unary .OP_INV z) scX scY p = none) := by
  refine ⟨?_, ?_, ?_, ?_, ?_, ?_, ?_⟩
  · intro hc
    unfold requestAt
    cases x.valueAt ρ (readAt scX p) <;> cases y.valueAt ρ (readAt scY p) <;>
      simp [hc]
  · unfold requestAt
    rw [valueAt_neg]
    cases x.valueAt ρ (readAt scX p) <;> cases z.valueAt ρ (readAt scY p) <;>
      simp [casadi_math_fun, sub_eq_add_neg]
  · unfold requestAt
    rw [valueAt_neg]
    cases x.valueAt ρ (readAt scX p) <;> cases z.valueAt ρ (readAt scY p) <;>
      simp [casadi_math_fun]
  · intro h
    unfold requestAt
    rw [(valueAt_inv ρ z _).1 h]
    cases x.valueAt ρ (readAt scX p) with
    | none => rfl
    | some a =>
      cases z.valueAt ρ (readAt scY p) with
      | none => rfl
      | some c =>
        by_cases hc : c = 0
        · simp [casadi_math_fun, hc]
        · simp [casadi_math_fun, hc, div_eq_mul_inv]
  · intro h
    unfold requestAt
    rw [((valueAt_inv ρ z _).2 h).1, ((valueAt_inv ρ z _).2 h).2]
    cases x.valueAt ρ (readAt scX p) <;> simp [casadi_math_fun]
  · intro v hv
    unfold requestAt at hv ⊢
    by_cases h : readAt scY p ∈ z.sparsity.nz
    · rw [(valueAt_inv ρ z _).1 h] at hv
      cases hx : x.valueAt ρ (readAt scX p) with
      | none => simp [hx] at hv
      | some a =>
        cases hz : z.valueAt ρ (readAt scY p) with
        | none => simp [hx, hz] at hv
        | some c =>
          by_cases hc : c = 0
          · simp [hx, hz, hc] at hv
          · simp only [hx, hz, hc, Option.some_bind, if_false, casadi_math_fun] at hv ⊢
            have h1 : (1 / c : Rat) ≠ 0 := one_div_ne_zero hc
            rw [if_neg h1] at hv
            rw [← hv]
            congr 1
            field_simp
    · rw [((valueAt_inv ρ z _).2 h).1] at hv
      cases hx : x.valueAt ρ (readAt scX p) <;> simp [hx, casadi_math_fun] at hv
  · intro h
    unfold requestAt
    rw [((valueAt_inv ρ z _).2 h).1]
    cases x.valueAt ρ (readAt scX p) <;> simp [casadi_math_fun]

/-- The value of what the square rule returns, and of the power it stands for. -/
theorem getUnary_sq_valueAt (T : Calculus) (ρ : String → Nat × Nat → Rat) (x y : MX)
    (scX scY : Bool) (p : Nat × Nat) (h2 : y.isValue 2 = true) :
    ∃ r, (getUnary T .OP_SQ x).out = .ok r ∧
      r.valueAt ρ (readAt scX p) = (x.valueAt ρ (readAt scX p)).map (fun a => a * a) ∧
      (readAt scY p ∈ y.sparsity.nz →
        requestAt ρ .OP_CONSTPOW x y scX scY p = r.valueAt ρ (readAt scX p)) ∧
      (readAt scY p ∉ y.sparsity.nz →
        requestAt ρ .OP_CONSTPOW x y scX scY p =
          (x.valueAt ρ (readAt scX p)).map fun _ => 1) := by
  have hr : ∃ r, (getUnary T .OP_SQ x).out = .ok r ∧
      r.valueAt ρ (readAt scX p) = (x.valueAt ρ (readAt scX p)).map (fun a => a * a) := by
    unfold getUnary
    by_cases hz : (T.F0XChecker .OP_SQ && x.isZero) = true
    · rw [if_pos hz]
      simp only [Bool.and_eq_true] at hz
      refine ⟨_, rfl, ?_⟩
      rw [valueAt_of_isZero ρ x _ hz.2]
      simp [MX.sparse, MX.valueAt]
    · rw [if_neg hz]
      refine ⟨_, rfl, ?_⟩
      by_cases hq : readAt scX p ∈ x.sparsity.nz
      · simp only [MX.valueAt, if_pos hq, casadi_math_fun]
        cases x.valueAt ρ (readAt scX p) <;> rfl
      · rw [valueAt_structural_zero ρ x _ hq]
        simp [MX.valueAt, hq]
  obtain ⟨r, hr1, hr2⟩ := hr
  refine ⟨r, hr1, hr2, ?_, ?_⟩
  · intro hq
    rw [hr2]
    unfold requestAt
    rw [valueAt_of_isValue ρ y 2 _ h2 hq]
    cases x.valueAt ρ (readAt scX p) with
    | none => rfl
    | some a =>
      simp only [Option.some_bind, Option.map_some', casadi_math_fun]
      have h1 : (2 : Rat).den = 1 := rfl
      have h2 : (2 : Rat).num = 2 := rfl
      rw [if_pos h1, h2, if_neg (by norm_num)]
      exact congrArg some (zpow_two a)
  · intro hq
    unfold requestAt
    rw [valueAt_structural_zero ρ y _ hq]
    cases x.valueAt ρ (readAt scX p) with
    | none => rfl
    | some a =>
      simp only [Option.some_bind, Option.map_some', casadi_math_fun]
      have h1 : (0 : Rat).den = 1 := rfl
      have h2 : (0 : Rat).num = 0 := rfl
      rw [if_pos h1, h2, if_neg (by norm_num)]
      exact congrArg some (zpow_zero a)

/-- The value of the request that a collapse rule answers by `x`. -/
theorem requestAt_collapse (T : Calculus) (ρ : String → Nat × Nat → Rat) (op : Operation)
    (x y : MX) (scX scY : Bool) (p : Nat × Nat) (h : specialCase T op x y = .collapse)
    (hq : op = .OP_ADD ∨ op = .OP_SUB ∨ readAt scY p ∈ y.sparsity.nz) :
    requestAt ρ op x y scX scY p = x.valueAt ρ (readAt scX p) := by
  obtain ⟨_, hc⟩ := (specialCase_spec T op x y).2.2.1 h
  unfold requestAt
  rcases hc with ⟨hop, hz⟩ | ⟨hop, h1⟩
  · rw [valueAt_of_isZero ρ y _ hz]
    rcases hop with hop | hop <;> subst hop <;>
      cases x.valueAt ρ (readAt scX p) <;> simp [casadi_math_fun]
  · have hq2 : readAt scY p ∈ y.sparsity.nz := by
      rcases hq with hq | hq | hq
      · rcases hop with hop | hop <;> rw [hop] at hq <;> exact absurd hq (by decide)
      · rcases hop with hop | hop <;> rw [hop] at hq <;> exact absurd hq (by decide)
      · exact hq
    rw [valueAt_of_isValue ρ y 1 _ h1 hq2]
    rcases hop with hop | hop <;> subst hop <;>
      cases x.valueAt ρ (readAt scX p) <;> simp [casadi_math_fun]

/-- What `getBinarySwitch` returns for a scalar first operand when a collapse
rule fires: the scalar broadcast onto the pattern of `y`, which holds zero at
every structural zero of `y`. -/
theorem getBinarySwitch_collapse (T : Calculus) (ρ : String → Nat × Nat → Rat)
    (op : Operation) (x y : MX) (p : Nat × Nat) (h : specialCase T op x y = .collapse)
    (hs : x.sparsity.scalar = true) (hx : x.size ≠ 0)
    (hq : ¬ ((T.F0XChecker op = true ∧ x.isZero = true) ∨
      (T.FX0Checker op = true ∧ y.isZero = true))) :
    getBinarySwitch T op x y = ⟨[], .ok (x.toMatrix y.sparsity)⟩ ∧
      (x.sparsity.shape ≠ y.sparsity.shape →
        (x.toMatrix y.sparsity).valueAt ρ p =
          if p ∈ y.sparsity.nz then x.valueAt ρ (0, 0) else some 0) := by
  constructor
  · unfold getBinarySwitch
    rw [if_neg (not_not_intro (Or.inl hs)), if_neg hq, if_pos hs, if_neg hx,
      getBinary_of_collapse T op x y true false h]
    rfl
  · intro hne
    unfold MX.toMatrix
    rw [if_neg hne]
    simp only [MX.valueAt]

/-- C18: the values of the rewrite rules of `getBinary`, position by position,
with the operations interpreted exactly over the rationals and structural
zeros holding the value zero.  The operand swap (for an operation that
commutes) and the rules `x+(-z)` to `x-z` and `x-(-z)` to `x+z` exchange the
request for one of the same value at every position, under every assignment
and every setting of the scalar flags.  The rule `x*(1/z)` to `x/z` does so at
the positions that `z` stores; at a structural zero of `z` the request has the
value `x*0` and the new request `x/0` has none.  The rule `x/(1/z)` to `x*z`
keeps every value that the request has.  The rule `x^2` to `sq(x)` returns an
expression of the value `x*x`, which is the requested value where `y` stores
its 2; at a structural zero of `y` the requested value is `x^0 = 1`.  The rules
`x+0`, `x-0`, `x*1`, `x/1` return `x`, whose entry (its single entry when it is
flagged scalar) is the requested value, for the product and the quotient where
`y` stores its 1.  But `getBinarySwitch` broadcasts a scalar `x` that such a
rule returns onto the pattern of `y`: the result holds zero at every structural
zero of `y`, where `x+0` and `x-0` have the value of `x`. -/
theorem getBinary_rewrite_values (T : Calculus) (ρ : String → Nat × Nat → Rat)
    (op : Operation) (x y : MX) (scX scY : Bool) (p : Nat × Nat) :
    (specialCase T op x y = .swap →
        getBinary T op x y scX scY = getBinary T op y x scY scX ∧
        ((∀ a b, casadi_math_fun op a b = casadi_math_fun op b a) →
          requestAt ρ op y x scY scX p = requestAt ρ op x y scX scY p)) ∧
      (specialCase T op x y = .negAdd → ∀ z, y = .unary .OP_NEG z →
        getBinary T op x y scX scY = getBinary T .OP_SUB x z scX scY ∧
        requestAt ρ .OP_SUB x z scX scY p = requestAt ρ op x y scX scY p) ∧
      (specialCase T op x y = .negSub → ∀ z, y = .unary .OP_NEG z →
        getBinary T op x y scX scY = getBinary T .OP_ADD x z scX scY ∧
        requestAt ρ .OP_ADD x z scX scY p = requestAt ρ op x y scX scY p) ∧
      (specialCase T op x y = .invMul → ∀ z, y = .unary .OP_INV z →
        getBinary T op x y scX scY = getBinary T .OP_DIV x z scX scY ∧
        (readAt scY p ∈ z.sparsity.nz →
          requestAt ρ .OP_DIV x z scX scY p = requestAt ρ op x y scX scY p) ∧
        (readAt scY p ∉ z.sparsity.nz →
          requestAt ρ .OP_DIV x z scX scY p = none ∧
            requestAt ρ op x y scX scY p = (x.valueAt ρ (readAt scX p)).map fun _ => 0)) ∧
      (specialCase T op x y = .invDiv → ∀ z, y = .unary .OP_INV z →
        getBinary T op x y scX scY = getBinary T .OP_MUL x z scX scY ∧
        (∀ v, requestAt ρ op x y scX scY p = some v →
          requestAt ρ .OP_MUL x z scX scY p = some v) ∧
        (readAt scY p ∉ z.sparsity.nz → requestAt ρ op x y scX scY p = none)) ∧
      (specialCase T op x y = .square →
        getBinary T op x y scX scY = getUnary T .OP_SQ x ∧
        ∃ r, (getUnary T .OP_SQ x).out = .ok r ∧
          r.valueAt ρ (readAt scX p) = (x.valueAt ρ (readAt scX p)).map (fun a => a * a) ∧
          (readAt scY p ∈ y.sparsity.nz →
            requestAt ρ op x y scX scY p = r.valueAt ρ (readAt scX p)) ∧
          (readAt scY p ∉ y.sparsity.nz →
            requestAt ρ op x y scX scY p = (x.valueAt ρ (readAt scX p)).map fun _ => 1)) ∧
      (specialCase T op x y = .collapse →
        getBinary T op x y scX scY = Built.ret x ∧
        (op = .OP_ADD ∨ op = .OP_SUB ∨ readAt scY p ∈ y.sparsity.nz →
          requestAt ρ op x y scX scY p = x.valueAt ρ (readAt scX p)) ∧
        (x.sparsity.scalar = true → x.size ≠ 0 →
          ¬ ((T.F0XChecker op = true ∧ x.isZero = true) ∨
            (T.FX0Checker op = true ∧ y.isZero = true)) →
          getBinarySwitch T op x y = ⟨[], .ok (x.toMatrix y.sparsity)⟩ ∧
          (x.sparsity.shape ≠ y.sparsity.shape →
            (x.toMatrix y.sparsity).valueAt ρ p =
              if p ∈ y.sparsity.nz then x.valueAt ρ (0, 0) else some 0))) := by
  obtain ⟨s1, s2, s3, s4, s5, s6, s7⟩ := specialCase_spec T op x y
  refine ⟨?_, ?_, ?_, ?_, ?_, ?_, ?_⟩
  · intro h
    exact ⟨getBinary_of_swap T op x y scX scY h,
      (requestAt_rewrite ρ op x y x scX scY p).1⟩
  · intro h z hz
    obtain ⟨_, hop⟩ := s4 h
    subst hz
    subst hop
    exact ⟨getBinary_of_negAdd T _ x _ z scX scY h rfl,
      (requestAt_rewrite ρ .OP_ADD x x z scX scY p).2.1⟩
  · intro h z hz
    obtain ⟨_, hop⟩ := s5 h
    subst hz
    subst hop
    exact ⟨getBinary_of_negSub T _ x _ z scX scY h rfl,
      (requestAt_rewrite ρ .OP_SUB x x z scX scY p).2.2.1⟩
  · intro h z hz
    obtain ⟨_, hop⟩ := s6 h
    subst hz
    subst hop
    exact ⟨getBinary_of_invMul T _ x _ z scX scY h rfl,
      (requestAt_rewrite ρ .OP_MUL x x z scX scY p).2.2.2.1,
      (requestAt_rewrite ρ .OP_MUL x x z scX scY p).2.2.2.2.1⟩
  · intro h z hz
    obtain ⟨_, hop⟩ := s7 h
    subst hz
    subst hop
    exact ⟨getBinary_of_invDiv T _ x _ z scX scY h rfl,
      (requestAt_rewrite ρ .OP_DIV x x z scX scY p).2.2.2.2.2.1,
      (requestAt_rewrite ρ .OP_DIV x x z scX scY p).2.2.2.2.2.2⟩
  · intro h
    obtain ⟨_, hop, h2⟩ := s2 h
    subst hop
    exact ⟨getBinary_of_square T _ x y scX scY h, getUnary_sq_valueAt T ρ x y scX scY p h2⟩
  · intro h
    exact ⟨getBinary_of_collapse T op x y scX scY h,
      requestAt_collapse T ρ op x y scX scY p h,
      fun hs hx hq => getBinarySwitch_collapse T ρ op x y p h hs hx hq⟩

/-- Witness of C18: with every entry 3 the request `x0 / (1/x0)` has the value
9, and so has the request `x0 * x0` that the reciprocal rule exchanges it
for. -/
theorem getBinary_rewrite_values_witness :
    requestAt exAssign .OP_DIV exSym (.unary .OP_INV exSym) false false (0, 0) = some 9 ∧
      requestAt exAssign .OP_MUL exSym exSym false false (0, 0) = some 9 :=
  have hv : requestAt exAssign .OP_DIV exSym (.unary .OP_INV exSym) false false (0, 0) =
      some 9 := by
    have h1 : ((0, 0) : Nat × Nat) ∈ (sp_dense 1 1).nz := by decide
    simp only [requestAt, readAt, MX.valueAt, MX.sparsity, exSym, exAssign, casadi_math_fun,
      if_pos h1, Bool.false_eq_true, if_false, Option.some_bind]
    norm_num
  ⟨hv, ((getBinary_rewrite_values arithCalculus exAssign .OP_DIV exSym
    (.unary .OP_INV exSym) false false (0, 0)).2.2.2.2.1 (by decide) exSym rfl).2.1 9 hv⟩

/-- C18, failing input: the difference of the scalar `x0` and the 2-by-2 value
`MX::sparse(2,2)` without stored entries.  The rule `x-0` returns `x0`, and
`getBinarySwitch` broadcasts it onto the empty pattern: with `x0 = 3` the
result holds 0 at the position (0,1), where `x0 - 0` has the value 3.  Without
a rule, for the sparse symbolic matrix `B` in the place of the zero, the matrix
is densified first and the result holds `3 - 0 = 3` at its structural zero
(0,1). -/
theorem getBinary_rewrite_values_counterexample :
    getBinarySwitch arithCalculus .OP_SUB exSym (MX.sparse 2 2) =
        ⟨[], .ok (.broadcast (sp_sparse 2 2) exSym)⟩ ∧
      (MX.broadcast (sp_sparse 2 2) exSym).valueAt exAssign (0, 1) = some 0 ∧
      requestAt exAssign .OP_SUB exSym (MX.sparse 2 2) true false (0, 1) = some 3 ∧
      getBinarySwitch arithCalculus .OP_SUB exSym exSparseMat =
        ⟨[.setSparse exSparseMat (sp_dense 2 2),
            .binary true false .OP_SUB exSym (.setSparse exSparseMat (sp_dense 2 2))],
          .ok (.binary true false .OP_SUB exSym (.setSparse exSparseMat (sp_dense 2 2)))⟩ ∧
      (MX.binary true false .OP_SUB exSym
        (.setSparse exSparseMat (sp_dense 2 2))).valueAt exAssign (0, 1) = some 3 ∧
      requestAt exAssign .OP_SUB exSym exSparseMat true false (0, 1) = some 3 := by
  have h1 : ((0, 0) : Nat × Nat) ∈ (sp_dense 1 1).nz := by decide
  have h2 : ((0, 1) : Nat × Nat) ∈ (sp_dense 2 2).nz := by decide
  have h3 : ((0, 1) : Nat × Nat) ∉ (sp_sparse 2 2).nz := by decide
  have h4 : ((0, 1) : Nat × Nat) ∉ [((0, 0) : Nat × Nat)] := by decide
  refine ⟨?_, ?_, ?_, ?_, ?_, ?_⟩
  · exact (getBinarySwitch_collapse arithCalculus exAssign .OP_SUB exSym (MX.sparse 2 2)
      (0, 1) (by decide) (by decide) (by decide) (by decide)).1
  · simp only [MX.valueAt, if_neg h3]
  · simp only [requestAt, readAt, MX.valueAt, MX.sparse, exSym, exAssign, casadi_math_fun,
      if_pos h1, if_neg h3, if_true, Bool.false_eq_true, if_false, Option.some_bind]
    norm_num
  · have h : getBinarySwitch arithCalculus .OP_SUB exSym exSparseMat =
        (getBinary arithCalculus .OP_SUB exSym exSparseMat true false).map
          fun r => r.toMatrix exSparseMat.sparsity := by
      unfold getBinarySwitch
      rw [if_neg (by decide), if_neg (by decide), if_pos (by decide), if_neg (by decide)]
    rw [h, (getBinary_noRule_broadcast arithCalculus .OP_SUB exSym exSparseMat false
      (by decide)).1.2.1 (by decide)]
    rfl
  · simp only [MX.valueAt, MX.sparsity, readAt, exSym, exSparseMat, exAssign,
      casadi_math_fun, if_pos h1, if_pos h2, if_neg h4, if_true, Bool.false_eq_true,
      if_false, Option.some_bind]
    norm_num
  · simp only [requestAt, readAt, MX.valueAt, exSym, exSparseMat, exAssign, casadi_math_fun,
      if_pos h1, if_neg h4, if_true, Bool.false_eq_true, if_false, Option.some_bind]
    norm_num

end CasADi
